import Mathlib

/-! TND004 lab 4: shortest-path trees, minimum spanning trees, disjoint sets.

A shallow embedding of `lab4/code4a/edge.h`, `lab4/code4a/digraph.cpp`,
`lab4/code4b/dsets.cpp` and `lab4/code4b/graph.cpp`, followed by the properties
proved about it.

Conventions of the embedding.

* A C++ `int` is a Lean `Int`; an addition whose result can leave the 32-bit range
  goes through `wrap`.  The entries of `DSets::V` and the edge counters are bounded
  by the number of cells the object holds in memory and are left unwrapped.
* A `std::vector<T>` indexed by vertex number is the function `Int → T` of its
  index; the vertex count is kept next to it (`size`).  Slot zero is never used as
  a vertex.
* A failed `assert` makes the operation return `none`.
* Loops whose number of iterations is not syntactically bounded carry a fuel
  argument and return `none` when it runs out.
-/

namespace TND004

/-! ## Machine integers and vectors -/

/-- The value of `std::numeric_limits<int>::max()`. -/
def INT_MAX : Int := 2147483647

/-- Reduction of an integer to the range of a 32-bit two's-complement `int`. -/
def wrap (x : Int) : Int := (x + 2147483648) % 4294967296 - 2147483648

/-- The assignment `f[i] = x` on a vector seen as a function of its index. -/
def upd {α : Type} (f : Int → α) (i : Int) (x : α) : Int → α :=
  fun j => if j = i then x else f j

/-- The values taken by `v` in `for (int v = 1; v <= size; ++v)`. -/
def vertices (size : Int) : List Int :=
  (List.range size.toNat).map (fun (i : Nat) => (i : Int) + 1)

/-! ## edge.h -/

/-- The class `Edge`: a directed edge `from_ → to_` with a weight. -/
structure Edge where
  from_ : Int
  to_ : Int
  weight : Int
deriving DecidableEq

/-- The method `Edge::links_same_nodes`. -/
def Edge.links_same_nodes (e ed : Edge) : Bool :=
  e.from_ == ed.from_ && e.to_ == ed.to_

/-- The method `Edge::reverse`. -/
def Edge.reverse (e : Edge) : Edge := ⟨e.to_, e.from_, e.weight⟩

/-- The branch `it->weight = e.weight` of the insertion: the first entry that links the
same nodes as `e` gets the weight of `e`. -/
def updateWeight (e : Edge) : List Edge → List Edge
  | [] => []
  | ed :: rest =>
    if e.links_same_nodes ed then { ed with weight := e.weight } :: rest
    else ed :: updateWeight e rest

/-- The call `erase(it)` of the removal, `it` being the first entry that links the same
nodes as `e`. -/
def eraseFirst (e : Edge) : List Edge → List Edge
  | [] => []
  | ed :: rest => if e.links_same_nodes ed then rest else ed :: eraseFirst e rest

/-! ## digraph.cpp -/

/-- The data members of `Digraph`. -/
structure Digraph where
  table : Int → List Edge
  size : Int
  n_edges : Int
  dist : Int → Int
  path : Int → Int
  done : Int → Bool

/-- The constructor `Digraph::Digraph(int n)`. -/
def Digraph.create (n : Int) : Option Digraph :=
  if 1 ≤ n then
    some ⟨fun _ => [], n, 0, fun _ => 0, fun _ => 0, fun _ => false⟩
  else none

/-- The method `Digraph::insertEdge`. -/
def Digraph.insertEdge (g : Digraph) (e : Edge) : Option Digraph :=
  if 1 ≤ e.from_ ∧ e.from_ ≤ g.size ∧ 1 ≤ e.to_ ∧ e.to_ ≤ g.size then
    if (g.table e.from_).any (fun ed => e.links_same_nodes ed) then
      some { g with table := upd g.table e.from_ (updateWeight e (g.table e.from_)) }
    else
      some { g with table := upd g.table e.from_ (g.table e.from_ ++ [e]),
                    n_edges := g.n_edges + 1 }
  else none

/-- The method `Digraph::removeEdge`. -/
def Digraph.removeEdge (g : Digraph) (e : Edge) : Option Digraph :=
  if 1 ≤ e.from_ ∧ e.from_ ≤ g.size ∧ 1 ≤ e.to_ ∧ e.to_ ≤ g.size then
    if (g.table e.from_).any (fun ed => e.links_same_nodes ed) then
      some { g with table := upd g.table e.from_ (eraseFirst e (g.table e.from_)),
                    n_edges := g.n_edges - 1 }
    else none
  else none

/-- The loop `for (auto e : V) insertEdge(e)` of the second constructor. -/
def Digraph.insertAll : List Edge → Digraph → Option Digraph
  | [], g => some g
  | e :: rest, g =>
    match g.insertEdge e with
    | some g1 => Digraph.insertAll rest g1
    | none => none

/-- The constructor `Digraph::Digraph(const std::vector<Edge>& V, int n)`. -/
def Digraph.ofEdges (V : List Edge) (n : Int) : Option Digraph :=
  match Digraph.create n with
  | some g => Digraph.insertAll V g
  | none => none

/-- The variables of `uwsssp` that its loops change. -/
structure BfsState where
  dist : Int → Int
  path : Int → Int
  Q : List Int

/-- The first loop of `uwsssp`: every vertex gets distance `INT_MAX` and parent 0. -/
def uwsssp_init (size : Int) (dist path : Int → Int) : (Int → Int) × (Int → Int) :=
  (vertices size).foldl (fun st v => (upd st.1 v INT_MAX, upd st.2 v 0)) (dist, path)

/-- The loop `for (auto& edge : table[v])` of `uwsssp`, over the rest of the list. -/
def uwsssp_edges (v : Int) : List Edge → BfsState → BfsState
  | [], st => st
  | edge :: rest, st =>
    if st.dist edge.to_ = INT_MAX then
      uwsssp_edges v rest
        ⟨upd st.dist edge.to_ (wrap (st.dist v + 1)), upd st.path edge.to_ v,
          st.Q ++ [edge.to_]⟩
    else uwsssp_edges v rest st

/-- The loop `while (!Q.empty())` of `uwsssp`. -/
def uwsssp_loop (table : Int → List Edge) : Nat → BfsState → Option BfsState
  | 0, _ => none
  | fuel + 1, st =>
    match st.Q with
    | [] => some st
    | v :: q => uwsssp_loop table fuel (uwsssp_edges v (table v) { st with Q := q })

/-- The method `Digraph::uwsssp`.  The queue is popped at most once per vertex, so
`size` iterations and the final test are all the loop can take. -/
def Digraph.uwsssp (g : Digraph) (s : Int) : Option Digraph :=
  if 1 ≤ s ∧ s ≤ g.size then
    let i := uwsssp_init g.size g.dist g.path
    match uwsssp_loop g.table (g.size.toNat + 1) ⟨upd i.1 s 0, i.2, [s]⟩ with
    | some st => some { g with dist := st.dist, path := st.path }
    | none => none
  else none

/-- The variables of `pwsssp` that its loops change. -/
structure DijkstraState where
  dist : Int → Int
  path : Int → Int
  done : Int → Bool

/-- The first loop of `pwsssp`, which also resets slot zero. -/
def pwsssp_init (size : Int) (st : DijkstraState) : DijkstraState :=
  (0 :: vertices size).foldl
    (fun st v => ⟨upd st.dist v INT_MAX, upd st.path v 0, upd st.done v false⟩) st

/-- The loop `for (auto& edge : table[v])` of `pwsssp`, over the rest of the list. -/
def pwsssp_edges (v : Int) : List Edge → DijkstraState → DijkstraState
  | [], st => st
  | edge :: rest, st =>
    if st.done edge.to_ = false ∧ st.dist edge.to_ > wrap (st.dist v + edge.weight) then
      pwsssp_edges v rest
        { st with dist := upd st.dist edge.to_ (wrap (st.dist v + edge.weight)),
                  path := upd st.path edge.to_ v }
    else pwsssp_edges v rest st

/-- The loop of `find_smallest_undone_distance_vertex`, on the pair
`(min_dist_val, best_v_idx)`. -/
def smallest_scan (dist : Int → Int) (done : Int → Bool) :
    List Int → Int × Int → Int × Int
  | [], acc => acc
  | v :: rest, acc =>
    if done v = false ∧ dist v < acc.1 then smallest_scan dist done rest (dist v, v)
    else smallest_scan dist done rest acc

/-- The method `Digraph::find_smallest_undone_distance_vertex`. -/
def find_smallest_undone_distance_vertex (size : Int) (dist : Int → Int)
    (done : Int → Bool) : Int :=
  (smallest_scan dist done (vertices size) (INT_MAX, 0)).2

/-- The loop `while (true)` of `pwsssp`, entered with the vertex `v` just settled. -/
def pwsssp_loop (table : Int → List Edge) (size : Int) :
    Nat → Int → DijkstraState → Option DijkstraState
  | 0, _, _ => none
  | fuel + 1, v, st =>
    let st1 := pwsssp_edges v (table v) st
    let v1 := find_smallest_undone_distance_vertex size st1.dist st1.done
    if v1 = 0 then some st1
    else pwsssp_loop table size fuel v1 { st1 with done := upd st1.done v1 true }

/-- The method `Digraph::pwsssp`.  Every iteration but the last settles a vertex that
was not settled, so the body runs at most `size` times. -/
def Digraph.pwsssp (g : Digraph) (s : Int) : Option Digraph :=
  if 1 ≤ s ∧ s ≤ g.size then
    let i := pwsssp_init g.size ⟨g.dist, g.path, g.done⟩
    match pwsssp_loop g.table g.size g.size.toNat s
        ⟨upd i.dist s 0, i.path, upd i.done s true⟩ with
    | some st => some { g with dist := st.dist, path := st.path, done := st.done }
    | none => none
  else none

/-- The method `Digraph::printPathRecursion`: the vertices it writes to `std::cout`, in
the order in which it writes them. -/
def printPathRecursion (path : Int → Int) : Nat → Int → Option (List Int)
  | 0, _ => none
  | fuel + 1, t =>
    if path t = 0 then some [t]
    else
      match printPathRecursion path fuel (path t) with
      | some l => some (l ++ [t])
      | none => none

/-- The method `Digraph::printPath`: the vertices and the path length it writes.  A chain
of parent pointers of a tree visits no vertex twice, so `size` nested calls are all the
recursion can take. -/
def Digraph.printPath (g : Digraph) (t : Int) : Option (List Int × Int) :=
  if 1 ≤ t ∧ t ≤ g.size then
    match printPathRecursion g.path g.size.toNat t with
    | some l => some (l, g.dist t)
    | none => none
  else none

/-! ## dsets.cpp -/

/-- The class `DSets`: `size` is `std::ssize(V) - 1`. -/
structure DSets where
  size : Int
  V : Int → Int

/-- The method `DSets::init`. -/
def DSets.init (size : Int) (V : Int → Int) : Int → Int :=
  (vertices size).foldl (fun V i => upd V i (-1)) V

/-- The constructor `DSets::DSets(int theSize)`. -/
def DSets.create (theSize : Int) : Option DSets :=
  if theSize > 0 then some ⟨theSize, DSets.init theSize (fun _ => 0)⟩ else none

/-- The method `DSets::join`. -/
def DSets.join (D : DSets) (r s : Int) : Option DSets :=
  if r ≠ s ∧ (1 ≤ r ∧ r ≤ D.size) ∧ (1 ≤ s ∧ s ≤ D.size) ∧ D.V r < 0 ∧ D.V s < 0 then
    let sizeR := - D.V r
    let sizeS := - D.V s
    if sizeR ≥ sizeS then
      let V1 := upd D.V s r
      some { D with V := upd V1 r (V1 r - sizeS) }
    else
      let V1 := upd D.V r s
      some { D with V := upd V1 s (V1 s - sizeR) }
  else none

/-- The recursion of `DSets::find` on the vector `V`: the result is the vector after the
call and the value returned. -/
def DSets.findAux (size : Int) : Nat → (Int → Int) → Int → Option ((Int → Int) × Int)
  | 0, _, _ => none
  | fuel + 1, V, x =>
    if 1 ≤ x ∧ x ≤ size then
      if V x < 0 then some (V, x)
      else
        match DSets.findAux size fuel V (V x) with
        | some (V1, r) => some (upd V1 x r, r)
        | none => none
    else none

/-- The method `DSets::find`.  A chain of parent pointers visits no element twice, so
`size` nested calls are all the recursion can take. -/
def DSets.find (D : DSets) (x : Int) : Option (DSets × Int) :=
  match DSets.findAux D.size D.size.toNat D.V x with
  | some (V1, r) => some ({ D with V := V1 }, r)
  | none => none

/-! ## graph.cpp -/

/-- The data members of `Graph`. -/
structure Graph where
  table : Int → List Edge
  size : Int
  n_edges : Int

/-- The constructor `Graph::Graph(int n)`. -/
def Graph.create (n : Int) : Option Graph :=
  if 1 ≤ n then some ⟨fun _ => [], n, 0⟩ else none

/-- The lambda `edge_insertion` of `Graph::insertEdge`, on the captured table and
counter. -/
def edge_insertion (T : Int → List Edge) (n : Int) (e1 : Edge) : (Int → List Edge) × Int :=
  if (T e1.from_).any (fun ed => e1.links_same_nodes ed) then
    (upd T e1.from_ (updateWeight e1 (T e1.from_)), n)
  else (upd T e1.from_ (T e1.from_ ++ [e1]), n + 1)

/-- The method `Graph::insertEdge`. -/
def Graph.insertEdge (g : Graph) (e : Edge) : Option Graph :=
  if 1 ≤ e.from_ ∧ e.from_ ≤ g.size ∧ 1 ≤ e.to_ ∧ e.to_ ≤ g.size then
    let a := edge_insertion g.table g.n_edges e
    let b := edge_insertion a.1 a.2 e.reverse
    some { g with table := b.1, n_edges := b.2 }
  else none

/-- The lambda `edgeRemoval` of `Graph::removeEdge`, on the captured table and counter. -/
def edgeRemoval (T : Int → List Edge) (n : Int) (e1 : Edge) :
    Option ((Int → List Edge) × Int) :=
  if (T e1.from_).any (fun ed => e1.links_same_nodes ed) then
    some (upd T e1.from_ (eraseFirst e1 (T e1.from_)), n - 1)
  else none

/-- The method `Graph::removeEdge`. -/
def Graph.removeEdge (g : Graph) (e : Edge) : Option Graph :=
  if 1 ≤ e.from_ ∧ e.from_ ≤ g.size ∧ 1 ≤ e.to_ ∧ e.to_ ≤ g.size then
    match edgeRemoval g.table g.n_edges e with
    | some a =>
      match edgeRemoval a.1 a.2 e.reverse with
      | some b => some { g with table := b.1, n_edges := b.2 }
      | none => none
    | none => none
  else none

/-- The loop `for (auto e : V) insertEdge(e)` of the second constructor. -/
def Graph.insertAll : List Edge → Graph → Option Graph
  | [], g => some g
  | e :: rest, g =>
    match g.insertEdge e with
    | some g1 => Graph.insertAll rest g1
    | none => none

/-- The constructor `Graph::Graph(const std::vector<Edge>& V, int n)`. -/
def Graph.ofEdges (V : List Edge) (n : Int) : Option Graph :=
  match Graph.create n with
  | some g => Graph.insertAll V g
  | none => none

/-- What `mstPrim` and `mstKruskal` write to `std::cout`: the edges in the order they
are printed and the number after `Total weight =`. -/
structure MstOutput where
  edges : List Edge
  total : Int

/-- The local variables of `mstPrim`, and the edges printed so far. -/
structure PrimState where
  dist : Int → Int
  path : Int → Int
  done : Int → Bool
  v : Int
  total_weight : Int
  out : List Edge

/-- The loop `for (auto& edge : table[v])` of `mstPrim`, over the rest of the list. -/
def prim_edges (v : Int) (done : Int → Bool) :
    List Edge → (Int → Int) × (Int → Int) → (Int → Int) × (Int → Int)
  | [], dp => dp
  | edge :: rest, dp =>
    if done edge.to_ = false ∧ dp.1 edge.to_ > edge.weight then
      prim_edges v done rest (upd dp.1 edge.to_ edge.weight, upd dp.2 edge.to_ v)
    else prim_edges v done rest dp

/-- The loop `for (int i = 1; i <= size; ++i)` of `mstPrim`, on the pair
`(min_dist_val, v)`. -/
def prim_scan (dist : Int → Int) (done : Int → Bool) : List Int → Int × Int → Int × Int
  | [], acc => acc
  | i :: rest, acc =>
    if done i = false ∧ dist i < acc.1 then prim_scan dist done rest (dist i, i)
    else prim_scan dist done rest acc

/-- The loop `while (true)` of `mstPrim`. -/
def prim_loop (table : Int → List Edge) (size : Int) : Nat → PrimState → Option PrimState
  | 0, _ => none
  | fuel + 1, st =>
    let dp := prim_edges st.v st.done (table st.v) (st.dist, st.path)
    let m := prim_scan dp.1 st.done (vertices size) (INT_MAX, st.v)
    if m.1 = INT_MAX then
      some { st with dist := dp.1, path := dp.2, v := m.2 }
    else
      prim_loop table size fuel
        { dist := dp.1, path := dp.2, done := upd st.done m.2 true, v := m.2,
          total_weight :=
            if dp.2 m.2 ≠ 0 then wrap (st.total_weight + m.1) else st.total_weight,
          out := st.out ++ [⟨dp.2 m.2, m.2, dp.1 m.2⟩] }

/-- The method `Graph::mstPrim`.  Every iteration but the last marks a vertex that was
not marked, so the body runs at most `size` times. -/
def Graph.mstPrim (g : Graph) : Option MstOutput :=
  match prim_loop g.table g.size g.size.toNat
      ⟨upd (fun _ => INT_MAX) 1 0, fun _ => 0, upd (fun _ => false) 1 true, 1, 0, []⟩ with
  | some st => some ⟨st.out, st.total_weight⟩
  | none => none

/-- The first loop of `mstKruskal`: the edges with `from < to`, vertex by vertex. -/
def kruskal_edges (g : Graph) : List Edge :=
  (vertices g.size).flatMap (fun i => (g.table i).filter (fun e => e.from_ < e.to_))

/-- The local variables of `mstKruskal` that its loop changes, and the edges printed so
far. -/
structure KruskalState where
  D : DSets
  totalWeight : Int
  edgeCount : Int
  out : List Edge

/-- The loop `while (edgeCount < size - 1 && !heap.empty())` of `mstKruskal`, on the
edges in the order in which `pop_heap` delivers them. -/
def kruskal_loop (size : Int) : List Edge → KruskalState → Option KruskalState
  | [], st => some st
  | minEdge :: heap, st =>
    if st.edgeCount < size - 1 then
      match st.D.find minEdge.from_ with
      | none => none
      | some (D1, uSet) =>
        match D1.find minEdge.to_ with
        | none => none
        | some (D2, vSet) =>
          if uSet ≠ vSet then
            match D2.join uSet vSet with
            | none => none
            | some D3 =>
              kruskal_loop size heap
                ⟨D3, wrap (st.totalWeight + minEdge.weight), st.edgeCount + 1,
                  st.out ++ [minEdge]⟩
          else kruskal_loop size heap { st with D := D2 }
    else some st

/-- The orders in which a min-heap built by `std::make_heap` with `std::greater<Edge>`
can deliver the edges `es` to successive `pop_heap` calls: the standard library
promises only that each pop yields an element no heavier than those left. -/
def HeapOrder (es order : List Edge) : Prop :=
  order.Perm es ∧ order.Pairwise (fun a b => a.weight ≤ b.weight)

/-- The method `Graph::mstKruskal`, given the order in which the heap delivers the
collected edges. -/
def Graph.mstKruskal (g : Graph) (order : List Edge) : Option MstOutput :=
  match DSets.create g.size with
  | none => none
  | some D =>
    match kruskal_loop g.size order ⟨D, 0, 0, []⟩ with
    | some st => some ⟨st.out, st.totalWeight⟩
    | none => none

/-- One heap order, used to run `mstKruskal` on examples: the collected edges sorted by
insertion, equal weights keeping their order. -/
def insertByWeight (e : Edge) : List Edge → List Edge
  | [] => [e]
  | x :: rest => if e.weight < x.weight then e :: x :: rest else x :: insertByWeight e rest

/-- Insertion sort by weight. -/
def sortByWeight : List Edge → List Edge
  | [] => []
  | e :: rest => insertByWeight e (sortByWeight rest)

/-! ## Notions used to state the properties of `DSets` -/

/-- The number of roots of a `DSets`: the indices `i` of `1..size` with `V[i] < 0`. -/
def DSets.roots (D : DSets) : Nat :=
  ((vertices D.size).filter (fun i => D.V i < 0)).length

/-- The element reached from `x` by following at most `k` parent pointers, stopping at
the first negative entry.  It reads `V` and never writes it. -/
def DSets.root (V : Int → Int) : Nat → Int → Int
  | 0, x => x
  | k + 1, x => if V x < 0 then x else DSets.root V k (V x)

/-- The representative of `x`: the root at the end of its chain of parent pointers. -/
def DSets.rep (D : DSets) (x : Int) : Int := DSets.root D.V D.size.toNat x

/-- The states a `DSets` over `n` elements can be in after `k` successful calls of
`join` and any number of successful calls of `find`, in any order. -/
inductive DSets.Reach (n : Int) : Nat → DSets → Prop
  | create {D : DSets} : DSets.create n = some D → DSets.Reach n 0 D
  | join {k : Nat} {D D1 : DSets} (r s : Int) :
      DSets.Reach n k D → D.join r s = some D1 → DSets.Reach n (k + 1) D1
  | find {k : Nat} {D D1 : DSets} (x r : Int) :
      DSets.Reach n k D → D.find x = some (D1, r) → DSets.Reach n k D1

/-- The shape of the parent pointers of a `DSets`, with a rank `h` that grows along
them: every entry is negative or an in-range parent of larger rank, and ranks are
bounded by the number of elements that are not roots. -/
structure DSets.Ranked (D : DSets) (h : Int → Nat) : Prop where
  size_pos : 1 ≤ D.size
  parent : ∀ x, 1 ≤ x → x ≤ D.size →
    D.V x < 0 ∨ (1 ≤ D.V x ∧ D.V x ≤ D.size ∧ h x < h (D.V x))
  bound : ∀ x, 1 ≤ x → x ≤ D.size → (h x : Int) + D.roots ≤ D.size

/-- The invariant of `DSets`: the parent pointers are ranked and a root stores, negated,
the number of elements it represents. -/
structure DSets.Valid (D : DSets) (h : Int → Nat) : Prop where
  ranked : D.Ranked h
  card : ∀ r, 1 ≤ r → r ≤ D.size → D.V r < 0 →
    - D.V r = (((vertices D.size).filter (fun x => D.rep x = r)).length : Int)

/-- The state `join` leaves when it hangs the root `l` below the root `w`. -/
def DSets.link (D : DSets) (w l : Int) : DSets :=
  { D with V := upd (upd D.V l w) w (D.V w + D.V l) }

/-- The rank after hanging a root of rank `h l` below `w`. -/
def linkRank (h : Int → Nat) (w l : Int) : Int → Nat :=
  fun x => if x = w then max (h w) (h l + 1) else h x

/-! ## Notions used to state the properties of `Digraph` -/

/-- The shape of the graphs built by the constructors, `insertEdge` and `removeEdge`:
the vertex count is a positive `int`, only the slots `1..size` hold edges, and an edge
stored in slot `u` leaves `u` for a vertex of `1..size`. -/
structure Digraph.WF (g : Digraph) : Prop where
  size_pos : 1 ≤ g.size
  size_int : g.size ≤ INT_MAX
  edges : ∀ u e, e ∈ g.table u →
    1 ≤ u ∧ u ≤ g.size ∧ e.from_ = u ∧ 1 ≤ e.to_ ∧ e.to_ ≤ g.size

/-- The relation `g.Walk s v k w`: there is a directed walk from `s` to `v` made of `k`
edges of `g` whose weights add up to `w`. -/
inductive Digraph.Walk (g : Digraph) (s : Int) : Int → Nat → Int → Prop
  | nil : Digraph.Walk g s s 0 0
  | snoc {u : Int} {k : Nat} {w : Int} (e : Edge) :
      Digraph.Walk g s u k w → e ∈ g.table u → Digraph.Walk g s e.to_ (k + 1) (w + e.weight)

/-- The number of vertices of `1..size` whose distance is still `INT_MAX`. -/
def unvisited (size : Int) (dist : Int → Int) : Nat :=
  ((vertices size).filter (fun v => dist v = INT_MAX)).length

/-- The invariant of the loop `while (!Q.empty())` of `uwsssp`. -/
structure BfsInv (g : Digraph) (s : Int) (st : BfsState) : Prop where
  src : st.dist s = 0
  root : st.path s = 0
  queue : ∀ q ∈ st.Q, 1 ≤ q ∧ q ≤ g.size ∧ st.dist q ≠ INT_MAX
  sound : ∀ v, 1 ≤ v → v ≤ g.size → st.dist v ≠ INT_MAX →
    0 ≤ st.dist v ∧ ∃ w, g.Walk s v (st.dist v).toNat w
  count : ∀ v, 1 ≤ v → v ≤ g.size → st.dist v ≠ INT_MAX →
    st.dist v + unvisited g.size st.dist + 1 ≤ g.size
  sorted : st.Q.Pairwise (fun a b => st.dist a ≤ st.dist b)
  near : ∀ v, 1 ≤ v → v ≤ g.size → st.dist v ≠ INT_MAX →
    ∀ q ∈ st.Q, st.dist v ≤ st.dist q + 1
  closed : ∀ u, 1 ≤ u → u ≤ g.size → st.dist u ≠ INT_MAX → u ∉ st.Q →
    ∀ e ∈ g.table u, st.dist e.to_ ≠ INT_MAX ∧ st.dist e.to_ ≤ st.dist u + 1
  unreached : ∀ v, 1 ≤ v → v ≤ g.size → st.dist v = INT_MAX → st.path v = 0
  tree : ∀ v, 1 ≤ v → v ≤ g.size → st.dist v ≠ INT_MAX → v ≠ s →
    1 ≤ st.path v ∧ st.path v ≤ g.size ∧ st.dist (st.path v) ≠ INT_MAX ∧
    (∃ e ∈ g.table (st.path v), e.to_ = v) ∧ st.dist v = st.dist (st.path v) + 1

/-- The number of vertices of `1..size` that are not settled. -/
def undone (size : Int) (done : Int → Bool) : Nat :=
  ((vertices size).filter (fun v => done v = false)).length

/-- The shape of the graphs built by the constructors, `insertEdge` and `removeEdge`: the
vertex count is a positive `int`, an edge stored in slot `u` leaves `u` for a vertex of
`1..size`, every stored edge has its reverse stored at the other end, and a slot holds
at most one edge per target. -/
structure Graph.WF (g : Graph) : Prop where
  size_pos : 1 ≤ g.size
  size_int : g.size ≤ INT_MAX
  edges : ∀ u e, e ∈ g.table u →
    1 ≤ u ∧ u ≤ g.size ∧ e.from_ = u ∧ 1 ≤ e.to_ ∧ e.to_ ≤ g.size
  symm : ∀ u e, e ∈ g.table u → e.reverse ∈ g.table e.to_
  simple : ∀ u, ((g.table u).map Edge.to_).Nodup

/-- All the entries of the adjacency lists: every undirected edge appears once per
direction. -/
def Graph.edges (g : Graph) : List Edge := (vertices g.size).flatMap g.table

/-- The relation `Connects es u v`: `u` and `v` are joined by a chain of edges of `es`,
each usable in both directions. -/
def Connects (es : List Edge) : Int → Int → Prop :=
  Relation.EqvGen (fun a b => ∃ e ∈ es, e.from_ = a ∧ e.to_ = b)

/-- A graph is connected when its edges join every two of its vertices. -/
def Graph.Connected (g : Graph) : Prop :=
  ∀ u v, 1 ≤ u → u ≤ g.size → 1 ≤ v → v ≤ g.size → Connects g.edges u v

/-- The edge written from its smaller end to its larger end. -/
def Edge.normalize (e : Edge) : Edge := if e.to_ < e.from_ then e.reverse else e

/-- The total weight of a list of edges. -/
def weightSum (es : List Edge) : Int := (es.map Edge.weight).sum

/-- The sum of the absolute values of the weights of a list of edges. -/
def absWeightSum (es : List Edge) : Int := (es.map (fun e => |e.weight|)).sum

/-- The value of a 32-bit accumulator after `total += e.weight` for each edge of `es`. -/
def runningTotal (es : List Edge) : Int := es.foldl (fun t e => wrap (t + e.weight)) 0

/-- A spanning tree of `g`: `size - 1` of its edges that join every two vertices. -/
structure Graph.IsSpanningTree (g : Graph) (T : List Edge) : Prop where
  sub : ∀ e ∈ T, e ∈ g.edges
  card : (T.length : Int) + 1 = g.size
  spans : ∀ u v, 1 ≤ u → u ≤ g.size → 1 ≤ v → v ≤ g.size → Connects T u v

/-- A list of edges without a cycle: no edge has its ends joined by the others. -/
def Acyclic (T : List Edge) : Prop :=
  ∀ e ∈ T, ¬ Connects (T.erase e) e.from_ e.to_

/-- The course of Kruskal's loop seen on the accepted edges alone:
`KruskalRun n heap acc res` says that from the accepted edges `acc`, with `heap` still
to be delivered, the loop ends with the accepted edges `res`. -/
inductive KruskalRun (n : Int) : List Edge → List Edge → List Edge → Prop
  | nil (acc : List Edge) : KruskalRun n [] acc acc
  | stop (e : Edge) (rest acc : List Edge) :
      ¬ ((acc.length : Int) < n - 1) → KruskalRun n (e :: rest) acc acc
  | skip (e : Edge) (rest acc res : List Edge) :
      (acc.length : Int) < n - 1 → Connects acc e.from_ e.to_ →
      KruskalRun n rest acc res → KruskalRun n (e :: rest) acc res
  | take (e : Edge) (rest acc res : List Edge) :
      (acc.length : Int) < n - 1 → ¬ Connects acc e.from_ e.to_ →
      KruskalRun n rest (acc ++ [e]) res → KruskalRun n (e :: rest) acc res

/-- A certificate that the edges `A` form a forest on `1..n`: a `DSets` reached by as
many joins as `A` has edges whose sets are the components of `A`. -/
def ForestCert (n : Int) (A : List Edge) : Prop :=
  ∃ D, DSets.Reach n A.length D ∧
    ∀ u v, 1 ≤ u → u ≤ n → 1 ≤ v → v ≤ n → (D.rep u = D.rep v ↔ Connects A u v)

/-- The course of Prim's loop seen on the marked vertices and the emitted edges alone:
each step emits a lightest edge from a marked to an unmarked vertex and marks its far
end, and the loop ends when no such edge is left. -/
inductive PrimRun (g : Graph) : (Int → Bool) → List Edge → List Edge → Prop
  | stop (done : Int → Bool) (acc : List Edge) :
      (∀ e ∈ g.edges, done e.from_ = true → done e.to_ = false → False) →
      PrimRun g done acc acc
  | step (done : Int → Bool) (acc res : List Edge) (f : Edge) :
      f ∈ g.edges → done f.from_ = true → done f.to_ = false →
      (∀ e ∈ g.edges, done e.from_ = true → done e.to_ = false → f.weight ≤ e.weight) →
      PrimRun g (upd done f.to_ true) (acc ++ [f]) res → PrimRun g done acc res

/-- The invariant of Prim's loop on the marked vertices and the emitted edges: vertex 1
is marked, the emitted edges are edges of the graph between distinct marked vertices,
they join all the marked vertices, there is one edge fewer than marked vertices, and no
undirected edge is emitted twice. -/
structure PrimInv (g : Graph) (done : Int → Bool) (A : List Edge) : Prop where
  start : done 1 = true
  inside : ∀ e ∈ A, e ∈ g.edges ∧ done e.from_ = true ∧ done e.to_ = true ∧ e.from_ ≠ e.to_
  joined : ∀ u v, 1 ≤ u → u ≤ g.size → 1 ≤ v → v ≤ g.size →
    done u = true → done v = true → Connects A u v
  count : (A.length : Int) + 1 + undone g.size done = g.size
  distinct : (A.map Edge.normalize).Nodup

/-- What `dist` and `path` hold in `mstPrim` for the unmarked vertices: `INT_MAX`, or
the weight and the marked end of a stored edge that reaches the vertex. -/
def PrimKey (g : Graph) (done : Int → Bool) (dist path : Int → Int) : Prop :=
  ∀ u, 1 ≤ u → u ≤ g.size → done u = false →
    dist u ≤ INT_MAX ∧
    (dist u < INT_MAX → 1 ≤ path u ∧ path u ≤ g.size ∧
      done (path u) = true ∧ (⟨path u, u, dist u⟩ : Edge) ∈ g.table (path u))

/-- The invariant of the loop `while (true)` of `mstPrim` at the top of its body. -/
structure PrimLoopInv (g : Graph) (st : PrimState) : Prop where
  cur_range : 1 ≤ st.v ∧ st.v ≤ g.size
  cur_done : st.done st.v = true
  tree : PrimInv g st.done st.out
  key : PrimKey g st.done st.dist st.path
  relaxed : ∀ x, 1 ≤ x → x ≤ g.size → st.done x = true → x ≠ st.v →
    ∀ e ∈ g.table x, st.done e.to_ = false → st.dist e.to_ ≤ e.weight
  total : st.total_weight = runningTotal st.out

/-! ## Notions used to state the further properties of `DSets` -/

/-- The elements `find(x)` visits before it meets the root: `x`, its parent, the parent
of that, and so on as long as the entry is not negative; at most `k` of them. -/
def DSets.pathNodes (V : Int → Int) : Nat → Int → List Int
  | 0, _ => []
  | k + 1, x => if V x < 0 then [] else x :: DSets.pathNodes V k (V x)

/-- The element `j` parent pointers above `x`, when the chain from `x` is that long. -/
def DSets.ancestor (V : Int → Int) : Nat → Int → Option Int
  | 0, x => some x
  | j + 1, x => if V x < 0 then none else DSets.ancestor V j (V x)

/-! ## The graphs the public operations can build -/

/-- The directed graphs obtained from the constructors by successful `insertEdge` and
`removeEdge` calls.  The vertex count handed to a constructor is an `int`. -/
inductive Digraph.Built : Digraph → Prop
  | create (n : Int) (g : Digraph) :
      n ≤ INT_MAX → Digraph.create n = some g → Digraph.Built g
  | ofEdges (V : List Edge) (n : Int) (g : Digraph) :
      n ≤ INT_MAX → Digraph.ofEdges V n = some g → Digraph.Built g
  | insertEdge (g g1 : Digraph) (e : Edge) :
      Digraph.Built g → g.insertEdge e = some g1 → Digraph.Built g1
  | removeEdge (g g1 : Digraph) (e : Edge) :
      Digraph.Built g → g.removeEdge e = some g1 → Digraph.Built g1

/-- The undirected graphs obtained from the constructors by successful `insertEdge` and
`removeEdge` calls.  The vertex count handed to a constructor is an `int`. -/
inductive Graph.Built : Graph → Prop
  | create (n : Int) (g : Graph) :
      n ≤ INT_MAX → Graph.create n = some g → Graph.Built g
  | ofEdges (V : List Edge) (n : Int) (g : Graph) :
      n ≤ INT_MAX → Graph.ofEdges V n = some g → Graph.Built g
  | insertEdge (g g1 : Graph) (e : Edge) :
      Graph.Built g → g.insertEdge e = some g1 → Graph.Built g1
  | removeEdge (g g1 : Graph) (e : Edge) :
      Graph.Built g → g.removeEdge e = some g1 → Graph.Built g1

/-! ## Notions used to state the tree properties of `uwsssp` and `pwsssp` -/

/-- The vertex reached from `t` by following `k` parent pointers. -/
def follow (path : Int → Int) : Nat → Int → Int
  | 0, t => t
  | k + 1, t => follow path k (path t)

/-- The part of the invariant of the loop of `pwsssp` that holds whatever the weights
are: distances are `int` values, a settled vertex has a distance other than `INT_MAX`,
and a vertex with such a distance other than the source has a settled parent, joined to
it by a stored edge whose weight, added to the parent's distance in 32 bits, gives the
vertex's distance. -/
structure DijkstraTree (g : Digraph) (s cur : Int) (st : DijkstraState) : Prop where
  src : st.dist s = 0
  src_done : st.done s = true
  root : st.path s = 0
  cur_range : 1 ≤ cur ∧ cur ≤ g.size
  cur_done : st.done cur = true
  int_range : ∀ v, 1 ≤ v → v ≤ g.size → -2147483648 ≤ st.dist v ∧ st.dist v ≤ INT_MAX
  settled : ∀ x, 1 ≤ x → x ≤ g.size → st.done x = true → st.dist x ≠ INT_MAX
  tree : ∀ v, 1 ≤ v → v ≤ g.size → st.dist v ≠ INT_MAX → v ≠ s →
    1 ≤ st.path v ∧ st.path v ≤ g.size ∧ st.done (st.path v) = true ∧
    ∃ e ∈ g.table (st.path v), e.to_ = v ∧ st.dist v = wrap (st.dist (st.path v) + e.weight)

/-! ## Vectors and vertex ranges -/

theorem upd_same {α : Type} (f : Int → α) (i : Int) (x : α) : upd f i x i = x := by
  simp [upd]

theorem upd_other {α : Type} (f : Int → α) (i j : Int) (x : α) (h : j ≠ i) :
    upd f i x j = f j := by
  simp [upd, h]

theorem mem_vertices (n v : Int) : v ∈ vertices n ↔ 1 ≤ v ∧ v ≤ n := by
  unfold vertices
  simp only [List.mem_map, List.mem_range]
  constructor
  · rintro ⟨i, hi, rfl⟩
    omega
  · rintro ⟨h1, h2⟩
    exact ⟨(v - 1).toNat, by omega, by omega⟩

theorem vertices_nodup (n : Int) : (vertices n).Nodup := by
  unfold vertices
  refine List.Nodup.map ?_ (List.nodup_range _)
  intro a b h
  simpa using h

theorem vertices_length (n : Int) : (vertices n).length = n.toNat := by
  simp [vertices]

theorem wrap_of_range (x : Int) (h1 : -2147483648 ≤ x) (h2 : x ≤ 2147483647) :
    wrap x = x := by
  unfold wrap
  omega

/-- Changing a vector at one listed index changes the count of a predicate there only. -/
theorem countP_upd_pos {α : Type} (l : List Int) (hl : l.Nodup) (V : Int → α) (i : Int)
    (x : α) (hi : i ∈ l) (p : α → Bool) (h1 : p (V i) = true) (h2 : p x = false) :
    (l.filter (fun j => p (upd V i x j))).length + 1 = (l.filter (fun j => p (V j))).length := by
  induction l with
  | nil => simp at hi
  | cons a l ih =>
    rw [List.nodup_cons] at hl
    rcases List.mem_cons.1 hi with rfl | hi'
    · have hrest : l.filter (fun j => p (upd V i x j)) = l.filter (fun j => p (V j)) := by
        apply List.filter_congr
        intro j hj
        have : j ≠ i := fun h => hl.1 (h ▸ hj)
        simp [upd, this]
      simp [List.filter_cons, upd_same, h1, h2, hrest]
    · have hne : a ≠ i := fun h => hl.1 (h ▸ hi')
      have := ih hl.2 hi'
      simp only [List.filter_cons, upd_other _ _ _ _ hne]
      cases p (V a) <;> simp <;> omega

theorem filter_length_congr (l : List Int) (p q : Int → Bool)
    (h : ∀ x ∈ l, p x = q x) : (l.filter p).length = (l.filter q).length := by
  rw [List.filter_congr h]

/-! ## Disjoint sets: representatives -/

theorem DSets.root_of_neg (V : Int → Int) (k : Nat) (x : Int) (hx : V x < 0) :
    DSets.root V k x = x := by
  cases k <;> simp [DSets.root, hx]

/-- With enough fuel for the rank of `x`, `root` ends on an in-range root of rank at
least that of `x`, and more fuel does not change it. -/
theorem DSets.root_core {D : DSets} {h : Int → Nat} (hv : D.Ranked h) :
    ∀ (fuel : Nat) (x : Int), 1 ≤ x → x ≤ D.size →
      D.size ≤ (fuel : Int) + h x + D.roots →
      (1 ≤ DSets.root D.V fuel x ∧ DSets.root D.V fuel x ≤ D.size ∧
        D.V (DSets.root D.V fuel x) < 0 ∧ h x ≤ h (DSets.root D.V fuel x) ∧
        ∀ fuel1, fuel ≤ fuel1 → DSets.root D.V fuel1 x = DSets.root D.V fuel x) := by
  intro fuel
  induction fuel with
  | zero =>
    intro x h1 h2 hb
    have hbx := hv.bound x h1 h2
    rcases hv.parent x h1 h2 with hneg | ⟨p1, p2, p3⟩
    · refine ⟨by simpa [DSets.root] using h1, by simpa [DSets.root] using h2,
        by simpa [DSets.root] using hneg, by simp [DSets.root], ?_⟩
      intro fuel1 _
      rw [DSets.root_of_neg _ _ _ hneg, DSets.root_of_neg _ _ _ hneg]
    · have := hv.bound (D.V x) p1 p2
      omega
  | succ k ih =>
    intro x h1 h2 hb
    by_cases hneg : D.V x < 0
    · rw [DSets.root_of_neg _ _ _ hneg]
      refine ⟨h1, h2, hneg, le_refl _, ?_⟩
      intro fuel1 _
      rw [DSets.root_of_neg _ _ _ hneg]
    · rcases hv.parent x h1 h2 with hneg1 | ⟨p1, p2, p3⟩
      · exact absurd hneg1 hneg
      · have hstep : DSets.root D.V (k + 1) x = DSets.root D.V k (D.V x) := by
          simp [DSets.root, hneg]
        obtain ⟨a1, a2, a3, a4, a5⟩ := ih (D.V x) p1 p2 (by push_cast at hb ⊢; omega)
        rw [hstep]
        refine ⟨a1, a2, a3, by omega, ?_⟩
        intro fuel1 hf
        obtain ⟨j, rfl⟩ : ∃ j, fuel1 = j + 1 := ⟨fuel1 - 1, by omega⟩
        have : DSets.root D.V (j + 1) x = DSets.root D.V j (D.V x) := by
          simp [DSets.root, hneg]
        rw [this]
        exact a5 j (by omega)

theorem DSets.rep_of_neg (D : DSets) (x : Int) (hx : D.V x < 0) : D.rep x = x :=
  DSets.root_of_neg _ _ _ hx

theorem DSets.rep_spec {D : DSets} {h : Int → Nat} (hv : D.Ranked h) (x : Int)
    (h1 : 1 ≤ x) (h2 : x ≤ D.size) :
    1 ≤ D.rep x ∧ D.rep x ≤ D.size ∧ D.V (D.rep x) < 0 ∧ h x ≤ h (D.rep x) := by
  have hs := hv.size_pos
  obtain ⟨a1, a2, a3, a4, _⟩ := DSets.root_core hv D.size.toNat x h1 h2 (by omega)
  exact ⟨a1, a2, a3, a4⟩

theorem DSets.roots_pos {D : DSets} {h : Int → Nat} (hv : D.Ranked h) : 1 ≤ D.roots := by
  have hs := hv.size_pos
  obtain ⟨a1, a2, a3, _⟩ := DSets.rep_spec hv 1 (le_refl _) hs
  have hm : D.rep 1 ∈ (vertices D.size).filter (fun i => D.V i < 0) := by
    simp [List.mem_filter, mem_vertices, a1, a2, a3]
  exact List.length_pos_of_mem hm

theorem DSets.rep_step {D : DSets} {h : Int → Nat} (hv : D.Ranked h) (x : Int)
    (h1 : 1 ≤ x) (h2 : x ≤ D.size) (hneg : ¬ D.V x < 0) : D.rep x = D.rep (D.V x) := by
  have hs := hv.size_pos
  rcases hv.parent x h1 h2 with hneg1 | ⟨p1, p2, p3⟩
  · exact absurd hneg1 hneg
  · obtain ⟨k, hk⟩ : ∃ k, D.size.toNat = k + 1 := ⟨D.size.toNat - 1, by omega⟩
    have hr := DSets.roots_pos hv
    obtain ⟨_, _, _, _, a5⟩ := DSets.root_core hv k (D.V x) p1 p2 (by omega)
    unfold DSets.rep
    rw [hk]
    have : DSets.root D.V (k + 1) x = DSets.root D.V k (D.V x) := by
      simp [DSets.root, hneg]
    rw [this, a5 (k + 1) (by omega)]

theorem DSets.rep_rank_lt {D : DSets} {h : Int → Nat} (hv : D.Ranked h) (x : Int)
    (h1 : 1 ≤ x) (h2 : x ≤ D.size) (hneg : ¬ D.V x < 0) : h x < h (D.rep x) := by
  rcases hv.parent x h1 h2 with hneg1 | ⟨p1, p2, p3⟩
  · exact absurd hneg1 hneg
  · rw [DSets.rep_step hv x h1 h2 hneg]
    have := (DSets.rep_spec hv (D.V x) p1 p2).2.2.2
    omega

theorem DSets.rep_idem {D : DSets} {h : Int → Nat} (hv : D.Ranked h) (x : Int)
    (h1 : 1 ≤ x) (h2 : x ≤ D.size) : D.rep (D.rep x) = D.rep x :=
  DSets.rep_of_neg D _ (DSets.rep_spec hv x h1 h2).2.2.1

/-- Two ranked states over the same elements whose representatives obey the same
recursion agree; stated as an induction principle on the distance to the top rank. -/
theorem DSets.rank_induction {D : DSets} {h : Int → Nat} (hv : D.Ranked h)
    (P : Int → Prop)
    (step : ∀ x, 1 ≤ x → x ≤ D.size →
      (∀ y, 1 ≤ y → y ≤ D.size → h x < h y → P y) → P x) :
    ∀ x, 1 ≤ x → x ≤ D.size → P x := by
  have key : ∀ (k : Nat) (x : Int), 1 ≤ x → x ≤ D.size → D.size ≤ (k : Int) + h x → P x := by
    intro k
    induction k with
    | zero =>
      intro x h1 h2 hb
      have := hv.bound x h1 h2
      have := DSets.roots_pos hv
      omega
    | succ k ih =>
      intro x h1 h2 hb
      apply step x h1 h2
      intro y hy1 hy2 hlt
      exact ih y hy1 hy2 (by push_cast at hb ⊢; omega)
  intro x h1 h2
  exact key D.size.toNat x h1 h2 (by have := hv.size_pos; omega)

/-! ## Disjoint sets: `find` -/

/-- The recursion of `find` returns the representative and only redirects elements that
are not roots to their own representative. -/
theorem DSets.findAux_spec {D : DSets} {h : Int → Nat} (hv : D.Ranked h) :
    ∀ (fuel : Nat) (x : Int), 1 ≤ x → x ≤ D.size →
      D.size + 1 ≤ (fuel : Int) + h x + D.roots →
      ∃ V1, DSets.findAux D.size fuel D.V x = some (V1, D.rep x) ∧
        ∀ y, V1 y = D.V y ∨ (1 ≤ y ∧ y ≤ D.size ∧ ¬ D.V y < 0 ∧ V1 y = D.rep y) := by
  intro fuel
  induction fuel with
  | zero =>
    intro x h1 h2 hb
    have := hv.bound x h1 h2
    omega
  | succ k ih =>
    intro x h1 h2 hb
    by_cases hneg : D.V x < 0
    · refine ⟨D.V, ?_, fun y => Or.inl rfl⟩
      simp [DSets.findAux, h1, h2, hneg, DSets.rep_of_neg D x hneg]
    · rcases hv.parent x h1 h2 with hneg1 | ⟨p1, p2, p3⟩
      · exact absurd hneg1 hneg
      · obtain ⟨V1, hV1, hfr⟩ := ih (D.V x) p1 p2 (by push_cast at hb ⊢; omega)
        have hrep := DSets.rep_step hv x h1 h2 hneg
        refine ⟨upd V1 x (D.rep x), ?_, ?_⟩
        · simp [DSets.findAux, h1, h2, hneg, hV1, hrep]
        · intro y
          by_cases hy : y = x
          · subst hy
            exact Or.inr ⟨h1, h2, hneg, upd_same _ _ _⟩
          · rw [upd_other _ _ _ _ hy]
            exact hfr y

theorem DSets.find_spec {D : DSets} {h : Int → Nat} (hv : D.Ranked h) (x : Int)
    (h1 : 1 ≤ x) (h2 : x ≤ D.size) :
    ∃ V1, D.find x = some ({ D with V := V1 }, D.rep x) ∧
      ∀ y, V1 y = D.V y ∨ (1 ≤ y ∧ y ≤ D.size ∧ ¬ D.V y < 0 ∧ V1 y = D.rep y) := by
  have hs := hv.size_pos
  have hr := DSets.roots_pos hv
  obtain ⟨V1, hV1, hfr⟩ := DSets.findAux_spec hv D.size.toNat x h1 h2 (by omega)
  exact ⟨V1, by simp [DSets.find, hV1], hfr⟩

theorem DSets.find_none_of_range (D : DSets) (x : Int) (hx : ¬ (1 ≤ x ∧ x ≤ D.size)) :
    D.find x = none := by
  unfold DSets.find
  cases hk : D.size.toNat with
  | zero => simp [DSets.findAux]
  | succ k => simp [DSets.findAux, hx]

/-- Redirecting elements that are not roots to their representative keeps the ranks,
the roots and every representative. -/
theorem DSets.compress_ranked {D : DSets} {h : Int → Nat} (hv : D.Ranked h)
    (V1 : Int → Int)
    (hc : ∀ y, V1 y = D.V y ∨ (1 ≤ y ∧ y ≤ D.size ∧ ¬ D.V y < 0 ∧ V1 y = D.rep y)) :
    (∀ y, V1 y < 0 → V1 y = D.V y) ∧ (∀ y, D.V y < 0 → V1 y = D.V y) ∧
    DSets.roots { D with V := V1 } = D.roots ∧
    DSets.Ranked { D with V := V1 } h := by
  have hneg1 : ∀ y, V1 y < 0 → V1 y = D.V y := by
    intro y hy
    rcases hc y with e | ⟨a1, a2, a3, a4⟩
    · exact e
    · have := (DSets.rep_spec hv y a1 a2).1
      omega
  have hneg2 : ∀ y, D.V y < 0 → V1 y = D.V y := by
    intro y hy
    rcases hc y with e | ⟨a1, a2, a3, a4⟩
    · exact e
    · exact absurd hy a3
  have hroots : DSets.roots { D with V := V1 } = D.roots := by
    unfold DSets.roots
    apply filter_length_congr
    intro y _
    by_cases hy : D.V y < 0
    · simp [hneg2 y hy, hy]
    · have : ¬ V1 y < 0 := fun h' => hy (hneg1 y h' ▸ h')
      simp [hy, this]
  refine ⟨hneg1, hneg2, hroots, ⟨hv.size_pos, ?_, ?_⟩⟩
  · intro y h1 h2
    show V1 y < 0 ∨ (1 ≤ V1 y ∧ V1 y ≤ D.size ∧ h y < h (V1 y))
    rcases hc y with e | ⟨a1, a2, a3, a4⟩
    · rw [e]
      exact hv.parent y h1 h2
    · right
      rw [a4]
      obtain ⟨b1, b2, _, _⟩ := DSets.rep_spec hv y a1 a2
      exact ⟨b1, b2, DSets.rep_rank_lt hv y a1 a2 a3⟩
  · intro y h1 h2
    rw [hroots]
    exact hv.bound y h1 h2

theorem DSets.compress_rep {D : DSets} {h : Int → Nat} (hv : D.Ranked h)
    (V1 : Int → Int)
    (hc : ∀ y, V1 y = D.V y ∨ (1 ≤ y ∧ y ≤ D.size ∧ ¬ D.V y < 0 ∧ V1 y = D.rep y)) :
    ∀ x, 1 ≤ x → x ≤ D.size → DSets.rep { D with V := V1 } x = D.rep x := by
  obtain ⟨hneg1, hneg2, hroots, hv1⟩ := DSets.compress_ranked hv V1 hc
  apply DSets.rank_induction hv
  intro x h1 h2 ih
  by_cases hx : D.V x < 0
  · have e := hneg2 x hx
    rw [DSets.rep_of_neg D x hx]
    exact DSets.rep_of_neg _ x (by show V1 x < 0; rw [e]; exact hx)
  · have hx1 : ¬ V1 x < 0 := fun h' => hx (hneg1 x h' ▸ h')
    have s1 := DSets.rep_step hv1 x h1 h2 hx1
    rw [s1]
    show DSets.rep { D with V := V1 } (V1 x) = D.rep x
    rcases hc x with e | ⟨a1, a2, a3, a4⟩
    · rw [e]
      rcases hv.parent x h1 h2 with hn | ⟨p1, p2, p3⟩
      · exact absurd hn hx
      · rw [ih _ p1 p2 p3, ← DSets.rep_step hv x h1 h2 hx]
    · rw [a4]
      obtain ⟨b1, b2, _, _⟩ := DSets.rep_spec hv x h1 h2
      rw [ih _ b1 b2 (DSets.rep_rank_lt hv x h1 h2 hx)]
      exact DSets.rep_idem hv x h1 h2

theorem DSets.compress_valid {D : DSets} {h : Int → Nat} (hv : D.Valid h)
    (V1 : Int → Int)
    (hc : ∀ y, V1 y = D.V y ∨ (1 ≤ y ∧ y ≤ D.size ∧ ¬ D.V y < 0 ∧ V1 y = D.rep y)) :
    DSets.Valid { D with V := V1 } h := by
  obtain ⟨hneg1, hneg2, hroots, hv1⟩ := DSets.compress_ranked hv.ranked V1 hc
  refine ⟨hv1, ?_⟩
  intro r h1 h2 hr
  have hr' : V1 r < 0 := hr
  have e := hneg1 r hr'
  show - V1 r = _
  rw [e, hv.card r h1 h2 (e ▸ hr')]
  congr 1
  apply filter_length_congr
  intro y hy
  rw [mem_vertices] at hy
  rw [DSets.compress_rep hv.ranked V1 hc y hy.1 hy.2]

/-! ## Disjoint sets: `join` -/

theorem DSets.join_cases (D D1 : DSets) (r s : Int) (hj : D.join r s = some D1) :
    (r ≠ s ∧ (1 ≤ r ∧ r ≤ D.size) ∧ (1 ≤ s ∧ s ≤ D.size) ∧ D.V r < 0 ∧ D.V s < 0) ∧
    ((- D.V s ≤ - D.V r ∧ D1 = D.link r s) ∨ (- D.V r < - D.V s ∧ D1 = D.link s r)) := by
  unfold DSets.join at hj
  split at hj
  · rename_i hpre
    refine ⟨hpre, ?_⟩
    obtain ⟨hne, _, _, _, _⟩ := hpre
    by_cases hc : - D.V r ≥ - D.V s
    · left
      simp only [hc, if_true, Option.some.injEq] at hj
      refine ⟨hc, ?_⟩
      rw [← hj]
      simp [DSets.link, upd_other _ _ _ _ hne, sub_eq_add_neg]
    · right
      simp only [hc, if_false, Option.some.injEq] at hj
      refine ⟨by omega, ?_⟩
      rw [← hj]
      simp [DSets.link, upd_other _ _ _ _ (Ne.symm hne), sub_eq_add_neg]
  · simp at hj

theorem DSets.join_some (D : DSets) (r s : Int)
    (hpre : r ≠ s ∧ (1 ≤ r ∧ r ≤ D.size) ∧ (1 ≤ s ∧ s ≤ D.size) ∧ D.V r < 0 ∧ D.V s < 0) :
    ∃ D1, D.join r s = some D1 := by
  unfold DSets.join
  rw [if_pos hpre]
  by_cases hc : - D.V r ≥ - D.V s
  · exact ⟨_, if_pos hc⟩
  · exact ⟨_, if_neg hc⟩

theorem DSets.link_V (D : DSets) (w l : Int) (x : Int) :
    (D.link w l).V x = if x = w then D.V w + D.V l else if x = l then w else D.V x := by
  unfold DSets.link upd
  simp

theorem DSets.link_roots (D : DSets) (w l : Int) (hne : w ≠ l)
    (hw1 : 1 ≤ w) (hl1 : 1 ≤ l) (hl2 : l ≤ D.size)
    (hw : D.V w < 0) (hl : D.V l < 0) : (D.link w l).roots + 1 = D.roots := by
  have h1 := countP_upd_pos (vertices D.size) (vertices_nodup _) D.V l w
    ((mem_vertices _ _).2 ⟨hl1, hl2⟩) (fun v => decide (v < 0)) (by simpa using hl)
    (by simp; omega)
  unfold DSets.roots
  rw [← h1]
  congr 1
  apply filter_length_congr
  intro j _
  show decide ((D.link w l).V j < 0) = decide (upd D.V l w j < 0)
  rw [DSets.link_V D w l]
  by_cases hj : j = w
  · subst hj
    rw [upd_other _ _ _ _ hne]
    simp
    constructor <;> intro <;> omega
  · by_cases hj2 : j = l
    · subst hj2
      simp [hj, upd_same]
    · simp [hj, hj2, upd_other _ _ _ _ hj2]

theorem DSets.link_ranked {D : DSets} {h : Int → Nat} (hv : D.Ranked h) (w l : Int)
    (hne : w ≠ l) (hw1 : 1 ≤ w) (hw2 : w ≤ D.size) (hl1 : 1 ≤ l) (hl2 : l ≤ D.size)
    (hw : D.V w < 0) (hl : D.V l < 0) : (D.link w l).Ranked (linkRank h w l) := by
  have hroots := DSets.link_roots D w l hne hw1 hl1 hl2 hw hl
  have hsz : (D.link w l).size = D.size := rfl
  refine ⟨hv.size_pos, ?_, ?_⟩
  · intro x h1 h2
    rw [hsz] at h2 ⊢
    rw [DSets.link_V D w l]
    by_cases hxw : x = w
    · left
      simp only [hxw, if_true]
      omega
    · by_cases hxl : x = l
      · right
        subst hxl
        simp only [hxw, if_false, if_true]
        refine ⟨hw1, hw2, ?_⟩
        unfold linkRank
        simp only [hxw, if_false, if_true]
        have := le_max_right (h w) (h x + 1)
        omega
      · simp only [hxw, hxl, if_false]
        rcases hv.parent x h1 h2 with hn | ⟨p1, p2, p3⟩
        · exact Or.inl hn
        · right
          refine ⟨p1, p2, ?_⟩
          unfold linkRank
          simp only [hxw, if_false]
          by_cases c1 : D.V x = w
          · simp only [c1, if_true]
            rw [c1] at p3
            have := le_max_left (h w) (h l + 1)
            omega
          · simp only [c1, if_false]
            exact p3
  · intro x h1 h2
    rw [hsz] at h2 ⊢
    have b1 := hv.bound x h1 h2
    have b2 := hv.bound w hw1 hw2
    have b3 := hv.bound l hl1 hl2
    unfold linkRank
    by_cases hxw : x = w
    · simp only [hxw, if_true]
      rcases max_cases (h w) (h l + 1) with ⟨e, _⟩ | ⟨e, _⟩ <;> rw [e] <;> push_cast <;> omega
    · simp only [hxw, if_false]
      omega

theorem DSets.link_rep {D : DSets} {h : Int → Nat} (hv : D.Ranked h) (w l : Int)
    (hne : w ≠ l) (hw1 : 1 ≤ w) (hw2 : w ≤ D.size) (hl1 : 1 ≤ l) (hl2 : l ≤ D.size)
    (hw : D.V w < 0) (hl : D.V l < 0) :
    ∀ x, 1 ≤ x → x ≤ D.size →
      (D.link w l).rep x = if D.rep x = l then w else D.rep x := by
  have hv1 := DSets.link_ranked hv w l hne hw1 hw2 hl1 hl2 hw hl
  have hVw : (D.link w l).V w < 0 := by
    rw [DSets.link_V]
    simp only [if_true]
    omega
  have hrw : (D.link w l).rep w = w := DSets.rep_of_neg _ _ hVw
  apply DSets.rank_induction hv
  intro x h1 h2 ih
  by_cases hx : D.V x < 0
  · rw [DSets.rep_of_neg D x hx]
    by_cases hxw : x = w
    · subst hxw
      rw [hrw, if_neg hne]
    · by_cases hxl : x = l
      · subst hxl
        rw [if_pos rfl]
        have hVl : (D.link w x).V x = w := by
          rw [DSets.link_V]
          simp [hxw]
        have hnn : ¬ (D.link w x).V x < 0 := by
          rw [hVl]
          omega
        rw [DSets.rep_step hv1 x h1 h2 hnn, hVl, hrw]
      · rw [if_neg hxl]
        apply DSets.rep_of_neg
        rw [DSets.link_V]
        simpa [hxw, hxl] using hx
  · have hxw : x ≠ w := fun e => hx (e ▸ hw)
    have hxl : x ≠ l := fun e => hx (e ▸ hl)
    have hVx : (D.link w l).V x = D.V x := by
      rw [DSets.link_V]
      simp [hxw, hxl]
    have hnn : ¬ (D.link w l).V x < 0 := by
      rw [hVx]
      exact hx
    rcases hv.parent x h1 h2 with hn | ⟨p1, p2, p3⟩
    · exact absurd hn hx
    · rw [DSets.rep_step hv1 x h1 h2 hnn, hVx, ih _ p1 p2 p3,
        ← DSets.rep_step hv x h1 h2 hx]

theorem filter_or_length (l : List Int) (p q : Int → Bool)
    (hd : ∀ x ∈ l, ¬ (p x = true ∧ q x = true)) :
    (l.filter (fun x => p x || q x)).length = (l.filter p).length + (l.filter q).length := by
  induction l with
  | nil => simp
  | cons a l ih =>
    have ih1 := ih (fun x hx => hd x (List.mem_cons_of_mem _ hx))
    have ha := hd a (List.mem_cons_self _ _)
    simp only [List.filter_cons]
    cases hp : p a <;> cases hq : q a <;> simp_all <;> omega

theorem DSets.link_valid {D : DSets} {h : Int → Nat} (hv : D.Valid h) (w l : Int)
    (hne : w ≠ l) (hw1 : 1 ≤ w) (hw2 : w ≤ D.size) (hl1 : 1 ≤ l) (hl2 : l ≤ D.size)
    (hw : D.V w < 0) (hl : D.V l < 0) : (D.link w l).Valid (linkRank h w l) := by
  have hv1 := DSets.link_ranked hv.ranked w l hne hw1 hw2 hl1 hl2 hw hl
  have hrep := DSets.link_rep hv.ranked w l hne hw1 hw2 hl1 hl2 hw hl
  refine ⟨hv1, ?_⟩
  intro r h1 h2 hr
  have hsz : (D.link w l).size = D.size := rfl
  rw [hsz] at h2 ⊢
  rw [DSets.link_V] at hr ⊢
  by_cases hrw : r = w
  · subst hrw
    simp only [if_true]
    have c1 := hv.card r hw1 hw2 hw
    have c2 := hv.card l hl1 hl2 hl
    have hf : ((vertices D.size).filter (fun x => decide ((D.link r l).rep x = r))).length
        = ((vertices D.size).filter (fun x => decide (D.rep x = r))).length
          + ((vertices D.size).filter (fun x => decide (D.rep x = l))).length := by
      rw [← filter_or_length]
      · apply filter_length_congr
        intro x hx
        rw [mem_vertices] at hx
        rw [hrep x hx.1 hx.2]
        by_cases e : D.rep x = l
        · simp [e]
        · simp [e]
      · intro x _ hh
        simp only [decide_eq_true_eq] at hh
        exact hne (hh.1.symm.trans hh.2)
    rw [hf]
    push_cast
    omega
  · have hrl : r ≠ l := by
      intro e
      subst e
      simp only [hrw, if_false, if_true] at hr
      omega
    simp only [hrw, hrl, if_false] at hr ⊢
    rw [hv.card r h1 h2 hr]
    congr 1
    apply filter_length_congr
    intro x hx
    rw [mem_vertices] at hx
    rw [hrep x hx.1 hx.2]
    by_cases e : D.rep x = l
    · simp [e, hrl, Ne.symm hrw, Ne.symm hrl]
    · simp [e]

/-! ## Disjoint sets: the constructor and the reachable states -/

theorem foldl_upd_const (c : Int) (l : List Int) (V : Int → Int) (x : Int) :
    (l.foldl (fun V i => upd V i c) V) x = if x ∈ l then c else V x := by
  induction l generalizing V with
  | nil => simp
  | cons a l ih =>
    rw [List.foldl_cons, ih]
    by_cases hx : x ∈ l
    · simp [hx]
    · by_cases hxa : x = a
      · simp [hxa, upd_same]
      · simp [hx, hxa, upd_other _ _ _ _ hxa]

theorem DSets.init_apply (n : Int) (V : Int → Int) (x : Int) :
    DSets.init n V x = if 1 ≤ x ∧ x ≤ n then -1 else V x := by
  unfold DSets.init
  rw [foldl_upd_const]
  simp only [mem_vertices]

theorem DSets.create_eq (n : Int) (D : DSets) (hc : DSets.create n = some D) :
    1 ≤ n ∧ D.size = n ∧ ∀ x, D.V x = if 1 ≤ x ∧ x ≤ n then -1 else 0 := by
  unfold DSets.create at hc
  split at hc
  · simp only [Option.some.injEq] at hc
    subst hc
    refine ⟨by omega, rfl, fun x => ?_⟩
    exact DSets.init_apply n _ x
  · simp at hc

theorem filter_eq_length_one (l : List Int) (hl : l.Nodup) (r : Int) (hr : r ∈ l) :
    (l.filter (fun x => decide (x = r))).length = 1 := by
  induction l with
  | nil => simp at hr
  | cons a l ih =>
    rw [List.nodup_cons] at hl
    rcases List.mem_cons.1 hr with rfl | hr'
    · have : l.filter (fun x => decide (x = r)) = [] := by
        rw [List.filter_eq_nil_iff]
        intro x hx
        simp only [decide_eq_true_eq]
        intro e
        exact hl.1 (e ▸ hx)
      simp [List.filter_cons, this]
    · have hne : a ≠ r := fun e => hl.1 (e ▸ hr')
      simp [List.filter_cons, hne, ih hl.2 hr']

theorem DSets.create_valid (n : Int) (D : DSets) (hc : DSets.create n = some D) :
    D.Valid (fun _ => 0) ∧ D.size = n ∧ D.roots = n.toNat := by
  obtain ⟨hn, hsz, hV⟩ := DSets.create_eq n D hc
  have hVin : ∀ x, 1 ≤ x → x ≤ D.size → D.V x = -1 := by
    intro x h1 h2
    rw [hV, if_pos ⟨h1, hsz ▸ h2⟩]
  have hroots : D.roots = n.toNat := by
    unfold DSets.roots
    rw [← vertices_length n, hsz]
    congr 1
    rw [List.filter_eq_self]
    intro x hx
    rw [mem_vertices] at hx
    simp [hVin x hx.1 (hsz ▸ hx.2)]
  refine ⟨⟨⟨hsz ▸ hn, ?_, ?_⟩, ?_⟩, hsz, hroots⟩
  · intro x h1 h2
    left
    rw [hVin x h1 h2]
    decide
  · intro x h1 h2
    rw [hroots, hsz]
    simp
    omega
  · intro r h1 h2 hr
    rw [hVin r h1 h2]
    have : ((vertices D.size).filter (fun x => decide (D.rep x = r))).length
        = ((vertices D.size).filter (fun x => decide (x = r))).length := by
      apply filter_length_congr
      intro x hx
      rw [mem_vertices] at hx
      rw [DSets.rep_of_neg D x (by rw [hVin x hx.1 hx.2]; decide)]
    rw [this, filter_eq_length_one _ (vertices_nodup _) r ((mem_vertices _ _).2 ⟨h1, h2⟩)]
    rfl

/-- Every reachable state satisfies the invariant, and each join removed one root. -/
theorem DSets.reach_valid (n : Int) (k : Nat) (D : DSets) (hr : DSets.Reach n k D) :
    ∃ h, D.Valid h ∧ D.size = n ∧ D.roots + k = n.toNat := by
  induction hr with
  | create hc =>
    obtain ⟨a, b, c⟩ := DSets.create_valid n _ hc
    exact ⟨_, a, b, by omega⟩
  | join r s _ hj ih =>
    obtain ⟨h, hv, hsz, hk⟩ := ih
    obtain ⟨⟨hne, ⟨r1, r2⟩, ⟨s1, s2⟩, hVr, hVs⟩, hcase⟩ := DSets.join_cases _ _ r s hj
    rcases hcase with ⟨_, e⟩ | ⟨_, e⟩
    · subst e
      have := DSets.link_roots _ r s hne r1 s1 s2 hVr hVs
      exact ⟨_, DSets.link_valid hv r s hne r1 r2 s1 s2 hVr hVs, hsz, by omega⟩
    · subst e
      have := DSets.link_roots _ s r (Ne.symm hne) s1 r1 r2 hVs hVr
      exact ⟨_, DSets.link_valid hv s r (Ne.symm hne) s1 s2 r1 r2 hVs hVr, hsz, by omega⟩
  | find x r _ hf ih =>
    obtain ⟨h, hv, hsz, hk⟩ := ih
    rename_i k0 D0 D1 _
    by_cases hx : 1 ≤ x ∧ x ≤ D0.size
    · obtain ⟨V1, hV1, hc⟩ := DSets.find_spec hv.ranked x hx.1 hx.2
      rw [hV1] at hf
      simp only [Option.some.injEq, Prod.mk.injEq] at hf
      obtain ⟨e, _⟩ := hf
      subst e
      refine ⟨h, DSets.compress_valid hv V1 hc, hsz, ?_⟩
      rw [(DSets.compress_ranked hv.ranked V1 hc).2.2.1]
      exact hk
    · rw [DSets.find_none_of_range _ x hx] at hf
      simp at hf

/-- In a valid state `find` succeeds on every element, returns its representative and
leaves a valid state with the same roots, sizes and representatives. -/
theorem DSets.find_full {D : DSets} {h : Int → Nat} (hv : D.Valid h) (x : Int)
    (h1 : 1 ≤ x) (h2 : x ≤ D.size) :
    ∃ D1, D.find x = some (D1, D.rep x) ∧ D1.Valid h ∧ D1.size = D.size ∧
      D1.roots = D.roots ∧
      (∀ y, 1 ≤ y → y ≤ D.size → D1.rep y = D.rep y) ∧
      (∀ y, D.V y < 0 → D1.V y = D.V y) ∧ (∀ y, D1.V y < 0 → D1.V y = D.V y) := by
  obtain ⟨V1, hV1, hc⟩ := DSets.find_spec hv.ranked x h1 h2
  obtain ⟨n1, n2, hroots, _⟩ := DSets.compress_ranked hv.ranked V1 hc
  exact ⟨_, hV1, DSets.compress_valid hv V1 hc, rfl, hroots,
    DSets.compress_rep hv.ranked V1 hc, n2, n1⟩

/-- After the root `l` is hung below the root `w`, the elements of the two sets all
have `w` as representative and every other representative is unchanged. -/
theorem DSets.link_full {D : DSets} {h : Int → Nat} (hv : D.Valid h) (w l : Int)
    (hne : w ≠ l) (hw1 : 1 ≤ w) (hw2 : w ≤ D.size) (hl1 : 1 ≤ l) (hl2 : l ≤ D.size)
    (hw : D.V w < 0) (hl : D.V l < 0) :
    (D.link w l).Valid (linkRank h w l) ∧ (D.link w l).size = D.size ∧
    (D.link w l).roots + 1 = D.roots ∧
    ∀ x, 1 ≤ x → x ≤ D.size → (D.link w l).rep x = if D.rep x = l then w else D.rep x :=
  ⟨DSets.link_valid hv w l hne hw1 hw2 hl1 hl2 hw hl, rfl,
    DSets.link_roots D w l hne hw1 hl1 hl2 hw hl,
    DSets.link_rep hv.ranked w l hne hw1 hw2 hl1 hl2 hw hl⟩

/-- The merging property of `join` for one orientation of the link. -/
theorem DSets.link_merges {D : DSets} {h : Int → Nat} (hv : D.Valid h) (w l a b : Int)
    (hne : w ≠ l) (hw1 : 1 ≤ w) (hw2 : w ≤ D.size) (hl1 : 1 ≤ l) (hl2 : l ≤ D.size)
    (hw : D.V w < 0) (hl : D.V l < 0)
    (ha1 : 1 ≤ a) (ha2 : a ≤ D.size) (hb1 : 1 ≤ b) (hb2 : b ≤ D.size)
    (hab : (D.rep a = w ∧ D.rep b = l) ∨ (D.rep a = l ∧ D.rep b = w)) :
    ∃ D4 D5, (D.link w l).find a = some (D4, w) ∧ D4.find b = some (D5, w) ∧
      ∀ c, 1 ≤ c → c ≤ D.size → ∃ Dc rc Dc1 rc1, D.find c = some (Dc, rc) ∧
        (D.link w l).find c = some (Dc1, rc1) ∧ (rc1 = w ↔ (rc = D.rep a ∨ rc = D.rep b)) := by
  obtain ⟨hv1, hsz1, _, hrep1⟩ := DSets.link_full hv w l hne hw1 hw2 hl1 hl2 hw hl
  obtain ⟨D4, f4, hv4, hsz4, _, hrep4, _, _⟩ := DSets.find_full hv1 a ha1 ha2
  obtain ⟨D5, f5, _⟩ := DSets.find_full hv4 b hb1 (by rw [hsz4]; exact hb2)
  have ea : (D.link w l).rep a = w := by
    rw [hrep1 a ha1 ha2]
    rcases hab with ⟨e, _⟩ | ⟨e, _⟩
    · rw [e, if_neg hne]
    · rw [e, if_pos rfl]
  have eb : D4.rep b = w := by
    rw [hrep4 b hb1 hb2, hrep1 b hb1 hb2]
    rcases hab with ⟨_, e⟩ | ⟨_, e⟩
    · rw [e, if_pos rfl]
    · rw [e, if_neg hne]
  rw [ea] at f4
  rw [eb] at f5
  refine ⟨D4, D5, f4, f5, ?_⟩
  intro c hc1 hc2
  obtain ⟨Dc, fc, _⟩ := DSets.find_full hv c hc1 hc2
  obtain ⟨Dc1, fc1, _⟩ := DSets.find_full hv1 c hc1 hc2
  refine ⟨Dc, _, Dc1, _, fc, fc1, ?_⟩
  rw [hrep1 c hc1 hc2]
  by_cases e : D.rep c = l
  · rw [if_pos e]
    rcases hab with ⟨_, e2⟩ | ⟨e2, _⟩
    · simp [e, e2]
    · simp [e, e2]
  · rw [if_neg e]
    rcases hab with ⟨e1, e2⟩ | ⟨e1, e2⟩
    · rw [e1, e2]
      simp [e]
    · rw [e1, e2]
      simp [e]

/-- C7: in a state reachable from `create(n)` by `join` and `find` calls, `find(a)` and
`find(b)` succeed for `a`, `b` in `1..n`, and when their results differ
`join(find(a), find(b))` succeeds; after it `find(a)` and `find(b)` return the same root
`w`, and for every element `c` the result of `find(c)` after the join is `w` exactly
when its result before the join was that of `find(a)` or that of `find(b)`. -/
theorem DSets.join_merges_exactly_two_sets (n : Int) (k : Nat) (D : DSets)
    (hD : DSets.Reach n k D) (a b : Int)
    (ha1 : 1 ≤ a) (ha2 : a ≤ n) (hb1 : 1 ≤ b) (hb2 : b ≤ n) :
    ∃ D1 ra D2 rb, D.find a = some (D1, ra) ∧ D1.find b = some (D2, rb) ∧
      (ra ≠ rb → ∃ D3, D2.join ra rb = some D3 ∧
        ∃ D4 D5 w, D3.find a = some (D4, w) ∧ D4.find b = some (D5, w) ∧
          ∀ c, 1 ≤ c → c ≤ n → ∃ Dc rc Dc1 rc1, D2.find c = some (Dc, rc) ∧
            D3.find c = some (Dc1, rc1) ∧ (rc1 = w ↔ (rc = ra ∨ rc = rb))) := by
  obtain ⟨h, hv, hsz, _⟩ := DSets.reach_valid n k D hD
  subst hsz
  obtain ⟨D1, f1, hv1, hsz1, _, hrep1, hneg1, _⟩ := DSets.find_full hv a ha1 ha2
  obtain ⟨D2, f2, hv2, hsz2, _, hrep2, hneg2, _⟩ :=
    DSets.find_full hv1 b hb1 (by rw [hsz1]; exact hb2)
  refine ⟨D1, _, D2, _, f1, f2, ?_⟩
  intro hne
  have hs2 : D2.size = D.size := by rw [hsz2, hsz1]
  obtain ⟨a1, a2, a3, _⟩ := DSets.rep_spec hv.ranked a ha1 ha2
  obtain ⟨b1, b2, b3, _⟩ := DSets.rep_spec hv1.ranked b hb1 (by rw [hsz1]; exact hb2)
  rw [hsz1] at b2
  have ra2 : D2.V (D.rep a) < 0 := by
    rw [hneg2 _ (by rw [hneg1 _ a3]; exact a3), hneg1 _ a3]
    exact a3
  have rb2 : D2.V (D1.rep b) < 0 := by
    rw [hneg2 _ b3]
    exact b3
  have repa : D2.rep a = D.rep a := by
    rw [hrep2 a ha1 (by rw [hsz1]; exact ha2), hrep1 a ha1 ha2]
  have repb : D2.rep b = D1.rep b := hrep2 b hb1 (by rw [hsz1]; exact hb2)
  obtain ⟨D3, hj⟩ := DSets.join_some D2 (D.rep a) (D1.rep b)
    ⟨hne, ⟨a1, hs2 ▸ a2⟩, ⟨b1, hs2 ▸ b2⟩, ra2, rb2⟩
  refine ⟨D3, hj, ?_⟩
  rcases (DSets.join_cases _ _ _ _ hj).2 with ⟨_, e⟩ | ⟨_, e⟩
  · subst e
    obtain ⟨D4, D5, f4, f5, hc⟩ := DSets.link_merges hv2 (D.rep a) (D1.rep b) a b hne
      a1 (hs2 ▸ a2) b1 (hs2 ▸ b2) ra2 rb2 ha1 (hs2 ▸ ha2) hb1 (hs2 ▸ hb2)
      (Or.inl ⟨repa, repb⟩)
    refine ⟨D4, D5, _, f4, f5, ?_⟩
    intro c hc1 hc2
    have := hc c hc1 (hs2 ▸ hc2)
    rw [repa, repb] at this
    exact this
  · subst e
    obtain ⟨D4, D5, f4, f5, hc⟩ := DSets.link_merges hv2 (D1.rep b) (D.rep a) a b
      (Ne.symm hne) b1 (hs2 ▸ b2) a1 (hs2 ▸ a2) rb2 ra2 ha1 (hs2 ▸ ha2) hb1 (hs2 ▸ hb2)
      (Or.inr ⟨repa, repb⟩)
    refine ⟨D4, D5, _, f4, f5, ?_⟩
    intro c hc1 hc2
    have := hc c hc1 (hs2 ▸ hc2)
    rw [repa, repb] at this
    exact this

theorem DSets.find_roots_eq {D : DSets} {h : Int → Nat} (hv : D.Valid h) (x r : Int)
    (D1 : DSets) (hf : D.find x = some (D1, r)) :
    D1.roots = D.roots ∧ r = D.rep x ∧ 1 ≤ x ∧ x ≤ D.size := by
  by_cases hx : 1 ≤ x ∧ x ≤ D.size
  · obtain ⟨D2, f2, _, _, hr, _⟩ := DSets.find_full hv x hx.1 hx.2
    rw [f2] at hf
    simp only [Option.some.injEq, Prod.mk.injEq] at hf
    obtain ⟨e1, e2⟩ := hf
    subst e1
    exact ⟨hr, e2.symm, hx.1, hx.2⟩
  · rw [DSets.find_none_of_range _ x hx] at hf
    simp at hf

/-- With a single root, every element has that root as representative. -/
theorem DSets.one_root {D : DSets} {h : Int → Nat} (hv : D.Valid h) (h1 : D.roots = 1) :
    ∃ r, 1 ≤ r ∧ r ≤ D.size ∧ D.V r < 0 ∧ ∀ x, 1 ≤ x → x ≤ D.size → D.rep x = r := by
  have hs := hv.ranked.size_pos
  obtain ⟨a1, a2, a3, _⟩ := DSets.rep_spec hv.ranked 1 (le_refl _) hs
  refine ⟨D.rep 1, a1, a2, a3, ?_⟩
  intro x hx1 hx2
  obtain ⟨b1, b2, b3, _⟩ := DSets.rep_spec hv.ranked x hx1 hx2
  by_contra hne
  have hc := hv.card
  have m1 : D.rep 1 ∈ (vertices D.size).filter (fun i => D.V i < 0) := by
    simp [List.mem_filter, mem_vertices, a1, a2, a3]
  have m2 : D.rep x ∈ (vertices D.size).filter (fun i => D.V i < 0) := by
    simp [List.mem_filter, mem_vertices, b1, b2, b3]
  unfold DSets.roots at h1
  rw [List.length_eq_one] at h1
  obtain ⟨c, hc⟩ := h1
  rw [hc] at m1 m2
  simp only [List.mem_singleton] at m1 m2
  exact hne (m2.trans m1.symm)

/-- C8: `create(n)` yields `n` roots, every entry of `1..n` being `-1` and `find(i)`
returning `i`; in a state reached after `k` joins every successful `join` lowers the
number of roots (indices with `V[i] < 0`) by exactly one and every successful `find`
leaves it unchanged, so the number of roots is `n - k`; after `n - 1` joins exactly
one root is left and `find` returns it for every element. -/
theorem DSets.roots_after_joins (n : Int) (k : Nat) (D : DSets)
    (hD : DSets.Reach n k D) :
    (∀ D0, DSets.create n = some D0 → D0.roots = n.toNat ∧
      ∀ i, 1 ≤ i → i ≤ n → D0.V i = -1 ∧ D0.find i = some (D0, i)) ∧
    (∀ r s D1, D.join r s = some D1 → D1.roots + 1 = D.roots) ∧
    (∀ x r D1, D.find x = some (D1, r) → D1.roots = D.roots) ∧
    D.roots + k = n.toNat ∧
    ((k : Int) = n - 1 → D.roots = 1 ∧ ∃ r, 1 ≤ r ∧ r ≤ n ∧ D.V r < 0 ∧
      ∀ x, 1 ≤ x → x ≤ n → ∃ D1, D.find x = some (D1, r)) := by
  obtain ⟨h, hv, hsz, hk⟩ := DSets.reach_valid n k D hD
  refine ⟨?_, ?_, ?_, hk, ?_⟩
  · intro D0 hc
    obtain ⟨hv0, hsz0, hr0⟩ := DSets.create_valid n D0 hc
    refine ⟨hr0, ?_⟩
    intro i i1 i2
    obtain ⟨_, _, hV⟩ := DSets.create_eq n D0 hc
    have hVi : D0.V i = -1 := by rw [hV, if_pos ⟨i1, i2⟩]
    refine ⟨hVi, ?_⟩
    have hneg : D0.V i < 0 := by rw [hVi]; decide
    obtain ⟨k0, hk0⟩ : ∃ k0, D0.size.toNat = k0 + 1 := ⟨D0.size.toNat - 1, by omega⟩
    unfold DSets.find
    rw [hk0]
    simp only [DSets.findAux, i1, hsz0, i2, hneg, and_self, if_true]
    cases D0
    simp_all
  · intro r s D1 hj
    obtain ⟨⟨hne, ⟨r1, r2⟩, ⟨s1, s2⟩, hVr, hVs⟩, hcase⟩ := DSets.join_cases _ _ r s hj
    rcases hcase with ⟨_, e⟩ | ⟨_, e⟩
    · subst e
      exact DSets.link_roots _ r s hne r1 s1 s2 hVr hVs
    · subst e
      exact DSets.link_roots _ s r (Ne.symm hne) s1 r1 r2 hVs hVr
  · intro x r D1 hf
    exact (DSets.find_roots_eq hv x r D1 hf).1
  · intro hkn
    have h1 : D.roots = 1 := by omega
    refine ⟨h1, ?_⟩
    obtain ⟨r, r1, r2, r3, hall⟩ := DSets.one_root hv h1
    refine ⟨r, r1, hsz ▸ r2, r3, ?_⟩
    intro x x1 x2
    obtain ⟨D1, f1, _⟩ := DSets.find_full hv x x1 (hsz ▸ x2)
    rw [hall x x1 (hsz ▸ x2)] at f1
    exact ⟨D1, f1⟩

/-- C9: in a state reachable from `create(n)` by `join` and `find` calls, `find(x)`
succeeds for `x` in `1..n`, its result `r` is a root (`V[r] < 0`, before and after the
call), and `find(r)` in the state it leaves returns `r` again. -/
theorem DSets.find_returns_root_idempotent (n : Int) (k : Nat) (D : DSets)
    (hD : DSets.Reach n k D) (x : Int) (hx1 : 1 ≤ x) (hx2 : x ≤ n) :
    ∃ D1 r, D.find x = some (D1, r) ∧ 1 ≤ r ∧ r ≤ n ∧ D.V r < 0 ∧ D1.V r < 0 ∧
      ∃ D2, D1.find r = some (D2, r) := by
  obtain ⟨h, hv, hsz, _⟩ := DSets.reach_valid n k D hD
  subst hsz
  obtain ⟨D1, f1, hv1, hsz1, _, hrep1, hneg1, _⟩ := DSets.find_full hv x hx1 hx2
  obtain ⟨a1, a2, a3, _⟩ := DSets.rep_spec hv.ranked x hx1 hx2
  have a4 : D1.V (D.rep x) < 0 := by
    rw [hneg1 _ a3]
    exact a3
  obtain ⟨D2, f2, _⟩ := DSets.find_full hv1 (D.rep x) a1 (by rw [hsz1]; exact a2)
  rw [DSets.rep_of_neg D1 _ a4] at f2
  exact ⟨D1, _, f1, a1, a2, a3, a4, D2, f2⟩

/-- C10: for distinct in-range roots `r` and `s`, `join(r, s)` succeeds; when
`-V[r] >= -V[s]` it sets `V[s] = r`, otherwise `V[r] = s`; the surviving root gets the
negated sum of the two sizes and every other entry is unchanged.  In every state
reachable from `create(n)` the magnitude stored at a root is the number of elements of
`1..n` for which `find` returns that root. -/
theorem DSets.join_by_size (D : DSets) (r s : Int) (hne : r ≠ s)
    (hr1 : 1 ≤ r) (hr2 : r ≤ D.size) (hs1 : 1 ≤ s) (hs2 : s ≤ D.size)
    (hVr : D.V r < 0) (hVs : D.V s < 0) :
    (∃ D1, D.join r s = some D1 ∧
      (if - D.V r ≥ - D.V s then D1.V s = r ∧ D1.V r = - (- D.V r + - D.V s)
        else D1.V r = s ∧ D1.V s = - (- D.V r + - D.V s)) ∧
      ∀ i, i ≠ r → i ≠ s → D1.V i = D.V i) ∧
    ∀ n k D0, DSets.Reach n k D0 → ∀ t, 1 ≤ t → t ≤ n → D0.V t < 0 →
      - D0.V t = (((vertices n).filter
        (fun x => decide ((D0.find x).map Prod.snd = some t))).length : Int) := by
  constructor
  · obtain ⟨D1, hj⟩ := DSets.join_some D r s ⟨hne, ⟨hr1, hr2⟩, ⟨hs1, hs2⟩, hVr, hVs⟩
    refine ⟨D1, hj, ?_⟩
    rcases (DSets.join_cases _ _ _ _ hj).2 with ⟨hc, e⟩ | ⟨hc, e⟩
    · subst e
      rw [if_pos (by omega)]
      refine ⟨⟨?_, ?_⟩, ?_⟩
      · rw [DSets.link_V]
        simp [Ne.symm hne]
      · rw [DSets.link_V]
        simp
        omega
      · intro i i1 i2
        rw [DSets.link_V]
        simp [i1, i2]
    · subst e
      rw [if_neg (by omega)]
      refine ⟨⟨?_, ?_⟩, ?_⟩
      · rw [DSets.link_V]
        simp [hne]
      · rw [DSets.link_V]
        simp
      · intro i i1 i2
        rw [DSets.link_V]
        simp [i1, i2]
  · intro n k D0 hD0 t t1 t2 t3
    obtain ⟨h, hv, hsz, _⟩ := DSets.reach_valid n k D0 hD0
    subst hsz
    rw [hv.card t t1 t2 t3]
    congr 1
    apply filter_length_congr
    intro x hx
    rw [mem_vertices] at hx
    obtain ⟨D1, f1, _⟩ := DSets.find_full hv x hx.1 hx.2
    rw [f1]
    simp

theorem DSets.join_merges_exactly_two_sets_witness :
    DSets.Reach 3 0 ⟨3, DSets.init 3 (fun _ => 0)⟩ ∧
    ∃ D1 ra D2 rb, DSets.find ⟨3, DSets.init 3 (fun _ => 0)⟩ 1 = some (D1, ra) ∧
      D1.find 2 = some (D2, rb) ∧
      (ra ≠ rb → ∃ D3, D2.join ra rb = some D3 ∧
        ∃ D4 D5 w, D3.find 1 = some (D4, w) ∧ D4.find 2 = some (D5, w) ∧
          ∀ c, 1 ≤ c → c ≤ 3 → ∃ Dc rc Dc1 rc1, D2.find c = some (Dc, rc) ∧
            D3.find c = some (Dc1, rc1) ∧ (rc1 = w ↔ (rc = ra ∨ rc = rb))) :=
  ⟨DSets.Reach.create rfl,
    DSets.join_merges_exactly_two_sets 3 0 _ (DSets.Reach.create rfl) 1 2
      (by decide) (by decide) (by decide) (by decide)⟩

theorem DSets.roots_after_joins_witness :
    ∃ D, DSets.join ⟨2, DSets.init 2 (fun _ => 0)⟩ 1 2 = some D ∧ DSets.Reach 2 1 D ∧
      D.roots + 1 = (2 : Int).toNat ∧ D.roots = 1 ∧
      ∃ r, 1 ≤ r ∧ r ≤ 2 ∧ D.V r < 0 ∧ ∀ x, 1 ≤ x → x ≤ 2 → ∃ D1, D.find x = some (D1, r) :=
  ⟨_, rfl, DSets.Reach.join 1 2 (DSets.Reach.create rfl) rfl,
    (DSets.roots_after_joins 2 1 _
      (DSets.Reach.join 1 2 (DSets.Reach.create rfl) rfl)).2.2.2.1,
    (DSets.roots_after_joins 2 1 _
      (DSets.Reach.join 1 2 (DSets.Reach.create rfl) rfl)).2.2.2.2 (by decide)⟩

theorem DSets.find_returns_root_idempotent_witness :
    DSets.Reach 3 0 ⟨3, DSets.init 3 (fun _ => 0)⟩ ∧
    ∃ D1 r, DSets.find ⟨3, DSets.init 3 (fun _ => 0)⟩ 2 = some (D1, r) ∧ 1 ≤ r ∧ r ≤ 3 ∧
      DSets.init 3 (fun _ => 0) r < 0 ∧ D1.V r < 0 ∧ ∃ D2, D1.find r = some (D2, r) :=
  ⟨DSets.Reach.create rfl,
    DSets.find_returns_root_idempotent 3 0 _ (DSets.Reach.create rfl) 2
      (by decide) (by decide)⟩

theorem DSets.join_by_size_witness :
    ((1 : Int) ≠ 2 ∧ DSets.init 3 (fun _ => 0) 1 < 0 ∧ DSets.init 3 (fun _ => 0) 2 < 0) ∧
    (∃ D1, DSets.join ⟨3, DSets.init 3 (fun _ => 0)⟩ 1 2 = some D1 ∧
      (if - DSets.init 3 (fun _ => 0) 1 ≥ - DSets.init 3 (fun _ => 0) 2
        then D1.V 2 = 1 ∧
          D1.V 1 = - (- DSets.init 3 (fun _ => 0) 1 + - DSets.init 3 (fun _ => 0) 2)
        else D1.V 1 = 2 ∧
          D1.V 2 = - (- DSets.init 3 (fun _ => 0) 1 + - DSets.init 3 (fun _ => 0) 2)) ∧
      ∀ i, i ≠ 1 → i ≠ 2 → D1.V i = DSets.init 3 (fun _ => 0) i) ∧
    ∀ n k D0, DSets.Reach n k D0 → ∀ t, 1 ≤ t → t ≤ n → D0.V t < 0 →
      - D0.V t = (((vertices n).filter
        (fun x => decide ((D0.find x).map Prod.snd = some t))).length : Int) :=
  ⟨⟨by decide, by decide, by decide⟩,
    DSets.join_by_size ⟨3, DSets.init 3 (fun _ => 0)⟩ 1 2 (by decide) (by decide)
      (by decide) (by decide) (by decide) (by decide) (by decide)⟩

/-! ## Breadth-first shortest paths -/

theorem Digraph.Walk.range {g : Digraph} (hg : g.WF) {s : Int} (hs1 : 1 ≤ s)
    (hs2 : s ≤ g.size) {v : Int} {k : Nat} {w : Int} (hw : g.Walk s v k w) :
    1 ≤ v ∧ v ≤ g.size := by
  induction hw with
  | nil => exact ⟨hs1, hs2⟩
  | snoc e _ he _ =>
    obtain ⟨_, _, _, a, b⟩ := hg.edges _ e he
    exact ⟨a, b⟩

theorem unvisited_upd (size : Int) (dist : Int → Int) (t x : Int) (h1 : 1 ≤ t)
    (h2 : t ≤ size) (ht : dist t = INT_MAX) (hx : x ≠ INT_MAX) :
    unvisited size (upd dist t x) + 1 = unvisited size dist := by
  unfold unvisited
  exact countP_upd_pos (vertices size) (vertices_nodup _) dist t x
    ((mem_vertices _ _).2 ⟨h1, h2⟩) (fun v => decide (v = INT_MAX)) (by simpa using ht)
    (by simpa using hx)

/-- One iteration of the loop over the edges of `u` that finds an unvisited target. -/
theorem BfsInv.push {g : Digraph} (hg : g.WF) {s u : Int} {st : BfsState} (e : Edge)
    (he : e ∈ g.table u) (hinv : BfsInv g s { st with Q := u :: st.Q })
    (ht : st.dist e.to_ = INT_MAX) :
    BfsInv g s ⟨upd st.dist e.to_ (wrap (st.dist u + 1)), upd st.path e.to_ u,
      u :: (st.Q ++ [e.to_])⟩ ∧ wrap (st.dist u + 1) = st.dist u + 1 ∧
      st.dist u + 1 ≠ INT_MAX := by
  obtain ⟨_, _, _, t1, t2⟩ := hg.edges u e he
  obtain ⟨u1, u2, u3⟩ := hinv.queue u (List.mem_cons_self _ _)
  have u1 : 1 ≤ u := u1
  have u3 : st.dist u ≠ INT_MAX := u3
  obtain ⟨u4, w, hw⟩ := hinv.sound u u1 u2 u3
  have u4 : 0 ≤ st.dist u := u4
  have hcnt : st.dist u + unvisited g.size st.dist + 1 ≤ g.size := hinv.count u u1 u2 u3
  have hsz := hg.size_int
  have hunv : 1 ≤ unvisited g.size st.dist := by
    apply List.length_pos_of_mem (a := e.to_)
    simp [List.mem_filter, mem_vertices, t1, t2, ht]
  have hne : st.dist u + 1 ≠ INT_MAX := by
    unfold INT_MAX at hsz ⊢
    omega
  have hwrap : wrap (st.dist u + 1) = st.dist u + 1 := by
    apply wrap_of_range
    · omega
    · unfold INT_MAX at hsz
      omega
  refine ⟨?_, hwrap, hne⟩
  rw [hwrap]
  have hut : u ≠ e.to_ := fun h => u3 (h ▸ ht)
  have hd : ∀ v, st.dist v ≠ INT_MAX → upd st.dist e.to_ (st.dist u + 1) v = st.dist v := by
    intro v hv
    exact upd_other _ _ _ _ (fun h => hv (h ▸ ht))
  have hdu := hd u u3
  have hunv2 := unvisited_upd g.size st.dist e.to_ (st.dist u + 1) t1 t2 ht hne
  have hvis : ∀ v, upd st.dist e.to_ (st.dist u + 1) v ≠ INT_MAX → v ≠ e.to_ →
      st.dist v ≠ INT_MAX := by
    intro v hv hvt
    rwa [upd_other _ _ _ _ hvt] at hv
  constructor
  · show upd st.dist e.to_ (st.dist u + 1) s = 0
    have hs0 : st.dist s = 0 := hinv.src
    rw [hd s (by rw [hs0]; decide)]
    exact hs0
  · show upd st.path e.to_ u s = 0
    have hs0 : st.dist s = 0 := hinv.src
    have hst : s ≠ e.to_ := fun h => by
      rw [h, ht] at hs0
      exact absurd hs0 (by decide)
    rw [upd_other _ _ _ _ hst]
    exact hinv.root
  · intro q hq
    show 1 ≤ q ∧ q ≤ g.size ∧ upd st.dist e.to_ (st.dist u + 1) q ≠ INT_MAX
    have hq' : q ∈ u :: st.Q ∨ q = e.to_ := by
      simpa [List.mem_append, or_assoc] using hq
    rcases hq' with hq' | rfl
    · obtain ⟨a, b, c⟩ := hinv.queue q hq'
      exact ⟨a, b, by rw [hd q c]; exact c⟩
    · exact ⟨t1, t2, by rw [upd_same]; exact hne⟩
  · intro v v1 v2 hv
    show 0 ≤ upd st.dist e.to_ (st.dist u + 1) v ∧
      ∃ w, g.Walk s v (upd st.dist e.to_ (st.dist u + 1) v).toNat w
    by_cases hvt : v = e.to_
    · subst hvt
      rw [upd_same]
      refine ⟨by omega, w + e.weight, ?_⟩
      have : (st.dist u + 1).toNat = (st.dist u).toNat + 1 := by omega
      rw [this]
      exact Digraph.Walk.snoc e hw he
    · rw [upd_other _ _ _ _ hvt]
      exact hinv.sound v v1 v2 (hvis v hv hvt)
  · intro v v1 v2 hv
    show upd st.dist e.to_ (st.dist u + 1) v +
      unvisited g.size (upd st.dist e.to_ (st.dist u + 1)) + 1 ≤ g.size
    by_cases hvt : v = e.to_
    · subst hvt
      rw [upd_same]
      omega
    · rw [upd_other _ _ _ _ hvt]
      have : st.dist v + unvisited g.size st.dist + 1 ≤ g.size :=
        hinv.count v v1 v2 (hvis v hv hvt)
      omega
  · show (u :: (st.Q ++ [e.to_])).Pairwise
      (fun a b => upd st.dist e.to_ (st.dist u + 1) a ≤ upd st.dist e.to_ (st.dist u + 1) b)
    have hs : (u :: st.Q).Pairwise (fun a b => st.dist a ≤ st.dist b) := hinv.sorted
    have hs2 : (u :: st.Q).Pairwise (fun a b =>
        upd st.dist e.to_ (st.dist u + 1) a ≤ upd st.dist e.to_ (st.dist u + 1) b) := by
      refine List.Pairwise.imp_of_mem ?_ hs
      intro a b ha hb hab
      rw [hd a (hinv.queue a ha).2.2, hd b (hinv.queue b hb).2.2]
      exact hab
    have : u :: (st.Q ++ [e.to_]) = (u :: st.Q) ++ [e.to_] := rfl
    rw [this, List.pairwise_append]
    refine ⟨hs2, List.pairwise_singleton _ _, ?_⟩
    intro a ha b hb
    rw [List.mem_singleton] at hb
    subst hb
    obtain ⟨a1, a2, a3⟩ := hinv.queue a ha
    rw [hd a a3, upd_same]
    exact hinv.near a a1 a2 a3 u (List.mem_cons_self _ _)
  · intro v v1 v2 hv q hq
    show upd st.dist e.to_ (st.dist u + 1) v ≤ upd st.dist e.to_ (st.dist u + 1) q + 1
    have hq' : q ∈ u :: st.Q ∨ q = e.to_ := by
      simpa [List.mem_append, or_assoc] using hq
    have hhead : ∀ q ∈ u :: st.Q, st.dist u ≤ st.dist q := by
      intro q hq
      have hs : (u :: st.Q).Pairwise (fun a b => st.dist a ≤ st.dist b) := hinv.sorted
      rcases List.mem_cons.1 hq with rfl | hq2
      · exact le_refl _
      · exact (List.pairwise_cons.1 hs).1 q hq2
    by_cases hvt : v = e.to_
    · subst hvt
      rw [upd_same]
      rcases hq' with hq' | rfl
      · rw [hd q (hinv.queue q hq').2.2]
        have := hhead q hq'
        omega
      · rw [upd_same]
        omega
    · rw [upd_other _ _ _ _ hvt]
      have hv' := hvis v hv hvt
      rcases hq' with hq' | rfl
      · rw [hd q (hinv.queue q hq').2.2]
        exact hinv.near v v1 v2 hv' q hq'
      · rw [upd_same]
        have : st.dist v ≤ st.dist u + 1 := hinv.near v v1 v2 hv' u (List.mem_cons_self _ _)
        omega
  · intro x x1 x2 hx hxq a ha
    show upd st.dist e.to_ (st.dist u + 1) a.to_ ≠ INT_MAX ∧
      upd st.dist e.to_ (st.dist u + 1) a.to_ ≤ upd st.dist e.to_ (st.dist u + 1) x + 1
    have hxq' : x ∉ u :: st.Q ∧ x ≠ e.to_ := by
      have : ¬ (x ∈ u :: st.Q ∨ x = e.to_) := by
        simpa [List.mem_append, or_assoc] using hxq
      exact ⟨fun h => this (Or.inl h), fun h => this (Or.inr h)⟩
    have hx' := hvis x hx hxq'.2
    obtain ⟨c1, c2⟩ := hinv.closed x x1 x2 hx' hxq'.1 a ha
    rw [hd _ c1, hd x hx']
    exact ⟨c1, c2⟩
  · intro v v1 v2 hv
    show upd st.path e.to_ u v = 0
    have hv' : upd st.dist e.to_ (st.dist u + 1) v = INT_MAX := hv
    have hvt : v ≠ e.to_ := by
      intro h
      rw [h, upd_same] at hv'
      exact hne hv'
    rw [upd_other _ _ _ _ hvt] at hv' ⊢
    exact hinv.unreached v v1 v2 hv'
  · intro v v1 v2 hv hvs
    show 1 ≤ upd st.path e.to_ u v ∧ upd st.path e.to_ u v ≤ g.size ∧
      upd st.dist e.to_ (st.dist u + 1) (upd st.path e.to_ u v) ≠ INT_MAX ∧
      (∃ a ∈ g.table (upd st.path e.to_ u v), a.to_ = v) ∧
      upd st.dist e.to_ (st.dist u + 1) v =
        upd st.dist e.to_ (st.dist u + 1) (upd st.path e.to_ u v) + 1
    by_cases hvt : v = e.to_
    · subst hvt
      rw [upd_same, upd_same, hdu]
      exact ⟨u1, u2, u3, ⟨e, he, rfl⟩, rfl⟩
    · rw [upd_other _ _ _ _ hvt, upd_other _ _ _ _ hvt]
      obtain ⟨a, b, c, d, f⟩ := hinv.tree v v1 v2 (hvis v hv hvt) hvs
      rw [hd _ c]
      exact ⟨a, b, c, d, f⟩

/-- The loop over the edges of `u` keeps the invariant with `u` still counted as queued,
visits the target of every edge it runs over, keeps the distances already set, and
moves vertices from the unvisited ones to the queue. -/
theorem BfsInv.edges {g : Digraph} (hg : g.WF) {s u : Int} :
    ∀ (es : List Edge) (st : BfsState), (∀ e ∈ es, e ∈ g.table u) →
      BfsInv g s { st with Q := u :: st.Q } →
      BfsInv g s { uwsssp_edges u es st with Q := u :: (uwsssp_edges u es st).Q } ∧
      (∀ e ∈ es, (uwsssp_edges u es st).dist e.to_ ≠ INT_MAX ∧
        (uwsssp_edges u es st).dist e.to_ ≤ (uwsssp_edges u es st).dist u + 1) ∧
      (∀ v, st.dist v ≠ INT_MAX → (uwsssp_edges u es st).dist v = st.dist v) ∧
      unvisited g.size (uwsssp_edges u es st).dist + (uwsssp_edges u es st).Q.length
        = unvisited g.size st.dist + st.Q.length := by
  intro es
  induction es with
  | nil =>
    intro st _ hinv
    exact ⟨hinv, fun e he => absurd he (List.not_mem_nil e), fun _ _ => rfl, rfl⟩
  | cons e es ih =>
    intro st hes hinv
    have he : e ∈ g.table u := hes e (List.mem_cons_self _ _)
    have hes' : ∀ a ∈ es, a ∈ g.table u := fun a ha => hes a (List.mem_cons_of_mem _ ha)
    obtain ⟨_, _, _, t1, t2⟩ := hg.edges u e he
    obtain ⟨u1, u2, u3⟩ := hinv.queue u (List.mem_cons_self _ _)
    have u3 : st.dist u ≠ INT_MAX := u3
    by_cases ht : st.dist e.to_ = INT_MAX
    · obtain ⟨hinv1, hwrap, hne⟩ := BfsInv.push hg e he hinv ht
      have hstep : uwsssp_edges u (e :: es) st = uwsssp_edges u es
          ⟨upd st.dist e.to_ (wrap (st.dist u + 1)), upd st.path e.to_ u,
            st.Q ++ [e.to_]⟩ := by
        simp [uwsssp_edges, ht]
      rw [hstep]
      obtain ⟨i1, i2, i3, i4⟩ := ih ⟨upd st.dist e.to_ (wrap (st.dist u + 1)),
        upd st.path e.to_ u, st.Q ++ [e.to_]⟩ hes' hinv1
      have hut : u ≠ e.to_ := fun h => u3 (h ▸ ht)
      have hunv := unvisited_upd g.size st.dist e.to_ (wrap (st.dist u + 1)) t1 t2 ht
        (by rw [hwrap]; exact hne)
      refine ⟨i1, ?_, ?_, ?_⟩
      · intro a ha
        rcases List.mem_cons.1 ha with rfl | ha'
        · have e1 := i3 a.to_ (by
            show upd st.dist a.to_ (wrap (st.dist u + 1)) a.to_ ≠ INT_MAX
            rw [upd_same, hwrap]
            exact hne)
          have e2 := i3 u (by
            show upd st.dist a.to_ (wrap (st.dist u + 1)) u ≠ INT_MAX
            rw [upd_other _ _ _ _ hut]
            exact u3)
          rw [e1, e2]
          show upd st.dist a.to_ (wrap (st.dist u + 1)) a.to_ ≠ INT_MAX ∧
            upd st.dist a.to_ (wrap (st.dist u + 1)) a.to_ ≤
              upd st.dist a.to_ (wrap (st.dist u + 1)) u + 1
          rw [upd_same, upd_other _ _ _ _ hut, hwrap]
          exact ⟨hne, le_refl _⟩
        · exact i2 a ha'
      · intro v hv
        have hvt : v ≠ e.to_ := fun h => hv (h ▸ ht)
        rw [i3 v (by
          show upd st.dist e.to_ (wrap (st.dist u + 1)) v ≠ INT_MAX
          rw [upd_other _ _ _ _ hvt]
          exact hv)]
        exact upd_other _ _ _ _ hvt
      · rw [i4]
        show unvisited g.size (upd st.dist e.to_ (wrap (st.dist u + 1))) +
          (st.Q ++ [e.to_]).length = _
        rw [List.length_append, List.length_singleton]
        omega
    · have hstep : uwsssp_edges u (e :: es) st = uwsssp_edges u es st := by
        simp [uwsssp_edges, ht]
      rw [hstep]
      obtain ⟨i1, i2, i3, i4⟩ := ih st hes' hinv
      refine ⟨i1, ?_, i3, i4⟩
      intro a ha
      rcases List.mem_cons.1 ha with rfl | ha'
      · rw [i3 _ ht, i3 u u3]
        exact ⟨ht, hinv.near a.to_ t1 t2 ht u (List.mem_cons_self _ _)⟩
      · exact i2 a ha'

/-- The `while` loop ends within `unvisited + |Q|` iterations, on a state with an empty
queue that satisfies the invariant. -/
theorem BfsInv.loop {g : Digraph} (hg : g.WF) {s : Int} :
    ∀ (fuel : Nat) (st : BfsState), BfsInv g s st →
      unvisited g.size st.dist + st.Q.length < fuel →
      ∃ st1, uwsssp_loop g.table fuel st = some st1 ∧ BfsInv g s st1 ∧ st1.Q = [] := by
  intro fuel
  induction fuel with
  | zero =>
    intro st _ h
    omega
  | succ k ih =>
    intro st hinv hfuel
    cases hQ : st.Q with
    | nil =>
      refine ⟨st, ?_, hinv, hQ⟩
      simp [uwsssp_loop, hQ]
    | cons u q =>
      have hst : st = { ({ st with Q := q } : BfsState) with
          Q := u :: ({ st with Q := q } : BfsState).Q } := by
        cases st
        simp_all
      rw [hst] at hinv
      obtain ⟨i1, i2, i3, i4⟩ := BfsInv.edges hg (g.table u) { st with Q := q }
        (fun e he => he) hinv
      have hstep : uwsssp_loop g.table (k + 1) st
          = uwsssp_loop g.table k (uwsssp_edges u (g.table u) { st with Q := q }) := by
        simp [uwsssp_loop, hQ]
      rw [hstep]
      apply ih
      · obtain ⟨u1, u2, u3⟩ := i1.queue u (List.mem_cons_self _ _)
        exact
          { src := i1.src
            root := i1.root
            queue := fun x hx => i1.queue x (List.mem_cons_of_mem _ hx)
            sound := i1.sound
            count := i1.count
            sorted := (List.pairwise_cons.1 i1.sorted).2
            near := fun v v1 v2 hv x hx => i1.near v v1 v2 hv x (List.mem_cons_of_mem _ hx)
            closed := by
              intro x x1 x2 hx hxq a ha
              by_cases hxu : x = u
              · subst hxu
                exact i2 a ha
              · exact i1.closed x x1 x2 hx (by
                  intro hmem
                  rcases List.mem_cons.1 hmem with h | h
                  · exact hxu h
                  · exact hxq h) a ha
            unreached := i1.unreached
            tree := i1.tree }
      · rw [i4]
        show unvisited g.size st.dist + q.length < k
        rw [hQ] at hfuel
        simp only [List.length_cons] at hfuel
        omega

theorem uwsssp_init_apply (size : Int) (dist path : Int → Int) (v : Int) :
    (uwsssp_init size dist path).1 v = (if 1 ≤ v ∧ v ≤ size then INT_MAX else dist v) ∧
    (uwsssp_init size dist path).2 v = (if 1 ≤ v ∧ v ≤ size then 0 else path v) := by
  unfold uwsssp_init
  simp only [← mem_vertices]
  generalize vertices size = l
  induction l generalizing dist path with
  | nil => simp
  | cons a l ih =>
    rw [List.foldl_cons]
    obtain ⟨i1, i2⟩ := ih (upd dist a INT_MAX) (upd path a 0)
    rw [i1, i2]
    by_cases hv : v ∈ l
    · simp [hv]
    · by_cases hva : v = a
      · simp [hva, upd_same]
      · simp [hv, hva, upd_other _ _ _ _ hva]

theorem BfsInv.init {g : Digraph} (hg : g.WF) {s : Int} (hs1 : 1 ≤ s) (hs2 : s ≤ g.size) :
    BfsInv g s ⟨upd (uwsssp_init g.size g.dist g.path).1 s 0,
      (uwsssp_init g.size g.dist g.path).2, [s]⟩ ∧
    unvisited g.size (upd (uwsssp_init g.size g.dist g.path).1 s 0) + 1 ≤ g.size.toNat := by
  have hd : ∀ v, 1 ≤ v → v ≤ g.size → (uwsssp_init g.size g.dist g.path).1 v = INT_MAX := by
    intro v v1 v2
    rw [(uwsssp_init_apply g.size g.dist g.path v).1, if_pos ⟨v1, v2⟩]
  have hp : ∀ v, 1 ≤ v → v ≤ g.size → (uwsssp_init g.size g.dist g.path).2 v = 0 := by
    intro v v1 v2
    rw [(uwsssp_init_apply g.size g.dist g.path v).2, if_pos ⟨v1, v2⟩]
  generalize (uwsssp_init g.size g.dist g.path).1 = d0 at hd ⊢
  generalize (uwsssp_init g.size g.dist g.path).2 = p0 at hp ⊢
  have hunv := unvisited_upd g.size d0 s 0 hs1 hs2 (hd s hs1 hs2) (by decide)
  have hle : unvisited g.size d0 ≤ g.size.toNat := by
    unfold unvisited
    rw [← vertices_length g.size]
    exact List.length_filter_le _ _
  have hvis : ∀ v, 1 ≤ v → v ≤ g.size → upd d0 s 0 v ≠ INT_MAX → v = s := by
    intro v v1 v2 hv
    by_contra hvs
    rw [upd_other _ _ _ _ hvs] at hv
    exact hv (hd v v1 v2)
  have hsz := hg.size_pos
  have hss : upd d0 s 0 s = 0 := upd_same _ _ _
  refine ⟨?_, by omega⟩
  constructor
  · exact hss
  · exact hp s hs1 hs2
  · intro q hq
    have hq : q = s := List.mem_singleton.1 hq
    subst hq
    refine ⟨hs1, hs2, ?_⟩
    show upd d0 q 0 q ≠ INT_MAX
    rw [hss]
    decide
  · intro v v1 v2 hv
    have := hvis v v1 v2 hv
    subst this
    show 0 ≤ upd d0 v 0 v ∧ ∃ w, g.Walk v v (upd d0 v 0 v).toNat w
    rw [hss]
    exact ⟨le_refl _, 0, Digraph.Walk.nil⟩
  · intro v v1 v2 hv
    have := hvis v v1 v2 hv
    subst this
    show upd d0 v 0 v + unvisited g.size (upd d0 v 0) + 1 ≤ g.size
    rw [hss]
    omega
  · exact List.pairwise_singleton _ _
  · intro v v1 v2 hv q hq
    have hq : q = s := List.mem_singleton.1 hq
    have := hvis v v1 v2 hv
    subst this hq
    show upd d0 q 0 q ≤ upd d0 q 0 q + 1
    omega
  · intro u u1 u2 hu hq
    have := hvis u u1 u2 hu
    exact absurd (List.mem_singleton.2 this) hq
  · intro v v1 v2 _
    exact hp v v1 v2
  · intro v v1 v2 hv hvs
    exact absurd (hvis v v1 v2 hv) hvs

/-- What the invariant gives once the queue is empty: the distances are the minimum
numbers of edges, and the vertices without a walk from `s` keep `INT_MAX` and parent 0. -/
theorem BfsInv.final {g : Digraph} (hg : g.WF) {s : Int} (hs1 : 1 ≤ s) (hs2 : s ≤ g.size)
    {st : BfsState} (hinv : BfsInv g s st) (hQ : st.Q = []) :
    ∀ v k w, g.Walk s v k w → st.dist v ≠ INT_MAX ∧ st.dist v ≤ k := by
  intro v k w hw
  induction hw with
  | nil =>
    rw [hinv.src]
    exact ⟨by decide, by simp⟩
  | snoc e hw0 he ih =>
    rename_i u k0 w0
    obtain ⟨u1, u2⟩ := Digraph.Walk.range hg hs1 hs2 hw0
    obtain ⟨c1, c2⟩ := hinv.closed u u1 u2 ih.1 (by rw [hQ]; exact List.not_mem_nil u) e he
    refine ⟨c1, ?_⟩
    push_cast
    omega

/-- C1: on a directed graph with `n >= 1` vertices and a source `s` of `1..n`, `uwsssp(s)`
returns; afterwards `dist[s] = 0`, for every vertex `v` that a directed walk from `s`
reaches `dist[v]` is the number of edges of such a walk and no walk from `s` to `v` has
fewer edges, and for every vertex `v` that no walk from `s` reaches `dist[v]` is
`INT_MAX` and `path[v]` is 0. -/
theorem Digraph.uwsssp_shortest (g : Digraph) (hg : g.WF) (s : Int)
    (hs1 : 1 ≤ s) (hs2 : s ≤ g.size) :
    ∃ g1, g.uwsssp s = some g1 ∧ g1.table = g.table ∧ g1.size = g.size ∧
      g1.dist s = 0 ∧
      ∀ v, 1 ≤ v → v ≤ g.size →
        ((∃ k w, g.Walk s v k w) →
          0 ≤ g1.dist v ∧ (∃ w, g.Walk s v (g1.dist v).toNat w) ∧
          ∀ k w, g.Walk s v k w → g1.dist v ≤ k) ∧
        ((¬ ∃ k w, g.Walk s v k w) → g1.dist v = INT_MAX ∧ g1.path v = 0) := by
  obtain ⟨hinit, hfuel⟩ := BfsInv.init hg hs1 hs2
  obtain ⟨st, hloop, hinv, hQ⟩ := BfsInv.loop hg (g.size.toNat + 1) _ hinit (by
    show unvisited g.size (upd (uwsssp_init g.size g.dist g.path).1 s 0) + [s].length
      < g.size.toNat + 1
    rw [List.length_singleton]
    omega)
  refine ⟨{ g with dist := st.dist, path := st.path }, ?_, rfl, rfl, hinv.src, ?_⟩
  · unfold Digraph.uwsssp
    rw [if_pos ⟨hs1, hs2⟩]
    simp only [hloop]
  · intro v v1 v2
    have hfin := BfsInv.final hg hs1 hs2 hinv hQ
    constructor
    · rintro ⟨k, w, hw⟩
      obtain ⟨f1, _⟩ := hfin v k w hw
      obtain ⟨a, b⟩ := hinv.sound v v1 v2 f1
      exact ⟨a, b, fun k w hw => (hfin v k w hw).2⟩
    · intro hno
      have hd : st.dist v = INT_MAX := by
        by_contra hne
        obtain ⟨_, w, hw⟩ := hinv.sound v v1 v2 hne
        exact hno ⟨_, w, hw⟩
      exact ⟨hd, hinv.unreached v v1 v2 hd⟩

/-! ## Well-formedness of constructed directed graphs -/

theorem mem_updateWeight (e x : Edge) (l : List Edge) (hx : x ∈ updateWeight e l) :
    ∃ y ∈ l, x.from_ = y.from_ ∧ x.to_ = y.to_ := by
  induction l with
  | nil => simp [updateWeight] at hx
  | cons a l ih =>
    unfold updateWeight at hx
    split at hx
    · rcases List.mem_cons.1 hx with rfl | h
      · exact ⟨a, List.mem_cons_self _ _, rfl, rfl⟩
      · exact ⟨x, List.mem_cons_of_mem _ h, rfl, rfl⟩
    · rcases List.mem_cons.1 hx with rfl | h
      · exact ⟨x, List.mem_cons_self _ _, rfl, rfl⟩
      · obtain ⟨y, hy, hh⟩ := ih h
        exact ⟨y, List.mem_cons_of_mem _ hy, hh⟩

theorem mem_eraseFirst (e x : Edge) (l : List Edge) (hx : x ∈ eraseFirst e l) : x ∈ l := by
  induction l with
  | nil => simp [eraseFirst] at hx
  | cons a l ih =>
    unfold eraseFirst at hx
    split at hx
    · exact List.mem_cons_of_mem _ hx
    · rcases List.mem_cons.1 hx with rfl | h
      · exact List.mem_cons_self _ _
      · exact List.mem_cons_of_mem _ (ih h)

theorem Digraph.create_wf (n : Int) (g : Digraph) (hc : Digraph.create n = some g)
    (hn : n ≤ INT_MAX) : g.WF := by
  unfold Digraph.create at hc
  split at hc
  · simp only [Option.some.injEq] at hc
    subst hc
    exact ⟨by assumption, hn, fun u e he => absurd he (List.not_mem_nil e)⟩
  · simp at hc

theorem Digraph.insertEdge_wf (g g1 : Digraph) (e : Edge) (hg : g.WF)
    (hi : g.insertEdge e = some g1) : g1.WF := by
  unfold Digraph.insertEdge at hi
  split at hi
  · rename_i hr
    obtain ⟨r1, r2, r3, r4⟩ := hr
    split at hi
    · simp only [Option.some.injEq] at hi
      subst hi
      refine ⟨hg.size_pos, hg.size_int, ?_⟩
      intro u x hx
      show 1 ≤ u ∧ u ≤ g.size ∧ x.from_ = u ∧ 1 ≤ x.to_ ∧ x.to_ ≤ g.size
      by_cases hu : u = e.from_
      · subst hu
        have hx : x ∈ upd g.table e.from_ (updateWeight e (g.table e.from_)) e.from_ := hx
        rw [upd_same] at hx
        obtain ⟨y, hy, e1, e2⟩ := mem_updateWeight e x _ hx
        rw [e1, e2]
        exact hg.edges _ y hy
      · have hx : x ∈ upd g.table e.from_ (updateWeight e (g.table e.from_)) u := hx
        rw [upd_other _ _ _ _ hu] at hx
        exact hg.edges u x hx
    · simp only [Option.some.injEq] at hi
      subst hi
      refine ⟨hg.size_pos, hg.size_int, ?_⟩
      intro u x hx
      show 1 ≤ u ∧ u ≤ g.size ∧ x.from_ = u ∧ 1 ≤ x.to_ ∧ x.to_ ≤ g.size
      by_cases hu : u = e.from_
      · subst hu
        have hx : x ∈ upd g.table e.from_ (g.table e.from_ ++ [e]) e.from_ := hx
        rw [upd_same, List.mem_append, List.mem_singleton] at hx
        rcases hx with hx | rfl
        · exact hg.edges _ x hx
        · exact ⟨r1, r2, rfl, r3, r4⟩
      · have hx : x ∈ upd g.table e.from_ (g.table e.from_ ++ [e]) u := hx
        rw [upd_other _ _ _ _ hu] at hx
        exact hg.edges u x hx
  · simp at hi

theorem Digraph.removeEdge_wf (g g1 : Digraph) (e : Edge) (hg : g.WF)
    (hi : g.removeEdge e = some g1) : g1.WF := by
  unfold Digraph.removeEdge at hi
  split at hi
  · split at hi
    · simp only [Option.some.injEq] at hi
      subst hi
      refine ⟨hg.size_pos, hg.size_int, ?_⟩
      intro u x hx
      show 1 ≤ u ∧ u ≤ g.size ∧ x.from_ = u ∧ 1 ≤ x.to_ ∧ x.to_ ≤ g.size
      by_cases hu : u = e.from_
      · subst hu
        have hx : x ∈ upd g.table e.from_ (eraseFirst e (g.table e.from_)) e.from_ := hx
        rw [upd_same] at hx
        exact hg.edges _ x (mem_eraseFirst e x _ hx)
      · have hx : x ∈ upd g.table e.from_ (eraseFirst e (g.table e.from_)) u := hx
        rw [upd_other _ _ _ _ hu] at hx
        exact hg.edges u x hx
    · simp at hi
  · simp at hi

theorem Digraph.insertAll_wf (V : List Edge) (g g1 : Digraph) (hg : g.WF)
    (hi : Digraph.insertAll V g = some g1) : g1.WF := by
  induction V generalizing g with
  | nil =>
    simp only [Digraph.insertAll, Option.some.injEq] at hi
    exact hi ▸ hg
  | cons e V ih =>
    unfold Digraph.insertAll at hi
    split at hi
    · rename_i g2 h2
      exact ih g2 (Digraph.insertEdge_wf g g2 e hg h2) hi
    · simp at hi

theorem Digraph.ofEdges_wf (V : List Edge) (n : Int) (g : Digraph)
    (hc : Digraph.ofEdges V n = some g) (hn : n ≤ INT_MAX) : g.WF := by
  unfold Digraph.ofEdges at hc
  split at hc
  · rename_i g0 h0
    exact Digraph.insertAll_wf V g0 g (Digraph.create_wf n g0 h0 hn) hc
  · simp at hc

theorem Digraph.uwsssp_shortest_witness :
    ∃ g, Digraph.ofEdges [⟨1, 2, 1⟩, ⟨1, 3, 1⟩, ⟨2, 4, 1⟩, ⟨3, 4, 1⟩, ⟨4, 5, 1⟩] 5 = some g ∧
      g.WF ∧
      (∃ g1, g.uwsssp 1 = some g1 ∧ (vertices 5).map g1.dist = [0, 1, 1, 2, 3] ∧
        (vertices 5).map g1.path = [0, 1, 1, 2, 4]) ∧
      ∃ g1, g.uwsssp 1 = some g1 ∧ g1.table = g.table ∧ g1.size = g.size ∧
        g1.dist 1 = 0 ∧
        ∀ v, 1 ≤ v → v ≤ g.size →
          ((∃ k w, g.Walk 1 v k w) →
            0 ≤ g1.dist v ∧ (∃ w, g.Walk 1 v (g1.dist v).toNat w) ∧
            ∀ k w, g.Walk 1 v k w → g1.dist v ≤ k) ∧
          ((¬ ∃ k w, g.Walk 1 v k w) → g1.dist v = INT_MAX ∧ g1.path v = 0) :=
  ⟨_, rfl,
    Digraph.ofEdges_wf [⟨1, 2, 1⟩, ⟨1, 3, 1⟩, ⟨2, 4, 1⟩, ⟨3, 4, 1⟩, ⟨4, 5, 1⟩] 5 _ rfl
      (by decide),
    ⟨_, rfl, by decide, by decide⟩,
    Digraph.uwsssp_shortest _
      (Digraph.ofEdges_wf [⟨1, 2, 1⟩, ⟨1, 3, 1⟩, ⟨2, 4, 1⟩, ⟨3, 4, 1⟩, ⟨4, 5, 1⟩] 5 _ rfl
        (by decide)) 1 (by decide) (by decide)⟩

/-! ## Dijkstra shortest paths -/

theorem smallest_scan_spec (dist : Int → Int) (done : Int → Bool) :
    ∀ (l : List Int) (acc : Int × Int),
      (smallest_scan dist done l acc).1 ≤ acc.1 ∧
      (∀ y ∈ l, done y = false → (smallest_scan dist done l acc).1 ≤ dist y) ∧
      (smallest_scan dist done l acc = acc ∨
        ((smallest_scan dist done l acc).2 ∈ l ∧
          done (smallest_scan dist done l acc).2 = false ∧
          dist (smallest_scan dist done l acc).2 = (smallest_scan dist done l acc).1 ∧
          (smallest_scan dist done l acc).1 < acc.1)) := by
  intro l
  induction l with
  | nil =>
    intro acc
    exact ⟨le_refl _, fun y hy => absurd hy (List.not_mem_nil y), Or.inl rfl⟩
  | cons v l ih =>
    intro acc
    by_cases hc : done v = false ∧ dist v < acc.1
    · have hstep : smallest_scan dist done (v :: l) acc
          = smallest_scan dist done l (dist v, v) := by
        simp [smallest_scan, hc]
      rw [hstep]
      obtain ⟨i1, i2, i3⟩ := ih (dist v, v)
      have i1 : (smallest_scan dist done l (dist v, v)).1 ≤ dist v := i1
      refine ⟨by omega, ?_, ?_⟩
      · intro y hy hd
        rcases List.mem_cons.1 hy with rfl | hy'
        · exact i1
        · exact i2 y hy' hd
      · right
        rcases i3 with e | ⟨a, b, c, d⟩
        · rw [e]
          exact ⟨List.mem_cons_self _ _, hc.1, rfl, hc.2⟩
        · have d : (smallest_scan dist done l (dist v, v)).1 < dist v := d
          exact ⟨List.mem_cons_of_mem _ a, b, c, by omega⟩
    · have hstep : smallest_scan dist done (v :: l) acc = smallest_scan dist done l acc := by
        simp only [smallest_scan, hc, if_false]
      rw [hstep]
      obtain ⟨i1, i2, i3⟩ := ih acc
      refine ⟨i1, ?_, ?_⟩
      · intro y hy hd
        rcases List.mem_cons.1 hy with rfl | hy'
        · have : ¬ dist y < acc.1 := fun h => hc ⟨hd, h⟩
          omega
        · exact i2 y hy' hd
      · rcases i3 with e | ⟨a, b, c, d⟩
        · exact Or.inl e
        · exact Or.inr ⟨List.mem_cons_of_mem _ a, b, c, d⟩

theorem find_smallest_spec (size : Int) (dist : Int → Int) (done : Int → Bool) :
    (find_smallest_undone_distance_vertex size dist done = 0 ∧
      ∀ y, 1 ≤ y → y ≤ size → done y = false → INT_MAX ≤ dist y) ∨
    (1 ≤ find_smallest_undone_distance_vertex size dist done ∧
      find_smallest_undone_distance_vertex size dist done ≤ size ∧
      done (find_smallest_undone_distance_vertex size dist done) = false ∧
      dist (find_smallest_undone_distance_vertex size dist done) < INT_MAX ∧
      ∀ y, 1 ≤ y → y ≤ size → done y = false →
        dist (find_smallest_undone_distance_vertex size dist done) ≤ dist y) := by
  unfold find_smallest_undone_distance_vertex
  obtain ⟨_, i2, i3⟩ := smallest_scan_spec dist done (vertices size) (INT_MAX, 0)
  rcases i3 with e | ⟨a, b, c, d⟩
  · left
    rw [e] at i2 ⊢
    exact ⟨rfl, fun y y1 y2 hy => i2 y ((mem_vertices _ _).2 ⟨y1, y2⟩) hy⟩
  · right
    rw [mem_vertices] at a
    refine ⟨a.1, a.2, b, by rw [c]; exact d, ?_⟩
    intro y y1 y2 hy
    rw [c]
    exact i2 y ((mem_vertices _ _).2 ⟨y1, y2⟩) hy

theorem undone_upd (size : Int) (done : Int → Bool) (t : Int) (h1 : 1 ≤ t) (h2 : t ≤ size)
    (ht : done t = false) : undone size (upd done t true) + 1 = undone size done := by
  unfold undone
  exact countP_upd_pos (vertices size) (vertices_nodup _) done t true
    ((mem_vertices _ _).2 ⟨h1, h2⟩) (fun b => decide (b = false)) (by simpa using ht)
    (by decide)

theorem pwsssp_init_apply (size : Int) (st : DijkstraState) (v : Int) (h1 : 1 ≤ v)
    (h2 : v ≤ size) :
    (pwsssp_init size st).dist v = INT_MAX ∧ (pwsssp_init size st).path v = 0 ∧
    (pwsssp_init size st).done v = false := by
  unfold pwsssp_init
  have hv : v ∈ (0 :: vertices size) :=
    List.mem_cons_of_mem _ ((mem_vertices _ _).2 ⟨h1, h2⟩)
  generalize (0 :: vertices size) = l at hv
  induction l generalizing st with
  | nil => simp at hv
  | cons a l ih =>
    rw [List.foldl_cons]
    by_cases hvl : v ∈ l
    · exact ih _ hvl
    · have hva : v = a := by
        rcases List.mem_cons.1 hv with h | h
        · exact h
        · exact absurd h hvl
      subst hva
      have key : ∀ (l : List Int) (st : DijkstraState), v ∉ l →
          (l.foldl (fun st v => (⟨upd st.dist v INT_MAX, upd st.path v 0,
            upd st.done v false⟩ : DijkstraState)) st).dist v = st.dist v ∧
          (l.foldl (fun st v => (⟨upd st.dist v INT_MAX, upd st.path v 0,
            upd st.done v false⟩ : DijkstraState)) st).path v = st.path v ∧
          (l.foldl (fun st v => (⟨upd st.dist v INT_MAX, upd st.path v 0,
            upd st.done v false⟩ : DijkstraState)) st).done v = st.done v := by
        intro l
        induction l with
        | nil => intro st _; exact ⟨rfl, rfl, rfl⟩
        | cons b l ih2 =>
          intro st hb
          rw [List.foldl_cons]
          have hvb : v ≠ b := fun h => hb (h ▸ List.mem_cons_self _ _)
          obtain ⟨a1, a2, a3⟩ := ih2 ⟨upd st.dist b INT_MAX, upd st.path b 0,
            upd st.done b false⟩ (fun h => hb (List.mem_cons_of_mem _ h))
          rw [a1, a2, a3]
          exact ⟨upd_other _ _ _ _ hvb, upd_other _ _ _ _ hvb, upd_other _ _ _ _ hvb⟩
      obtain ⟨a1, a2, a3⟩ := key l ⟨upd st.dist v INT_MAX, upd st.path v 0,
        upd st.done v false⟩ hvl
      rw [a1, a2, a3]
      exact ⟨upd_same _ _ _, upd_same _ _ _, upd_same _ _ _⟩

/-- The graph with the edges (1,2,4), (2,3,1) and (1,3,7), as evaluated by the code. -/
theorem small_digraph_facts :
    ∃ g, Digraph.ofEdges [⟨1, 2, 4⟩, ⟨2, 3, 1⟩, ⟨1, 3, 7⟩] 3 = some g ∧ g.size = 3 ∧
      g.table 1 = [⟨1, 2, 4⟩, ⟨1, 3, 7⟩] ∧ g.table 2 = [⟨2, 3, 1⟩] ∧ g.table 3 = [] :=
  ⟨_, rfl, rfl, rfl, rfl, rfl⟩

theorem Connects.refl (es : List Edge) (a : Int) : Connects es a a :=
  Relation.EqvGen.refl a

theorem Connects.symm {es : List Edge} {a b : Int} (h : Connects es a b) : Connects es b a :=
  Relation.EqvGen.symm a b h

theorem Connects.trans {es : List Edge} {a b c : Int} (h1 : Connects es a b)
    (h2 : Connects es b c) : Connects es a c :=
  Relation.EqvGen.trans a b c h1 h2

theorem Connects.edge {es : List Edge} (e : Edge) (he : e ∈ es) :
    Connects es e.from_ e.to_ :=
  Relation.EqvGen.rel _ _ ⟨e, he, rfl, rfl⟩

/-- Edges whose ends are already joined by `es1` add nothing to what `es1` joins. -/
theorem Connects.mono_of {es es1 : List Edge}
    (h : ∀ e ∈ es, Connects es1 e.from_ e.to_) {a b : Int} (hab : Connects es a b) :
    Connects es1 a b := by
  induction hab with
  | rel x y hxy =>
    obtain ⟨e, he, rfl, rfl⟩ := hxy
    exact h e he
  | refl x => exact Connects.refl _ _
  | symm x y _ ih => exact ih.symm
  | trans x y z _ _ ih1 ih2 => exact ih1.trans ih2

theorem Connects.mono {es es1 : List Edge} (h : ∀ e ∈ es, e ∈ es1) {a b : Int}
    (hab : Connects es a b) : Connects es1 a b :=
  Connects.mono_of (fun e he => Connects.edge e (h e he)) hab

/-- What one more edge joins. -/
theorem connects_cons (e : Edge) (es : List Edge) (a b : Int) :
    Connects (e :: es) a b ↔
      Connects es a b ∨ (Connects es a e.from_ ∧ Connects es e.to_ b) ∨
        (Connects es a e.to_ ∧ Connects es e.from_ b) := by
  constructor
  · intro h
    induction h with
    | rel x y hxy =>
      obtain ⟨f, hf, rfl, rfl⟩ := hxy
      rcases List.mem_cons.1 hf with rfl | hf'
      · exact Or.inr (Or.inl ⟨Connects.refl _ _, Connects.refl _ _⟩)
      · exact Or.inl (Connects.edge f hf')
    | refl x => exact Or.inl (Connects.refl _ _)
    | symm x y _ ih =>
      rcases ih with h | ⟨h1, h2⟩ | ⟨h1, h2⟩
      · exact Or.inl h.symm
      · exact Or.inr (Or.inr ⟨h2.symm, h1.symm⟩)
      · exact Or.inr (Or.inl ⟨h2.symm, h1.symm⟩)
    | trans x y z _ _ ih1 ih2 =>
      rcases ih1 with h | ⟨h1, h2⟩ | ⟨h1, h2⟩
      · rcases ih2 with k | ⟨k1, k2⟩ | ⟨k1, k2⟩
        · exact Or.inl (h.trans k)
        · exact Or.inr (Or.inl ⟨h.trans k1, k2⟩)
        · exact Or.inr (Or.inr ⟨h.trans k1, k2⟩)
      · rcases ih2 with k | ⟨k1, k2⟩ | ⟨k1, k2⟩
        · exact Or.inr (Or.inl ⟨h1, h2.trans k⟩)
        · exact Or.inr (Or.inl ⟨h1, k2⟩)
        · exact Or.inl (h1.trans k2)
      · rcases ih2 with k | ⟨k1, k2⟩ | ⟨k1, k2⟩
        · exact Or.inr (Or.inr ⟨h1, h2.trans k⟩)
        · exact Or.inl (h1.trans k2)
        · exact Or.inr (Or.inr ⟨h1, k2⟩)
  · have hm : ∀ x y, Connects es x y → Connects (e :: es) x y :=
      fun x y h => Connects.mono (fun f hf => List.mem_cons_of_mem _ hf) h
    have he : Connects (e :: es) e.from_ e.to_ := Connects.edge e (List.mem_cons_self _ _)
    rintro (h | ⟨h1, h2⟩ | ⟨h1, h2⟩)
    · exact hm _ _ h
    · exact (hm _ _ h1).trans (he.trans (hm _ _ h2))
    · exact (hm _ _ h1).trans (he.symm.trans (hm _ _ h2))

theorem connects_snoc (e : Edge) (es : List Edge) (a b : Int) :
    Connects (es ++ [e]) a b ↔
      Connects es a b ∨ (Connects es a e.from_ ∧ Connects es e.to_ b) ∨
        (Connects es a e.to_ ∧ Connects es e.from_ b) := by
  rw [← connects_cons]
  constructor
  · exact Connects.mono (fun f hf => by
      rcases List.mem_append.1 hf with h | h
      · exact List.mem_cons_of_mem _ h
      · rw [List.mem_singleton.1 h]
        exact List.mem_cons_self _ _)
  · exact Connects.mono (fun f hf => by
      rcases List.mem_cons.1 hf with h | h
      · rw [h]
        exact List.mem_append_right _ (List.mem_singleton.2 rfl)
      · exact List.mem_append_left _ h)

/-- The exchange step: if `e` joins two components of `A` that `A` and `S` together
join, some edge `f` of `S` between two components of `A` can be traded for `e`. -/
theorem exchange (A : List Edge) (e : Edge) :
    ∀ S : List Edge, ¬ Connects A e.from_ e.to_ → Connects (A ++ S) e.from_ e.to_ →
      ∃ f ∈ S, ¬ Connects A f.from_ f.to_ ∧
        ∀ x y, Connects (A ++ S) x y → Connects ((A ++ [e]) ++ S.erase f) x y := by
  intro S
  induction S with
  | nil =>
    intro h1 h2
    rw [List.append_nil] at h2
    exact absurd h2 h1
  | cons s S ih =>
    intro h1 h2
    have hperm : ∀ x y, Connects (A ++ s :: S) x y ↔ Connects (s :: (A ++ S)) x y := by
      intro x y
      constructor <;> apply Connects.mono <;> intro f hf <;>
        simp only [List.mem_append, List.mem_cons] at hf ⊢ <;> tauto
    by_cases hc : Connects (A ++ S) e.from_ e.to_
    · obtain ⟨f, hf, hfA, hsub⟩ := ih h1 hc
      refine ⟨f, List.mem_cons_of_mem _ hf, hfA, ?_⟩
      intro x y hxy
      apply Connects.mono_of _ hxy
      intro a ha
      rcases List.mem_append.1 ha with ha | ha
      · exact Connects.edge a (List.mem_append_left _ (List.mem_append_left _ ha))
      · rcases List.mem_cons.1 ha with rfl | ha
        · by_cases hsf : a = f
          · subst hsf
            have : (a :: S).erase a = S := by simp
            rw [this]
            exact Connects.edge a (List.mem_append_right _ hf)
          · have : (a :: S).erase f = a :: S.erase f := by
              rw [List.erase_cons_tail]
              simpa using hsf
            rw [this]
            exact Connects.edge a (List.mem_append_right _ (List.mem_cons_self _ _))
        · have h3 := hsub _ _ (Connects.edge a (List.mem_append_right A ha))
          apply Connects.mono _ h3
          intro b hb
          rcases List.mem_append.1 hb with hb | hb
          · exact List.mem_append_left _ hb
          · apply List.mem_append_right
            by_cases hsf : s = f
            · subst hsf
              have : (s :: S).erase s = S := by simp
              rw [this]
              exact List.mem_of_mem_erase hb
            · have : (s :: S).erase f = s :: S.erase f := by
                rw [List.erase_cons_tail]
                simpa using hsf
              rw [this]
              exact List.mem_cons_of_mem _ hb
    · have h3 := (connects_cons s (A ++ S) _ _).1 ((hperm _ _).1 h2)
      have hm : ∀ x y, Connects A x y → Connects (A ++ S) x y :=
        fun x y h => Connects.mono (fun f hf => List.mem_append_left _ hf) h
      have hm2 : ∀ x y, Connects (A ++ S) x y → Connects ((A ++ [e]) ++ S) x y := by
        intro x y
        apply Connects.mono
        intro f hf
        simp only [List.mem_append, List.mem_singleton] at hf ⊢
        tauto
      have he : Connects ((A ++ [e]) ++ S) e.from_ e.to_ :=
        Connects.edge e (List.mem_append_left _ (List.mem_append_right _
          (List.mem_singleton.2 rfl)))
      have herase : (s :: S).erase s = S := by simp
      refine ⟨s, List.mem_cons_self _ _, ?_, ?_⟩
      · intro hs
        rcases h3 with h | ⟨k1, k2⟩ | ⟨k1, k2⟩
        · exact hc h
        · exact hc (k1.trans ((hm _ _ hs).trans k2))
        · exact hc (k1.trans ((hm _ _ hs).symm.trans k2))
      · intro x y hxy
        rw [herase]
        apply Connects.mono_of _ hxy
        intro a ha
        rcases List.mem_append.1 ha with ha | ha
        · exact Connects.edge a (List.mem_append_left _ (List.mem_append_left _ ha))
        · rcases List.mem_cons.1 ha with rfl | ha
          · rcases h3 with h | ⟨k1, k2⟩ | ⟨k1, k2⟩
            · exact absurd h hc
            · exact ((hm2 _ _ k1).symm.trans (he.trans (hm2 _ _ k2).symm))
            · exact ((hm2 _ _ k2).trans (he.symm.trans (hm2 _ _ k1)))
          · exact Connects.edge a (List.mem_append_right _ ha)

/-! ## Forests certified by a disjoint-set state -/

theorem connects_nil (a b : Int) (h : Connects [] a b) : a = b := by
  induction h with
  | rel x y hxy =>
    obtain ⟨e, he, _⟩ := hxy
    exact absurd he (List.not_mem_nil e)
  | refl x => rfl
  | symm x y _ ih => exact ih.symm
  | trans x y z _ _ ih1 ih2 => exact ih1.trans ih2

theorem forestCert_nil (n : Int) (hn : 1 ≤ n) : ForestCert n [] := by
  have hc : DSets.create n = some ⟨n, DSets.init n (fun _ => 0)⟩ := by
    unfold DSets.create
    rw [if_pos (by omega)]
  refine ⟨_, DSets.Reach.create hc, ?_⟩
  intro u v u1 u2 v1 v2
  obtain ⟨_, _, hV⟩ := DSets.create_eq n _ hc
  have hu : DSets.rep ⟨n, DSets.init n (fun _ => 0)⟩ u = u :=
    DSets.rep_of_neg _ u (by rw [hV, if_pos ⟨u1, u2⟩]; decide)
  have hv : DSets.rep ⟨n, DSets.init n (fun _ => 0)⟩ v = v :=
    DSets.rep_of_neg _ v (by rw [hV, if_pos ⟨v1, v2⟩]; decide)
  rw [hu, hv]
  constructor
  · rintro rfl
    exact Connects.refl _ _
  · exact connects_nil u v

/-- Joining the sets of the two ends of an edge that the state does not join yet gives a
state whose sets are those of the edges with this one added. -/
theorem cert_add (n : Int) (k : Nat) (D : DSets) (L : List Edge) (hD : DSets.Reach n k D)
    (hrel : ∀ u v, 1 ≤ u → u ≤ n → 1 ≤ v → v ≤ n → (D.rep u = D.rep v ↔ Connects L u v))
    (e : Edge) (a1 : 1 ≤ e.from_) (a2 : e.from_ ≤ n) (b1 : 1 ≤ e.to_) (b2 : e.to_ ≤ n)
    (hne : ¬ Connects L e.from_ e.to_) :
    ∃ D1, D.join (D.rep e.from_) (D.rep e.to_) = some D1 ∧ DSets.Reach n (k + 1) D1 ∧
      ∀ u v, 1 ≤ u → u ≤ n → 1 ≤ v → v ≤ n →
        (D1.rep u = D1.rep v ↔
          (Connects L u v ∨ (Connects L u e.from_ ∧ Connects L e.to_ v) ∨
            (Connects L u e.to_ ∧ Connects L e.from_ v))) := by
  obtain ⟨h, hv, hsz, _⟩ := DSets.reach_valid n k D hD
  subst hsz
  obtain ⟨ra1, ra2, ra3, _⟩ := DSets.rep_spec hv.ranked e.from_ a1 a2
  obtain ⟨rb1, rb2, rb3, _⟩ := DSets.rep_spec hv.ranked e.to_ b1 b2
  have hrne : D.rep e.from_ ≠ D.rep e.to_ := fun h => hne ((hrel _ _ a1 a2 b1 b2).1 h)
  obtain ⟨D1, hj⟩ := DSets.join_some D (D.rep e.from_) (D.rep e.to_)
    ⟨hrne, ⟨ra1, ra2⟩, ⟨rb1, rb2⟩, ra3, rb3⟩
  refine ⟨D1, hj, DSets.Reach.join _ _ hD hj, ?_⟩
  have key : ∀ w l, (w = D.rep e.from_ ∧ l = D.rep e.to_) ∨
      (w = D.rep e.to_ ∧ l = D.rep e.from_) →
      (∀ x, 1 ≤ x → x ≤ D.size → D1.rep x = if D.rep x = l then w else D.rep x) →
      ∀ u v, 1 ≤ u → u ≤ D.size → 1 ≤ v → v ≤ D.size →
        (D1.rep u = D1.rep v ↔
          (Connects L u v ∨ (Connects L u e.from_ ∧ Connects L e.to_ v) ∨
            (Connects L u e.to_ ∧ Connects L e.from_ v))) := by
    intro w l hwl hrep u v u1 u2 v1 v2
    rw [hrep u u1 u2, hrep v v1 v2]
    have hwl' : w ≠ l := by
      rcases hwl with ⟨rfl, rfl⟩ | ⟨rfl, rfl⟩
      · exact hrne
      · exact Ne.symm hrne
    have cu := fun x x1 x2 => hrel u x u1 u2 x1 x2
    have cv := fun x x1 x2 => hrel x v x1 x2 v1 v2
    have cuv := hrel u v u1 u2 v1 v2
    have cua := cu e.from_ a1 a2
    have cub := cu e.to_ b1 b2
    have cav := cv e.from_ a1 a2
    have cbv := cv e.to_ b1 b2
    rw [← cuv, ← cua, ← cub, ← cav, ← cbv]
    rcases hwl with ⟨rfl, rfl⟩ | ⟨rfl, rfl⟩ <;> split_ifs <;> omega
  rcases (DSets.join_cases _ _ _ _ hj).2 with ⟨_, e1⟩ | ⟨_, e1⟩
  · subst e1
    exact key _ _ (Or.inl ⟨rfl, rfl⟩)
      (DSets.link_rep hv.ranked _ _ hrne ra1 ra2 rb1 rb2 ra3 rb3)
  · subst e1
    exact key _ _ (Or.inr ⟨rfl, rfl⟩)
      (DSets.link_rep hv.ranked _ _ (Ne.symm hrne) rb1 rb2 ra1 ra2 rb3 ra3)

theorem forestCert_take (n : Int) (A : List Edge) (hA : ForestCert n A) (e : Edge)
    (a1 : 1 ≤ e.from_) (a2 : e.from_ ≤ n) (b1 : 1 ≤ e.to_) (b2 : e.to_ ≤ n)
    (hne : ¬ Connects A e.from_ e.to_) : ForestCert n (A ++ [e]) := by
  obtain ⟨D, hD, hrel⟩ := hA
  obtain ⟨D1, _, hD1, hrel1⟩ := cert_add n A.length D A hD hrel e a1 a2 b1 b2 hne
  refine ⟨D1, ?_, ?_⟩
  · rw [List.length_append, List.length_singleton]
    exact hD1
  · intro u v u1 u2 v1 v2
    rw [hrel1 u v u1 u2 v1 v2, connects_snoc]

/-- Every list of edges on `1..n` has its components represented by a state reached
with at most as many joins as it has edges. -/
theorem dsets_of_edges (n : Int) (hn : 1 ≤ n) :
    ∀ T : List Edge, (∀ e ∈ T, 1 ≤ e.from_ ∧ e.from_ ≤ n ∧ 1 ≤ e.to_ ∧ e.to_ ≤ n) →
      ∃ k D, DSets.Reach n k D ∧ k ≤ T.length ∧
        ∀ u v, 1 ≤ u → u ≤ n → 1 ≤ v → v ≤ n → (D.rep u = D.rep v ↔ Connects T u v) := by
  intro T
  induction T with
  | nil =>
    intro _
    obtain ⟨D, hD, hrel⟩ := forestCert_nil n hn
    exact ⟨0, D, hD, le_refl _, hrel⟩
  | cons e T ih =>
    intro hT
    obtain ⟨k, D, hD, hk, hrel⟩ := ih (fun a ha => hT a (List.mem_cons_of_mem _ ha))
    obtain ⟨a1, a2, b1, b2⟩ := hT e (List.mem_cons_self _ _)
    by_cases hc : Connects T e.from_ e.to_
    · refine ⟨k, D, hD, by simp only [List.length_cons]; omega, ?_⟩
      intro u v u1 u2 v1 v2
      rw [hrel u v u1 u2 v1 v2]
      constructor
      · exact Connects.mono (fun f hf => List.mem_cons_of_mem _ hf)
      · apply Connects.mono_of
        intro f hf
        rcases List.mem_cons.1 hf with rfl | hf'
        · exact hc
        · exact Connects.edge f hf'
    · obtain ⟨D1, _, hD1, hrel1⟩ := cert_add n k D T hD hrel e a1 a2 b1 b2 hc
      refine ⟨k + 1, D1, hD1, by simp only [List.length_cons]; omega, ?_⟩
      intro u v u1 u2 v1 v2
      rw [hrel1 u v u1 u2 v1 v2, connects_cons]

/-- A state whose sets refine those of another has at least as many roots. -/
theorem roots_le_of_finer {D1 D2 : DSets} {h1 : Int → Nat} (hv1 : D1.Valid h1)
    (hsz : D1.size = D2.size)
    (hf : ∀ u v, 1 ≤ u → u ≤ D1.size → 1 ≤ v → v ≤ D1.size →
      D1.rep u = D1.rep v → D2.rep u = D2.rep v) : D2.roots ≤ D1.roots := by
  unfold DSets.roots
  have hnd : ((vertices D2.size).filter (fun i => D2.V i < 0)).Nodup :=
    List.Nodup.filter _ (vertices_nodup _)
  have hsub : (vertices D2.size).filter (fun i => D2.V i < 0)
      ⊆ ((vertices D1.size).filter (fun i => D1.V i < 0)).map D2.rep := by
    intro r hr
    simp only [List.mem_filter, mem_vertices, decide_eq_true_eq] at hr
    obtain ⟨⟨r1, r2⟩, r3⟩ := hr
    rw [← hsz] at r2
    obtain ⟨a1, a2, a3, _⟩ := DSets.rep_spec hv1.ranked r r1 r2
    rw [List.mem_map]
    refine ⟨D1.rep r, ?_, ?_⟩
    · simp [List.mem_filter, mem_vertices, a1, a2, a3]
    · rw [← hf r (D1.rep r) r1 r2 a1 a2 (DSets.rep_idem hv1.ranked r r1 r2).symm]
      exact DSets.rep_of_neg D2 r r3
  have := (hnd.subperm hsub).length_le
  rw [List.length_map] at this
  exact this

/-- A certified forest has fewer than `n` edges. -/
theorem ForestCert.length_lt {n : Int} {A : List Edge} (hA : ForestCert n A) :
    (A.length : Int) + 1 ≤ n := by
  obtain ⟨D, hD, _⟩ := hA
  obtain ⟨h, hv, hsz, hk⟩ := DSets.reach_valid n _ D hD
  have := DSets.roots_pos hv.ranked
  have := hv.ranked.size_pos
  omega

/-- A certified forest with `n - 1` edges joins every two vertices. -/
theorem ForestCert.spans {n : Int} {A : List Edge} (hA : ForestCert n A)
    (hlen : (A.length : Int) + 1 = n) :
    ∀ u v, 1 ≤ u → u ≤ n → 1 ≤ v → v ≤ n → Connects A u v := by
  obtain ⟨D, hD, hrel⟩ := hA
  obtain ⟨h, hv, hsz, hk⟩ := DSets.reach_valid n _ D hD
  have h1 : D.roots = 1 := by
    have := hv.ranked.size_pos
    omega
  obtain ⟨r, _, _, _, hall⟩ := DSets.one_root hv h1
  intro u v u1 u2 v1 v2
  rw [← hrel u v u1 u2 v1 v2, hall u u1 (hsz ▸ u2), hall v v1 (hsz ▸ v2)]

/-- A certified forest that joins every two vertices has `n - 1` edges. -/
theorem ForestCert.length_of_spans {n : Int} {A : List Edge} (hA : ForestCert n A)
    (hsp : ∀ u v, 1 ≤ u → u ≤ n → 1 ≤ v → v ≤ n → Connects A u v) :
    (A.length : Int) + 1 = n := by
  obtain ⟨D, hD, hrel⟩ := hA
  obtain ⟨h, hv, hsz, hk⟩ := DSets.reach_valid n _ D hD
  have hpos := DSets.roots_pos hv.ranked
  have hs := hv.ranked.size_pos
  have hle : D.roots ≤ 1 := by
    unfold DSets.roots
    by_contra hgt
    push_neg at hgt
    have hnd : ((vertices D.size).filter (fun i => D.V i < 0)).Nodup :=
      List.Nodup.filter _ (vertices_nodup _)
    match hl : (vertices D.size).filter (fun i => D.V i < 0) with
    | [] => rw [hl] at hgt; simp at hgt
    | [_] => rw [hl] at hgt; simp at hgt
    | a :: b :: rest =>
      rw [hl] at hnd
      have hab : a ≠ b := by
        intro e
        rw [e] at hnd
        exact (List.nodup_cons.1 hnd).1 (List.mem_cons_self _ _)
      have ha : a ∈ (vertices D.size).filter (fun i => D.V i < 0) := by
        rw [hl]; exact List.mem_cons_self _ _
      have hb : b ∈ (vertices D.size).filter (fun i => D.V i < 0) := by
        rw [hl]; exact List.mem_cons_of_mem _ (List.mem_cons_self _ _)
      simp only [List.mem_filter, mem_vertices, decide_eq_true_eq] at ha hb
      have := (hrel a b ha.1.1 (hsz ▸ ha.1.2) hb.1.1 (hsz ▸ hb.1.2)).2
        (hsp a b ha.1.1 (hsz ▸ ha.1.2) hb.1.1 (hsz ▸ hb.1.2))
      rw [DSets.rep_of_neg D a ha.2, DSets.rep_of_neg D b hb.2] at this
      exact hab this
  omega

/-- A certified forest has no more edges than any list of edges that joins the ends of
each of its edges. -/
theorem ForestCert.length_le {n : Int} {A T : List Edge} (hA : ForestCert n A)
    (hT : ∀ e ∈ T, 1 ≤ e.from_ ∧ e.from_ ≤ n ∧ 1 ≤ e.to_ ∧ e.to_ ≤ n)
    (hAT : ∀ e ∈ A, Connects T e.from_ e.to_) : A.length ≤ T.length := by
  obtain ⟨D, hD, hrel⟩ := hA
  obtain ⟨h, hv, hsz, hk⟩ := DSets.reach_valid n _ D hD
  have hn : 1 ≤ n := hsz ▸ hv.ranked.size_pos
  obtain ⟨k, D2, hD2, hk2, hrel2⟩ := dsets_of_edges n hn T hT
  obtain ⟨h2, hv2, hsz2, hkk⟩ := DSets.reach_valid n k D2 hD2
  have := roots_le_of_finer hv (hsz.trans hsz2.symm) (by
    intro u v u1 u2 v1 v2 huv
    rw [hsz] at u2 v2
    rw [hrel2 u v u1 u2 v1 v2]
    exact Connects.mono_of hAT ((hrel u v u1 u2 v1 v2).1 huv))
  omega

theorem ForestCert.acyclic {n : Int} {A : List Edge} (hA : ForestCert n A)
    (hr : ∀ e ∈ A, 1 ≤ e.from_ ∧ e.from_ ≤ n ∧ 1 ≤ e.to_ ∧ e.to_ ≤ n) : Acyclic A := by
  intro e he hc
  have hle := ForestCert.length_le (T := A.erase e) hA
    (fun a ha => hr a (List.mem_of_mem_erase ha)) (by
      intro a ha
      by_cases hae : a = e
      · rw [hae]
        exact hc
      · exact Connects.edge a ((List.mem_erase_of_ne hae).2 ha))
  rw [List.length_erase_of_mem he] at hle
  have := List.length_pos_of_mem he
  omega

/-! ## Kruskal's loop on the accepted edges -/

theorem weightSum_append (A B : List Edge) : weightSum (A ++ B) = weightSum A + weightSum B := by
  simp [weightSum]

theorem weightSum_singleton (e : Edge) : weightSum [e] = e.weight := by
  simp [weightSum]

theorem weightSum_erase (S : List Edge) (f : Edge) (hf : f ∈ S) :
    weightSum S = f.weight + weightSum (S.erase f) := by
  have hp := (List.perm_cons_erase hf).map Edge.weight
  unfold weightSum
  rw [hp.sum_eq, List.map_cons, List.sum_cons]

/-- The accepted edges stay a certified forest, extend the edges accepted before by a
sublist of the edges delivered, and in the end either number `n - 1` or join the ends of
every delivered edge. -/
theorem KruskalRun.facts {n : Int} {rest A K : List Edge} (h : KruskalRun n rest A K) :
    ForestCert n A →
    (∀ e ∈ rest, 1 ≤ e.from_ ∧ e.from_ ≤ n ∧ 1 ≤ e.to_ ∧ e.to_ ≤ n) →
    ForestCert n K ∧ (∃ K1, K1.Sublist rest ∧ K = A ++ K1) ∧
      ((K.length : Int) + 1 = n ∨ ∀ e ∈ rest, Connects K e.from_ e.to_) := by
  induction h with
  | nil acc =>
    intro hA _
    exact ⟨hA, ⟨[], List.Sublist.refl _, (List.append_nil _).symm⟩,
      Or.inr (fun e he => absurd he (List.not_mem_nil e))⟩
  | stop e rest acc hlen =>
    intro hA _
    have := hA.length_lt
    exact ⟨hA, ⟨[], List.nil_sublist _, (List.append_nil _).symm⟩, Or.inl (by omega)⟩
  | skip e rest acc res hlen hc _ ih =>
    intro hA hr
    obtain ⟨i1, ⟨K1, hs, hK⟩, i3⟩ := ih hA (fun a ha => hr a (List.mem_cons_of_mem _ ha))
    refine ⟨i1, ⟨K1, List.Sublist.cons _ hs, hK⟩, ?_⟩
    rcases i3 with h | h
    · exact Or.inl h
    · right
      intro a ha
      rcases List.mem_cons.1 ha with rfl | ha'
      · rw [hK]
        exact Connects.mono (fun f hf => List.mem_append_left _ hf) hc
      · exact h a ha'
  | take e rest acc res hlen hc _ ih =>
    intro hA hr
    obtain ⟨a1, a2, b1, b2⟩ := hr e (List.mem_cons_self _ _)
    obtain ⟨i1, ⟨K1, hs, hK⟩, i3⟩ := ih (forestCert_take n acc hA e a1 a2 b1 b2 hc)
      (fun a ha => hr a (List.mem_cons_of_mem _ ha))
    refine ⟨i1, ⟨e :: K1, List.Sublist.cons₂ _ hs, by rw [hK]; simp⟩, ?_⟩
    rcases i3 with h | h
    · exact Or.inl h
    · right
      intro a ha
      rcases List.mem_cons.1 ha with rfl | ha'
      · rw [hK]
        exact Connects.edge a (List.mem_append_left _ (List.mem_append_right _
          (List.mem_singleton.2 rfl)))
      · exact h a ha'

/-- The greedy choice is optimal: whatever edges `S`, taken among those still to be
delivered or inside a component, complete the accepted edges `A` to a spanning tree,
the edges accepted in the end weigh no more. -/
theorem KruskalRun.optimal {n : Int} {rest A K : List Edge} (h : KruskalRun n rest A K) :
    rest.Pairwise (fun a b => a.weight ≤ b.weight) → ForestCert n A →
    (∀ e ∈ rest, 1 ≤ e.from_ ∧ e.from_ ≤ n ∧ 1 ≤ e.to_ ∧ e.to_ ≤ n) →
    ∀ S : List Edge, (∀ f ∈ S, f ∈ rest ∨ Connects A f.from_ f.to_) →
      (∀ u v, 1 ≤ u → u ≤ n → 1 ≤ v → v ≤ n → Connects (A ++ S) u v) →
      (S.length : Int) + A.length + 1 = n → weightSum K ≤ weightSum A + weightSum S := by
  induction h with
  | nil acc =>
    intro _ hA _ S hS hsp hlen
    have hsp' : ∀ u v, 1 ≤ u → u ≤ n → 1 ≤ v → v ≤ n → Connects acc u v := by
      intro u v u1 u2 v1 v2
      apply Connects.mono_of _ (hsp u v u1 u2 v1 v2)
      intro a ha
      rcases List.mem_append.1 ha with ha | ha
      · exact Connects.edge a ha
      · rcases hS a ha with h | h
        · exact absurd h (List.not_mem_nil a)
        · exact h
    have := hA.length_of_spans hsp'
    have hS0 : S = [] := List.length_eq_zero.1 (by omega)
    rw [hS0]
    simp [weightSum]
  | stop e rest acc hlen =>
    intro _ hA _ S _ _ hl
    have hS0 : S = [] := List.length_eq_zero.1 (by omega)
    rw [hS0]
    simp [weightSum]
  | skip e rest acc res hlen hc _ ih =>
    intro hsort hA hr S hS hsp hl
    apply ih (List.pairwise_cons.1 hsort).2 hA
      (fun a ha => hr a (List.mem_cons_of_mem _ ha)) S _ hsp hl
    intro f hf
    rcases hS f hf with h | h
    · rcases List.mem_cons.1 h with rfl | h'
      · exact Or.inr hc
      · exact Or.inl h'
    · exact Or.inr h
  | take e rest acc res hlen hc _ ih =>
    intro hsort hA hr S hS hsp hl
    obtain ⟨a1, a2, b1, b2⟩ := hr e (List.mem_cons_self _ _)
    have hA1 := forestCert_take n acc hA e a1 a2 b1 b2 hc
    have hr1 := fun a ha => hr a (List.mem_cons_of_mem _ ha)
    have hup : ∀ x y, Connects acc x y → Connects (acc ++ [e]) x y :=
      fun x y h => Connects.mono (fun f hf => List.mem_append_left _ hf) h
    have hl1 : ((acc ++ [e]).length : Int) = acc.length + 1 := by
      rw [List.length_append, List.length_singleton]
      push_cast
      rfl
    by_cases heS : e ∈ S
    · have hlen2 := List.length_erase_of_mem heS
      have hpos := List.length_pos_of_mem heS
      have := ih (List.pairwise_cons.1 hsort).2 hA1 hr1 (S.erase e) (by
          intro f hf
          rcases hS f (List.mem_of_mem_erase hf) with h | h
          · rcases List.mem_cons.1 h with rfl | h'
            · exact Or.inr (Connects.edge f (List.mem_append_right _
                (List.mem_singleton.2 rfl)))
            · exact Or.inl h'
          · exact Or.inr (hup _ _ h)) (by
          intro u v u1 u2 v1 v2
          apply Connects.mono_of _ (hsp u v u1 u2 v1 v2)
          intro a ha
          rcases List.mem_append.1 ha with ha | ha
          · exact Connects.edge a (List.mem_append_left _ (List.mem_append_left _ ha))
          · by_cases hae : a = e
            · rw [hae]
              exact Connects.edge e (List.mem_append_left _ (List.mem_append_right _
                (List.mem_singleton.2 rfl)))
            · exact Connects.edge a (List.mem_append_right _
                ((List.mem_erase_of_ne hae).2 ha))) (by
          rw [hl1, hlen2]
          omega)
      rw [weightSum_append, weightSum_singleton] at this
      rw [weightSum_erase S e heS]
      omega
    · obtain ⟨f, hfS, hfA, hsub⟩ := exchange acc e S hc (hsp _ _ a1 a2 b1 b2)
      have hfe : f ≠ e := fun h => heS (h ▸ hfS)
      have hfrest : f ∈ rest := by
        rcases hS f hfS with h | h
        · rcases List.mem_cons.1 h with h' | h'
          · exact absurd h' hfe
          · exact h'
        · exact absurd h hfA
      have hwf : e.weight ≤ f.weight := (List.pairwise_cons.1 hsort).1 f hfrest
      have hlen2 := List.length_erase_of_mem hfS
      have hpos := List.length_pos_of_mem hfS
      have := ih (List.pairwise_cons.1 hsort).2 hA1 hr1 (S.erase f) (by
          intro x hx
          have hxS := List.mem_of_mem_erase hx
          rcases hS x hxS with h | h
          · rcases List.mem_cons.1 h with h' | h'
            · exact absurd (h' ▸ hxS) heS
            · exact Or.inl h'
          · exact Or.inr (hup _ _ h)) (fun u v u1 u2 v1 v2 =>
            hsub u v (hsp u v u1 u2 v1 v2)) (by
          rw [hl1, hlen2]
          omega)
      rw [weightSum_append, weightSum_singleton] at this
      rw [weightSum_erase S f hfS]
      omega

/-! ## `mstKruskal` -/

theorem Graph.mem_edges (g : Graph) (e : Edge) :
    e ∈ g.edges ↔ ∃ u, (1 ≤ u ∧ u ≤ g.size) ∧ e ∈ g.table u := by
  unfold Graph.edges
  simp only [List.mem_flatMap, mem_vertices]

theorem Graph.mem_edges_iff {g : Graph} (hg : g.WF) (e : Edge) :
    e ∈ g.edges ↔ e ∈ g.table e.from_ := by
  rw [Graph.mem_edges]
  constructor
  · rintro ⟨u, _, he⟩
    obtain ⟨_, _, hf, _⟩ := hg.edges u e he
    rw [hf]
    exact he
  · intro he
    obtain ⟨a, b, _⟩ := hg.edges _ e he
    exact ⟨_, ⟨a, b⟩, he⟩

theorem Graph.edges_range {g : Graph} (hg : g.WF) (e : Edge) (he : e ∈ g.edges) :
    1 ≤ e.from_ ∧ e.from_ ≤ g.size ∧ 1 ≤ e.to_ ∧ e.to_ ≤ g.size := by
  rw [Graph.mem_edges_iff hg] at he
  obtain ⟨a, b, _, c, d⟩ := hg.edges _ e he
  exact ⟨a, b, c, d⟩

theorem Graph.reverse_mem_edges {g : Graph} (hg : g.WF) (e : Edge) (he : e ∈ g.edges) :
    e.reverse ∈ g.edges := by
  rw [Graph.mem_edges_iff hg] at he ⊢
  exact hg.symm _ e he

theorem mem_kruskal_edges (g : Graph) (e : Edge) :
    e ∈ kruskal_edges g ↔ e ∈ g.edges ∧ e.from_ < e.to_ := by
  unfold kruskal_edges
  rw [Graph.mem_edges]
  simp only [List.mem_flatMap, mem_vertices, List.mem_filter, decide_eq_true_eq]
  constructor
  · rintro ⟨u, hu, he, hlt⟩
    exact ⟨⟨u, hu, he⟩, hlt⟩
  · rintro ⟨⟨u, hu, he⟩, hlt⟩
    exact ⟨u, hu, he, hlt⟩

/-- The edges collected by `mstKruskal` join what the stored entries join. -/
theorem connects_of_kruskal_edges {g : Graph} (hg : g.WF) {K : List Edge}
    (h : ∀ e ∈ kruskal_edges g, Connects K e.from_ e.to_) :
    ∀ e ∈ g.edges, Connects K e.from_ e.to_ := by
  intro e he
  rcases lt_trichotomy e.from_ e.to_ with hlt | heq | hgt
  · exact h e ((mem_kruskal_edges g e).2 ⟨he, hlt⟩)
  · rw [heq]
    exact Connects.refl _ _
  · exact (h e.reverse ((mem_kruskal_edges g _).2
      ⟨Graph.reverse_mem_edges hg e he, hgt⟩)).symm

theorem runningTotal_snoc (A : List Edge) (e : Edge) :
    runningTotal (A ++ [e]) = wrap (runningTotal A + e.weight) := by
  simp [runningTotal, List.foldl_append]

/-- The loop of `mstKruskal` returns, and its accepted edges follow `KruskalRun`. -/
theorem kruskal_loop_run (n : Int) :
    ∀ (rest : List Edge) (st : KruskalState),
      DSets.Reach n st.out.length st.D →
      (∀ u v, 1 ≤ u → u ≤ n → 1 ≤ v → v ≤ n →
        (st.D.rep u = st.D.rep v ↔ Connects st.out u v)) →
      st.edgeCount = st.out.length → st.totalWeight = runningTotal st.out →
      (∀ e ∈ rest, 1 ≤ e.from_ ∧ e.from_ ≤ n ∧ 1 ≤ e.to_ ∧ e.to_ ≤ n) →
      ∃ st1, kruskal_loop n rest st = some st1 ∧ KruskalRun n rest st.out st1.out ∧
        st1.totalWeight = runningTotal st1.out ∧ st1.edgeCount = st1.out.length := by
  intro rest
  induction rest with
  | nil =>
    intro st _ _ hcnt htot _
    exact ⟨st, rfl, KruskalRun.nil _, htot, hcnt⟩
  | cons e rest ih =>
    intro st hD hrel hcnt htot hr
    obtain ⟨a1, a2, b1, b2⟩ := hr e (List.mem_cons_self _ _)
    have hr1 := fun a ha => hr a (List.mem_cons_of_mem _ ha)
    by_cases hlt : st.edgeCount < n - 1
    · obtain ⟨h, hv, hsz, _⟩ := DSets.reach_valid n _ st.D hD
      obtain ⟨D1, f1, hv1, hsz1, _, hrep1, _, _⟩ :=
        DSets.find_full hv e.from_ a1 (hsz ▸ a2)
      obtain ⟨D2, f2, hv2, hsz2, _, hrep2, _, _⟩ :=
        DSets.find_full hv1 e.to_ b1 (by rw [hsz1, hsz]; exact b2)
      have hD1 : DSets.Reach n st.out.length D1 := DSets.Reach.find _ _ hD f1
      have hD2 : DSets.Reach n st.out.length D2 := DSets.Reach.find _ _ hD1 f2
      have hs2 : D2.size = n := by rw [hsz2, hsz1, hsz]
      have hrep : ∀ x, 1 ≤ x → x ≤ n → D2.rep x = st.D.rep x := by
        intro x x1 x2
        rw [hrep2 x x1 (by rw [hsz1, hsz]; exact x2), hrep1 x x1 (hsz ▸ x2)]
      have hrel2 : ∀ u v, 1 ≤ u → u ≤ n → 1 ≤ v → v ≤ n →
          (D2.rep u = D2.rep v ↔ Connects st.out u v) := by
        intro u v u1 u2 v1 v2
        rw [hrep u u1 u2, hrep v v1 v2]
        exact hrel u v u1 u2 v1 v2
      have hu : st.D.rep e.from_ = D2.rep e.from_ := (hrep _ a1 a2).symm
      have hvv : D1.rep e.to_ = D2.rep e.to_ :=
        (hrep2 _ b1 (by rw [hsz1, hsz]; exact b2)).symm
      by_cases hne : st.D.rep e.from_ ≠ D1.rep e.to_
      · have hnc : ¬ Connects st.out e.from_ e.to_ := by
          intro hc
          have := (hrel2 _ _ a1 a2 b1 b2).2 hc
          rw [← hu, ← hvv] at this
          exact hne this
        obtain ⟨D3, hj, hD3, hrel3⟩ :=
          cert_add n st.out.length D2 st.out hD2 hrel2 e a1 a2 b1 b2 hnc
        rw [← hu, ← hvv] at hj
        obtain ⟨st1, hrun, hK, htot1, hcnt1⟩ := ih
          ⟨D3, wrap (st.totalWeight + e.weight), st.edgeCount + 1, st.out ++ [e]⟩
          (by
            show DSets.Reach n (st.out ++ [e]).length D3
            rw [List.length_append, List.length_singleton]
            exact hD3)
          (by
            intro u v u1 u2 v1 v2
            show D3.rep u = D3.rep v ↔ Connects (st.out ++ [e]) u v
            rw [hrel3 u v u1 u2 v1 v2, connects_snoc])
          (by
            show st.edgeCount + 1 = ((st.out ++ [e]).length : Int)
            rw [List.length_append, List.length_singleton, hcnt]
            push_cast
            rfl)
          (by
            show wrap (st.totalWeight + e.weight) = runningTotal (st.out ++ [e])
            rw [runningTotal_snoc, htot])
          hr1
        refine ⟨st1, ?_, KruskalRun.take e rest st.out st1.out (hcnt ▸ hlt) hnc hK,
          htot1, hcnt1⟩
        rw [kruskal_loop, if_pos hlt]
        simp only [f1, f2, hj, hne, ne_eq, not_false_eq_true, if_true]
        exact hrun
      · have heq : st.D.rep e.from_ = D1.rep e.to_ := by
          by_contra h'
          exact hne h'
        have hc : Connects st.out e.from_ e.to_ := by
          apply (hrel2 _ _ a1 a2 b1 b2).1
          rw [← hu, ← hvv]
          exact heq
        obtain ⟨st1, hrun, hK, htot1, hcnt1⟩ := ih { st with D := D2 } hD2 hrel2 hcnt htot hr1
        refine ⟨st1, ?_, KruskalRun.skip e rest st.out st1.out (hcnt ▸ hlt) hc hK,
          htot1, hcnt1⟩
        rw [kruskal_loop, if_pos hlt]
        simp only [f1, f2, heq, ne_eq, not_true_eq_false, if_false]
        exact hrun
    · refine ⟨st, ?_, KruskalRun.stop e rest st.out (hcnt ▸ hlt), htot, hcnt⟩
      rw [kruskal_loop, if_neg hlt]

/-- The method `mstKruskal` returns for every order of delivery; the edges it prints
follow `KruskalRun` and the total it prints is their running 32-bit sum. -/
theorem Graph.mstKruskal_run (g : Graph) (hg : g.WF) (order : List Edge)
    (ho : HeapOrder (kruskal_edges g) order) :
    ∃ out, g.mstKruskal order = some out ∧ KruskalRun g.size order [] out.edges ∧
      out.total = runningTotal out.edges := by
  have hc : DSets.create g.size = some ⟨g.size, DSets.init g.size (fun _ => 0)⟩ := by
    unfold DSets.create
    rw [if_pos (by have := hg.size_pos; omega)]
  have hr : ∀ e ∈ order, 1 ≤ e.from_ ∧ e.from_ ≤ g.size ∧ 1 ≤ e.to_ ∧ e.to_ ≤ g.size := by
    intro e he
    exact Graph.edges_range hg e ((mem_kruskal_edges g e).1 (ho.1.subset he)).1
  obtain ⟨st1, hrun, hK, htot, _⟩ := kruskal_loop_run g.size order
    ⟨⟨g.size, DSets.init g.size (fun _ => 0)⟩, 0, 0, []⟩ (DSets.Reach.create hc)
    (by
      intro u v u1 u2 v1 v2
      obtain ⟨_, _, hV⟩ := DSets.create_eq g.size _ hc
      have hu : DSets.rep ⟨g.size, DSets.init g.size (fun _ => 0)⟩ u = u :=
        DSets.rep_of_neg _ u (by rw [hV, if_pos ⟨u1, u2⟩]; decide)
      have hv : DSets.rep ⟨g.size, DSets.init g.size (fun _ => 0)⟩ v = v :=
        DSets.rep_of_neg _ v (by rw [hV, if_pos ⟨v1, v2⟩]; decide)
      show DSets.rep _ u = DSets.rep _ v ↔ Connects [] u v
      rw [hu, hv]
      constructor
      · rintro rfl
        exact Connects.refl _ _
      · exact connects_nil u v)
    rfl rfl hr
  refine ⟨⟨st1.out, st1.totalWeight⟩, ?_, hK, htot⟩
  unfold Graph.mstKruskal
  simp only [hc, hrun]

/-! ## What Kruskal's loop computes on a graph -/

theorem kruskal_sub {g : Graph} (hg : g.WF) {order K : List Edge}
    (ho : HeapOrder (kruskal_edges g) order) (hrun : KruskalRun g.size order [] K) :
    K.Sublist order ∧ ForestCert g.size K ∧
    (∀ e ∈ K, e ∈ g.edges ∧ e.from_ < e.to_) ∧
    ((K.length : Int) + 1 = g.size ∨ ∀ e ∈ g.edges, Connects K e.from_ e.to_) := by
  have hr : ∀ e ∈ order, 1 ≤ e.from_ ∧ e.from_ ≤ g.size ∧ 1 ≤ e.to_ ∧ e.to_ ≤ g.size := by
    intro e he
    exact Graph.edges_range hg e ((mem_kruskal_edges g e).1 (ho.1.subset he)).1
  obtain ⟨hcert, ⟨K1, hsub, hK⟩, hend⟩ := hrun.facts (forestCert_nil g.size hg.size_pos) hr
  rw [List.nil_append] at hK
  subst hK
  refine ⟨hsub, hcert, ?_, ?_⟩
  · intro e he
    exact (mem_kruskal_edges g e).1 (ho.1.subset (hsub.subset he))
  · rcases hend with h | h
    · exact Or.inl h
    · right
      apply connects_of_kruskal_edges hg
      intro e he
      exact h e (ho.1.symm.subset he)

theorem kruskal_connects {g : Graph} (hg : g.WF) {order K : List Edge}
    (ho : HeapOrder (kruskal_edges g) order) (hrun : KruskalRun g.size order [] K) :
    ∀ u v, 1 ≤ u → u ≤ g.size → 1 ≤ v → v ≤ g.size →
      (Connects K u v ↔ Connects g.edges u v) := by
  obtain ⟨_, hcert, hmem, hend⟩ := kruskal_sub hg ho hrun
  intro u v u1 u2 v1 v2
  constructor
  · exact Connects.mono (fun e he => (hmem e he).1)
  · intro h
    rcases hend with hl | hl
    · exact hcert.spans hl u v u1 u2 v1 v2
    · exact Connects.mono_of hl h

theorem kruskal_connected {g : Graph} (hg : g.WF) (hc : g.Connected) {order K : List Edge}
    (ho : HeapOrder (kruskal_edges g) order) (hrun : KruskalRun g.size order [] K) :
    g.IsSpanningTree K := by
  obtain ⟨_, hcert, hmem, _⟩ := kruskal_sub hg ho hrun
  have hsp : ∀ u v, 1 ≤ u → u ≤ g.size → 1 ≤ v → v ≤ g.size → Connects K u v :=
    fun u v u1 u2 v1 v2 => (kruskal_connects hg ho hrun u v u1 u2 v1 v2).2
      (hc u v u1 u2 v1 v2)
  exact ⟨fun e he => (hmem e he).1, hcert.length_of_spans hsp, hsp⟩

theorem kruskal_disconnected {g : Graph} (hg : g.WF) (hc : ¬ g.Connected)
    {order K : List Edge} (ho : HeapOrder (kruskal_edges g) order)
    (hrun : KruskalRun g.size order [] K) : (K.length : Int) + 1 < g.size := by
  obtain ⟨_, hcert, hmem, _⟩ := kruskal_sub hg ho hrun
  have hle := hcert.length_lt
  by_contra hlt
  apply hc
  intro u v u1 u2 v1 v2
  exact Connects.mono (fun e he => (hmem e he).1)
    (hcert.spans (by omega) u v u1 u2 v1 v2)

theorem Edge.normalize_weight (e : Edge) : e.normalize.weight = e.weight := by
  unfold Edge.normalize Edge.reverse
  split <;> rfl

theorem weightSum_normalize (T : List Edge) :
    weightSum (T.map Edge.normalize) = weightSum T := by
  unfold weightSum
  rw [List.map_map]
  congr 1
  apply List.map_congr_left
  intro e _
  exact Edge.normalize_weight e

theorem connects_normalize (T : List Edge) (u v : Int) (h : Connects T u v) :
    Connects (T.map Edge.normalize) u v := by
  apply Connects.mono_of _ h
  intro e he
  have hm : e.normalize ∈ T.map Edge.normalize := List.mem_map_of_mem _ he
  have := Connects.edge _ hm
  unfold Edge.normalize at this ⊢
  split at this
  · exact this.symm
  · exact this

theorem kruskal_optimal {g : Graph} (hg : g.WF) {order K : List Edge}
    (ho : HeapOrder (kruskal_edges g) order) (hrun : KruskalRun g.size order [] K)
    (T : List Edge) (hT : g.IsSpanningTree T) : weightSum K ≤ weightSum T := by
  have hr : ∀ e ∈ order, 1 ≤ e.from_ ∧ e.from_ ≤ g.size ∧ 1 ≤ e.to_ ∧ e.to_ ≤ g.size := by
    intro e he
    exact Graph.edges_range hg e ((mem_kruskal_edges g e).1 (ho.1.subset he)).1
  have := hrun.optimal ho.2 (forestCert_nil g.size hg.size_pos) hr (T.map Edge.normalize)
    (by
      intro f hf
      obtain ⟨t, ht, rfl⟩ := List.mem_map.1 hf
      have hte := hT.sub t ht
      rcases lt_trichotomy t.from_ t.to_ with hlt | heq | hgt
      · left
        have : t.normalize = t := by
          unfold Edge.normalize
          rw [if_neg (by omega)]
        rw [this]
        exact ho.1.symm.subset ((mem_kruskal_edges g t).2 ⟨hte, hlt⟩)
      · right
        have : t.normalize = t := by
          unfold Edge.normalize
          rw [if_neg (by omega)]
        rw [this, heq]
        exact Connects.refl _ _
      · left
        have : t.normalize = t.reverse := by
          unfold Edge.normalize
          rw [if_pos hgt]
        rw [this]
        exact ho.1.symm.subset ((mem_kruskal_edges g _).2
          ⟨Graph.reverse_mem_edges hg t hte, hgt⟩))
    (by
      intro u v u1 u2 v1 v2
      rw [List.nil_append]
      exact connects_normalize T u v (hT.spans u v u1 u2 v1 v2))
    (by
      rw [List.length_map]
      have := hT.card
      simp only [List.length_nil]
      push_cast
      omega)
  rw [weightSum_normalize] at this
  simpa [weightSum] using this

/-! ## The printed total -/

theorem foldl_wrap_eq (K : List Edge) :
    ∀ t : Int, |t| + absWeightSum K ≤ INT_MAX →
      K.foldl (fun t e => wrap (t + e.weight)) t = t + weightSum K := by
  induction K with
  | nil =>
    intro t _
    simp [weightSum]
  | cons e K ih =>
    intro t ht
    have hsum : absWeightSum (e :: K) = |e.weight| + absWeightSum K := by
      simp [absWeightSum]
    have hnn : 0 ≤ absWeightSum K := by
      unfold absWeightSum
      apply List.sum_nonneg
      intro x hx
      obtain ⟨a, _, rfl⟩ := List.mem_map.1 hx
      exact abs_nonneg _
    rw [hsum] at ht
    have habs := abs_add t e.weight
    have h1 := abs_le.1 (le_refl |t + e.weight|)
    unfold INT_MAX at ht
    have hw : wrap (t + e.weight) = t + e.weight := by
      apply wrap_of_range <;> omega
    rw [List.foldl_cons, hw, ih (t + e.weight) (by unfold INT_MAX; omega)]
    simp [weightSum]
    ring

theorem absWeightSum_cons (a : Edge) (l : List Edge) :
    absWeightSum (a :: l) = |a.weight| + absWeightSum l := by
  simp [absWeightSum]

theorem absWeightSum_sublist {K L : List Edge} (h : K.Sublist L) :
    absWeightSum K ≤ absWeightSum L := by
  induction h with
  | slnil => exact le_refl _
  | cons a _ ih =>
    rw [absWeightSum_cons]
    have := abs_nonneg a.weight
    omega
  | cons₂ a _ ih =>
    rw [absWeightSum_cons, absWeightSum_cons]
    omega

theorem absWeightSum_perm {K L : List Edge} (h : K.Perm L) :
    absWeightSum K = absWeightSum L := by
  unfold absWeightSum
  exact (h.map _).sum_eq

theorem runningTotal_eq (K : List Edge) (h : absWeightSum K ≤ INT_MAX) :
    runningTotal K = weightSum K := by
  unfold runningTotal
  rw [foldl_wrap_eq K 0 (by simpa using h)]
  simp

/-! ## Prim's loop on the marked vertices and the emitted edges -/

theorem Edge.normalize_ends (e : Edge) :
    (e.normalize.from_ = e.from_ ∧ e.normalize.to_ = e.to_) ∨
    (e.normalize.from_ = e.to_ ∧ e.normalize.to_ = e.from_) := by
  unfold Edge.normalize Edge.reverse
  split
  · exact Or.inr ⟨rfl, rfl⟩
  · exact Or.inl ⟨rfl, rfl⟩

/-- Edges that stay on one side of a cut join only vertices of the same side. -/
theorem connects_same_side (done : Int → Bool) (es : List Edge)
    (h : ∀ e ∈ es, done e.from_ = done e.to_) {a b : Int} (hab : Connects es a b) :
    done a = done b := by
  induction hab with
  | rel x y hxy =>
    obtain ⟨e, he, rfl, rfl⟩ := hxy
    exact h e he
  | refl x => rfl
  | symm x y _ ih => exact ih.symm
  | trans x y z _ _ ih1 ih2 => exact ih1.trans ih2

theorem filter_erase_comm (p : Edge → Bool) (h : Edge) (hp : p h = true) :
    ∀ S : List Edge, (S.filter p).erase h = (S.erase h).filter p := by
  intro S
  induction S with
  | nil => rfl
  | cons s S ih =>
    by_cases hs : s = h
    · subst hs
      simp [List.filter_cons, hp]
    · by_cases hps : p s = true
      · have e1 : (s :: S).erase h = s :: S.erase h := by
          rw [List.erase_cons_tail]
          simpa using hs
        have e2 : (s :: S.filter p).erase h = s :: (S.filter p).erase h := by
          rw [List.erase_cons_tail]
          simpa using hs
        rw [e1, List.filter_cons_of_pos hps, List.filter_cons_of_pos hps, e2, ih]
      · have e1 : (s :: S).erase h = s :: S.erase h := by
          rw [List.erase_cons_tail]
          simpa using hs
        rw [e1, List.filter_cons_of_neg hps, List.filter_cons_of_neg hps, ih]

/-- The exchange step across a cut: if the edge `f` leaves the marked side and `A`, which
stays inside it, is completed by `S` so as to join the ends of `f`, some edge of `S`
that crosses the cut can be traded for `f`. -/
theorem exchange_cut (done : Int → Bool) (A S : List Edge) (f : Edge)
    (hA : ∀ e ∈ A, done e.from_ = done e.to_) (hf : done f.from_ ≠ done f.to_)
    (hsp : Connects (A ++ S) f.from_ f.to_) :
    ∃ h ∈ S, done h.from_ ≠ done h.to_ ∧
      ∀ x y, Connects (A ++ S) x y → Connects ((A ++ [f]) ++ S.erase h) x y := by
  have hA0 : ¬ Connects (A ++ S.filter (fun e => done e.from_ == done e.to_))
      f.from_ f.to_ := by
    intro hc
    apply hf
    apply connects_same_side done _ _ hc
    intro e he
    rcases List.mem_append.1 he with he | he
    · exact hA e he
    · simpa using (List.mem_filter.1 he).2
  have hsplit : ∀ e ∈ A ++ S,
      e ∈ (A ++ S.filter (fun e => done e.from_ == done e.to_)) ++
        S.filter (fun e => done e.from_ != done e.to_) := by
    intro e he
    rcases List.mem_append.1 he with he | he
    · exact List.mem_append_left _ (List.mem_append_left _ he)
    · by_cases hc : done e.from_ = done e.to_
      · exact List.mem_append_left _ (List.mem_append_right _
          (List.mem_filter.2 ⟨he, by simpa using hc⟩))
      · exact List.mem_append_right _ (List.mem_filter.2 ⟨he, by simpa using hc⟩)
  obtain ⟨h, hh, _, hsub⟩ := exchange _ f _ hA0 (Connects.mono hsplit hsp)
  have hhS := (List.mem_filter.1 hh).1
  have hcross : done h.from_ ≠ done h.to_ := by simpa using (List.mem_filter.1 hh).2
  refine ⟨h, hhS, hcross, ?_⟩
  intro x y hxy
  apply Connects.mono _ (hsub x y (Connects.mono hsplit hxy))
  intro a ha
  rcases List.mem_append.1 ha with ha | ha
  · rcases List.mem_append.1 ha with ha | ha
    · rcases List.mem_append.1 ha with ha | ha
      · exact List.mem_append_left _ (List.mem_append_left _ ha)
      · apply List.mem_append_right
        have hane : a ≠ h := by
          intro e
          rw [e] at ha
          have : done h.from_ = done h.to_ := by simpa using (List.mem_filter.1 ha).2
          exact hcross this
        exact (List.mem_erase_of_ne hane).2 (List.mem_filter.1 ha).1
    · exact List.mem_append_left _ (List.mem_append_right _ ha)
  · apply List.mem_append_right
    rw [filter_erase_comm _ h (by simpa using hcross)] at ha
    exact (List.mem_filter.1 ha).1

theorem undone_zero_iff (size : Int) (done : Int → Bool) :
    undone size done = 0 ↔ ∀ y, 1 ≤ y → y ≤ size → done y = true := by
  unfold undone
  rw [List.length_eq_zero, List.filter_eq_nil_iff]
  simp only [mem_vertices, decide_eq_true_eq]
  constructor
  · intro h y y1 y2
    cases hd : done y
    · exact absurd hd (h y ⟨y1, y2⟩)
    · rfl
  · intro h y hy hd
    rw [h y hy.1 hy.2] at hd
    exact absurd hd (by decide)

/-- When no edge crosses from the marked to the unmarked side and the edges join all the
vertices, every vertex is marked. -/
theorem PrimInv.all_done {g : Graph} (hg : g.WF) {done : Int → Bool} {A : List Edge}
    (hinv : PrimInv g done A)
    (hstop : ∀ e ∈ g.edges, done e.from_ = true → done e.to_ = false → False)
    (L : List Edge) (hL : ∀ e ∈ L, e ∈ g.edges)
    (hsp : ∀ u v, 1 ≤ u → u ≤ g.size → 1 ≤ v → v ≤ g.size → Connects L u v) :
    (A.length : Int) + 1 = g.size ∧ ∀ y, 1 ≤ y → y ≤ g.size → done y = true := by
  have hside : ∀ e ∈ L, done e.from_ = done e.to_ := by
    intro e he
    have heg := hL e he
    cases h1 : done e.from_ <;> cases h2 : done e.to_
    · rfl
    · exact absurd (hstop e.reverse (Graph.reverse_mem_edges hg e heg) h2 h1) id
    · exact absurd (hstop e heg h1 h2) id
    · rfl
  have hall : ∀ y, 1 ≤ y → y ≤ g.size → done y = true := by
    intro y y1 y2
    rw [← connects_same_side done L hside (hsp 1 y (le_refl _) hg.size_pos y1 y2)]
    exact hinv.start
  have := (undone_zero_iff g.size done).2 hall
  have := hinv.count
  exact ⟨by omega, hall⟩

/-- Emitting a lightest crossing edge and marking its far end keeps the invariant. -/
theorem PrimInv.emit {g : Graph} (hg : g.WF) {done : Int → Bool} {A : List Edge}
    (hinv : PrimInv g done A) (f : Edge) (hf : f ∈ g.edges) (h1 : done f.from_ = true)
    (h2 : done f.to_ = false) : PrimInv g (upd done f.to_ true) (A ++ [f]) := by
  obtain ⟨a1, a2, b1, b2⟩ := Graph.edges_range hg f hf
  have hmono : ∀ x, done x = true → upd done f.to_ true x = true := by
    intro x hx
    by_cases hxu : x = f.to_
    · rw [hxu, upd_same]
    · rw [upd_other _ _ _ _ hxu]
      exact hx
  have hne : f.from_ ≠ f.to_ := by
    intro e
    rw [e, h2] at h1
    exact absurd h1 (by decide)
  have hup : ∀ x y, Connects A x y → Connects (A ++ [f]) x y :=
    fun x y h => Connects.mono (fun e he => List.mem_append_left _ he) h
  have hfe : Connects (A ++ [f]) f.from_ f.to_ :=
    Connects.edge f (List.mem_append_right _ (List.mem_singleton.2 rfl))
  have hto : ∀ x, 1 ≤ x → x ≤ g.size → upd done f.to_ true x = true →
      Connects (A ++ [f]) f.from_ x := by
    intro x x1 x2 hx
    by_cases hxu : x = f.to_
    · rw [hxu]
      exact hfe
    · rw [upd_other _ _ _ _ hxu] at hx
      exact hup _ _ (hinv.joined _ _ a1 a2 x1 x2 h1 hx)
  constructor
  · exact hmono 1 hinv.start
  · intro e he
    rcases List.mem_append.1 he with he | he
    · obtain ⟨c1, c2, c3, c4⟩ := hinv.inside e he
      exact ⟨c1, hmono _ c2, hmono _ c3, c4⟩
    · rw [List.mem_singleton.1 he]
      exact ⟨hf, hmono _ h1, upd_same _ _ _, hne⟩
  · intro u v u1 u2 v1 v2 hu hv
    exact (hto u u1 u2 hu).symm.trans (hto v v1 v2 hv)
  · have := undone_upd g.size done f.to_ b1 b2 h2
    have := hinv.count
    rw [List.length_append, List.length_singleton]
    push_cast
    omega
  · rw [List.map_append, List.map_singleton]
    apply List.Nodup.append hinv.distinct (List.nodup_singleton _)
    intro x hx hx2
    rw [List.mem_singleton] at hx2
    obtain ⟨e, he, hex⟩ := List.mem_map.1 hx
    obtain ⟨_, c2, c3, _⟩ := hinv.inside e he
    have hef : e.normalize = f.normalize := by rw [hex, hx2]
    have key : f.to_ = e.from_ ∨ f.to_ = e.to_ := by
      have k1 := Edge.normalize_ends e
      have k2 := Edge.normalize_ends f
      rw [hef] at k1
      omega
    rcases key with k | k
    · rw [k, c2] at h2
      exact absurd h2 (by decide)
    · rw [k, c3] at h2
      exact absurd h2 (by decide)

/-- The loop ends with the invariant and without an edge from a marked to an unmarked
vertex. -/
theorem PrimRun.ends {g : Graph} (hg : g.WF) {done : Int → Bool} {A K : List Edge}
    (h : PrimRun g done A K) :
    PrimInv g done A →
    ∃ doneK, PrimInv g doneK K ∧
      ∀ e ∈ g.edges, doneK e.from_ = true → doneK e.to_ = false → False := by
  induction h with
  | stop done acc hstop =>
    intro hinv
    exact ⟨done, hinv, hstop⟩
  | step done acc res f hf h1 h2 _ _ ih =>
    intro hinv
    exact ih (hinv.emit hg f hf h1 h2)

/-- On a connected graph the emitted edges are a spanning tree. -/
theorem PrimRun.spanning {g : Graph} (hg : g.WF) (hc : g.Connected) {done : Int → Bool}
    {A K : List Edge} (h : PrimRun g done A K) (hinv : PrimInv g done A) :
    g.IsSpanningTree K ∧ (K.map Edge.normalize).Nodup ∧ ∀ e ∈ K, e.from_ ≠ e.to_ := by
  obtain ⟨doneK, hK, hstop⟩ := h.ends hg hinv
  obtain ⟨hlen, hall⟩ := hK.all_done hg hstop g.edges (fun e he => he) hc
  refine ⟨⟨fun e he => (hK.inside e he).1, hlen, ?_⟩, hK.distinct,
    fun e he => (hK.inside e he).2.2.2⟩
  intro u v u1 u2 v1 v2
  exact hK.joined u v u1 u2 v1 v2 (hall u u1 u2) (hall v v1 v2)

/-- The choice of a lightest crossing edge is optimal: whatever edges `S` of the graph
complete the emitted edges `A` to a spanning tree, the edges emitted in the end weigh no
more. -/
theorem PrimRun.best {g : Graph} (hg : g.WF) {done : Int → Bool} {A K : List Edge}
    (h : PrimRun g done A K) :
    PrimInv g done A → ∀ S : List Edge, (∀ e ∈ S, e ∈ g.edges) →
      (∀ u v, 1 ≤ u → u ≤ g.size → 1 ≤ v → v ≤ g.size → Connects (A ++ S) u v) →
      (S.length : Int) + A.length + 1 = g.size → weightSum K ≤ weightSum A + weightSum S := by
  induction h with
  | stop done acc hstop =>
    intro hinv S hS hsp hl
    obtain ⟨hlen, _⟩ := hinv.all_done hg hstop (acc ++ S) (by
      intro e he
      rcases List.mem_append.1 he with he | he
      · exact (hinv.inside e he).1
      · exact hS e he) hsp
    have hS0 : S = [] := List.length_eq_zero.1 (by omega)
    rw [hS0]
    simp [weightSum]
  | step done acc res f hf h1 h2 hmin _ ih =>
    intro hinv S hS hsp hl
    obtain ⟨a1, a2, b1, b2⟩ := Graph.edges_range hg f hf
    obtain ⟨x, hxS, hcross, hsub⟩ := exchange_cut done acc S f
      (fun e he => by
        obtain ⟨_, c2, c3, _⟩ := hinv.inside e he
        rw [c2, c3])
      (by rw [h1, h2]; decide) (hsp _ _ a1 a2 b1 b2)
    have hwx : f.weight ≤ x.weight := by
      have hxg := hS x hxS
      cases c1 : done x.from_ <;> cases c2 : done x.to_
      · rw [c1, c2] at hcross
        exact absurd rfl hcross
      · exact hmin x.reverse (Graph.reverse_mem_edges hg x hxg) c2 c1
      · exact hmin x hxg c1 c2
      · rw [c1, c2] at hcross
        exact absurd rfl hcross
    have hlen2 := List.length_erase_of_mem hxS
    have hpos := List.length_pos_of_mem hxS
    have := ih (hinv.emit hg f hf h1 h2) (S.erase x)
      (fun e he => hS e (List.mem_of_mem_erase he))
      (fun u v u1 u2 v1 v2 => hsub u v (hsp u v u1 u2 v1 v2)) (by
        rw [List.length_append, List.length_singleton, hlen2]
        push_cast
        omega)
    rw [weightSum_append, weightSum_singleton] at this
    rw [weightSum_erase S x hxS]
    omega

/-! ## `mstPrim` -/

theorem prim_scan_eq (dist : Int → Int) (done : Int → Bool) :
    ∀ (l : List Int) (acc : Int × Int),
      prim_scan dist done l acc = smallest_scan dist done l acc := by
  intro l
  induction l with
  | nil => intro acc; rfl
  | cons i l ih =>
    intro acc
    simp only [prim_scan, smallest_scan, ih]

/-- The loop over the edges of the vertex marked last keeps what `dist` and `path` hold,
never raises a `dist`, and leaves every edge it ran over no lighter than the `dist` of
its unmarked far end. -/
theorem prim_edges_spec {g : Graph} (hg : g.WF) (cur : Int) (done : Int → Bool)
    (c1 : 1 ≤ cur) (c2 : cur ≤ g.size) (hcur : done cur = true) :
    ∀ (es : List Edge) (dp : (Int → Int) × (Int → Int)), (∀ e ∈ es, e ∈ g.table cur) →
      PrimKey g done dp.1 dp.2 →
      PrimKey g done (prim_edges cur done es dp).1 (prim_edges cur done es dp).2 ∧
      (∀ y, (prim_edges cur done es dp).1 y ≤ dp.1 y) ∧
      (∀ e ∈ es, done e.to_ = false → (prim_edges cur done es dp).1 e.to_ ≤ e.weight) := by
  intro es
  induction es with
  | nil =>
    intro dp _ hkey
    exact ⟨hkey, fun _ => le_refl _, fun e he => absurd he (List.not_mem_nil e)⟩
  | cons e es ih =>
    intro dp hes hkey
    have he : e ∈ g.table cur := hes e (List.mem_cons_self _ _)
    have hes' : ∀ a ∈ es, a ∈ g.table cur := fun a ha => hes a (List.mem_cons_of_mem _ ha)
    obtain ⟨_, _, hfrom, t1, t2⟩ := hg.edges cur e he
    by_cases hc : done e.to_ = false ∧ dp.1 e.to_ > e.weight
    · have hstep : prim_edges cur done (e :: es) dp
          = prim_edges cur done es (upd dp.1 e.to_ e.weight, upd dp.2 e.to_ cur) := by
        rw [prim_edges, if_pos hc]
      rw [hstep]
      have hkey1 : PrimKey g done (upd dp.1 e.to_ e.weight) (upd dp.2 e.to_ cur) := by
        intro u u1 u2 hu
        by_cases hut : u = e.to_
        · subst hut
          rw [upd_same, upd_same]
          have := (hkey e.to_ u1 u2 hu).1
          refine ⟨by omega, fun _ => ⟨c1, c2, hcur, ?_⟩⟩
          have : (⟨cur, e.to_, e.weight⟩ : Edge) = e := by
            cases e
            simp only [Edge.mk.injEq, and_true]
            exact hfrom.symm
          rw [this]
          exact he
        · rw [upd_other _ _ _ _ hut, upd_other _ _ _ _ hut]
          exact hkey u u1 u2 hu
      obtain ⟨i1, i2, i3⟩ := ih (upd dp.1 e.to_ e.weight, upd dp.2 e.to_ cur) hes' hkey1
      have hle1 : ∀ y, upd dp.1 e.to_ e.weight y ≤ dp.1 y := by
        intro y
        by_cases hy : y = e.to_
        · rw [hy, upd_same]
          omega
        · rw [upd_other _ _ _ _ hy]
      refine ⟨i1, fun y => le_trans (i2 y) (hle1 y), ?_⟩
      intro a ha hda
      rcases List.mem_cons.1 ha with rfl | ha'
      · have := i2 a.to_
        have h2 : upd dp.1 a.to_ a.weight a.to_ = a.weight := upd_same _ _ _
        have h3 : (prim_edges cur done es (upd dp.1 a.to_ a.weight, upd dp.2 a.to_ cur)).1 a.to_
            ≤ upd dp.1 a.to_ a.weight a.to_ := this
        omega
      · exact i3 a ha' hda
    · have hstep : prim_edges cur done (e :: es) dp = prim_edges cur done es dp := by
        rw [prim_edges, if_neg hc]
      rw [hstep]
      obtain ⟨i1, i2, i3⟩ := ih dp hes' hkey
      refine ⟨i1, i2, ?_⟩
      intro a ha hda
      rcases List.mem_cons.1 ha with rfl | ha'
      · have := i2 a.to_
        have : ¬ dp.1 a.to_ > a.weight := fun h => hc ⟨hda, h⟩
        omega
      · exact i3 a ha' hda

/-- The loop of `mstPrim` returns, and its marks and emitted edges follow `PrimRun`. -/
theorem prim_loop_run {g : Graph} (hg : g.WF)
    (hW : ∀ e ∈ g.edges, e.from_ ≠ e.to_ → e.weight < INT_MAX) :
    ∀ (fuel : Nat) (st : PrimState), PrimLoopInv g st → undone g.size st.done < fuel →
      ∃ st1, prim_loop g.table g.size fuel st = some st1 ∧
        PrimRun g st.done st.out st1.out ∧ st1.total_weight = runningTotal st1.out := by
  intro fuel
  induction fuel with
  | zero =>
    intro st _ h
    omega
  | succ k ih =>
    intro st hinv hfuel
    obtain ⟨c1, c2⟩ := hinv.cur_range
    obtain ⟨i1, i2, i3⟩ := prim_edges_spec hg st.v st.done c1 c2 hinv.cur_done
      (g.table st.v) (st.dist, st.path) (fun e he => he) hinv.key
    have hrel : ∀ e ∈ g.edges, st.done e.from_ = true → st.done e.to_ = false →
        (prim_edges st.v st.done (g.table st.v) (st.dist, st.path)).1 e.to_ ≤ e.weight := by
      intro e he h1 h2
      obtain ⟨a1, a2, _, _⟩ := Graph.edges_range hg e he
      rw [Graph.mem_edges_iff hg] at he
      by_cases hx : e.from_ = st.v
      · rw [hx] at he
        exact i3 e he h2
      · exact le_trans (i2 e.to_) (hinv.relaxed e.from_ a1 a2 h1 hx e he h2)
    obtain ⟨_, s2, s3⟩ := smallest_scan_spec
      (prim_edges st.v st.done (g.table st.v) (st.dist, st.path)).1 st.done
      (vertices g.size) (INT_MAX, st.v)
    rw [← prim_scan_eq] at s2 s3
    by_cases hm : (prim_scan (prim_edges st.v st.done (g.table st.v) (st.dist, st.path)).1
        st.done (vertices g.size) (INT_MAX, st.v)).1 = INT_MAX
    · have hstop : prim_loop g.table g.size (k + 1) st
          = some { st with
              dist := (prim_edges st.v st.done (g.table st.v) (st.dist, st.path)).1,
              path := (prim_edges st.v st.done (g.table st.v) (st.dist, st.path)).2,
              v := (prim_scan (prim_edges st.v st.done (g.table st.v) (st.dist, st.path)).1
                st.done (vertices g.size) (INT_MAX, st.v)).2 } := by
        rw [prim_loop]
        simp only [hm, if_true]
      refine ⟨_, hstop, PrimRun.stop st.done st.out ?_, hinv.total⟩
      · intro e he h1 h2
        obtain ⟨_, _, b1, b2⟩ := Graph.edges_range hg e he
        have hne : e.from_ ≠ e.to_ := by
          intro h
          rw [h, h2] at h1
          exact absurd h1 (by decide)
        have a := hrel e he h1 h2
        have b := s2 e.to_ ((mem_vertices _ _).2 ⟨b1, b2⟩) h2
        have c := hW e he hne
        rw [hm] at b
        omega
    · rcases s3 with e | ⟨m1, m2, m3, m4⟩
      · rw [e] at hm
        exact absurd rfl hm
      · rw [mem_vertices] at m1
        generalize hmdef : prim_scan
          (prim_edges st.v st.done (g.table st.v) (st.dist, st.path)).1
          st.done (vertices g.size) (INT_MAX, st.v) = m at hm s2 m1 m2 m3 m4
        generalize hdp : prim_edges st.v st.done (g.table st.v) (st.dist, st.path) = dp
          at i1 i2 i3 hrel hmdef s2 m3
        have m4 : m.1 < INT_MAX := m4
        obtain ⟨_, hk⟩ := i1 m.2 m1.1 m1.2 m2
        obtain ⟨p1, p2, p3, p4⟩ := hk (by rw [m3]; exact m4)
        have hfg : (⟨dp.2 m.2, m.2, dp.1 m.2⟩ : Edge) ∈ g.edges :=
          (Graph.mem_edges_iff hg _).2 p4
        have hp0 : dp.2 m.2 ≠ 0 := by omega
        have hstep : prim_loop g.table g.size (k + 1) st
            = prim_loop g.table g.size k
              { dist := dp.1, path := dp.2, done := upd st.done m.2 true, v := m.2,
                total_weight := wrap (st.total_weight + m.1),
                out := st.out ++ [⟨dp.2 m.2, m.2, dp.1 m.2⟩] } := by
          rw [prim_loop]
          simp only [hdp, hmdef, hm, if_false, hp0, ne_eq, not_false_eq_true, if_true]
        have hmin : ∀ e ∈ g.edges, st.done e.from_ = true → st.done e.to_ = false →
            (⟨dp.2 m.2, m.2, dp.1 m.2⟩ : Edge).weight ≤ e.weight := by
          intro e he h1 h2
          obtain ⟨_, _, b1, b2⟩ := Graph.edges_range hg e he
          have a := hrel e he h1 h2
          have b := s2 e.to_ ((mem_vertices _ _).2 ⟨b1, b2⟩) h2
          show dp.1 m.2 ≤ e.weight
          omega
        have hmono : ∀ x, st.done x = true → upd st.done m.2 true x = true := by
          intro x hx
          by_cases hxu : x = m.2
          · rw [hxu, upd_same]
          · rw [upd_other _ _ _ _ hxu]
            exact hx
        have hund : ∀ y, upd st.done m.2 true y = false → y ≠ m.2 ∧ st.done y = false := by
          intro y hy
          by_cases hyu : y = m.2
          · rw [hyu, upd_same] at hy
            exact absurd hy (by decide)
          · rw [upd_other _ _ _ _ hyu] at hy
            exact ⟨hyu, hy⟩
        obtain ⟨st1, hrun, hK, htot⟩ := ih
          { dist := dp.1, path := dp.2, done := upd st.done m.2 true, v := m.2,
            total_weight := wrap (st.total_weight + m.1),
            out := st.out ++ [⟨dp.2 m.2, m.2, dp.1 m.2⟩] }
          { cur_range := m1
            cur_done := upd_same _ _ _
            tree := hinv.tree.emit hg _ hfg p3 m2
            key := by
              intro u u1 u2 hu
              obtain ⟨_, hu'⟩ := hund u hu
              obtain ⟨k1, k2⟩ := i1 u u1 u2 hu'
              refine ⟨k1, fun hlt => ?_⟩
              obtain ⟨q1, q2, q3, q4⟩ := k2 hlt
              exact ⟨q1, q2, hmono _ q3, q4⟩
            relaxed := by
              intro x x1 x2 hx hxm e he hde
              have hx' : st.done x = true := by
                have : upd st.done m.2 true x = true := hx
                rwa [upd_other _ _ _ _ hxm] at this
              obtain ⟨_, _, hfrom, _⟩ := hg.edges x e he
              have heg : e ∈ g.edges := (Graph.mem_edges_iff hg e).2 (hfrom ▸ he)
              exact hrel e heg (hfrom ▸ hx') (hund _ hde).2
            total := by
              show wrap (st.total_weight + m.1) = runningTotal (st.out ++ [_])
              rw [runningTotal_snoc, hinv.total, m3] }
          (by
            have := undone_upd g.size st.done m.2 m1.1 m1.2 m2
            show undone g.size (upd st.done m.2 true) < k
            omega)
        refine ⟨st1, by rw [hstep]; exact hrun, ?_, htot⟩
        exact PrimRun.step st.done st.out st1.out _ hfg p3 m2 hmin hK

/-- The state in which `mstPrim` enters its loop satisfies the invariant. -/
theorem prim_entry {g : Graph} (hg : g.WF) :
    PrimLoopInv g ⟨upd (fun _ => INT_MAX) 1 0, fun _ => 0, upd (fun _ => false) 1 true,
      1, 0, []⟩ ∧
    undone g.size (upd (fun _ => false) 1 true) < g.size.toNat := by
  have hs := hg.size_pos
  have hall : undone g.size (fun _ => false) = g.size.toNat := by
    unfold undone
    rw [← vertices_length g.size]
    congr 1
    rw [List.filter_eq_self]
    intro x _
    simp
  have hunv := undone_upd g.size (fun _ => false) 1 (le_refl _) hs rfl
  have hdone : ∀ x, upd (fun _ => false) 1 true x = true → x = 1 := by
    intro x hx
    by_contra hne
    rw [upd_other _ _ _ _ hne] at hx
    exact absurd hx (by decide)
  refine ⟨?_, by omega⟩
  have h11 : upd (fun _ => false) 1 true 1 = true := upd_same _ _ _
  constructor
  · exact ⟨le_refl _, hs⟩
  · exact h11
  · constructor
    · exact h11
    · intro e he
      exact absurd he (List.not_mem_nil e)
    · intro u v _ _ _ _ hu hv
      rw [hdone u hu, hdone v hv]
      exact Connects.refl _ _
    · show (([] : List Edge).length : Int) + 1 + undone g.size (upd (fun _ => false) 1 true)
        = g.size
      simp only [List.length_nil]
      push_cast
      omega
    · exact List.nodup_nil
  · intro u _ _ hu
    have hu1 : u ≠ 1 := by
      intro h
      have hu' : upd (fun _ => false) 1 true u = false := hu
      rw [h, upd_same] at hu'
      exact absurd hu' (by decide)
    show upd (fun _ => INT_MAX) 1 0 u ≤ INT_MAX ∧ (upd (fun _ => INT_MAX) 1 0 u < INT_MAX → _)
    rw [upd_other _ _ _ _ hu1]
    exact ⟨le_refl _, fun h => absurd h (lt_irrefl _)⟩
  · intro x _ _ hx hx1
    exact absurd (hdone x hx) hx1
  · rfl

/-- The method `mstPrim` returns when no edge between distinct vertices weighs
`INT_MAX`; the edges it prints follow `PrimRun` and the total it prints is their running
32-bit sum. -/
theorem Graph.mstPrim_run (g : Graph) (hg : g.WF)
    (hW : ∀ e ∈ g.edges, e.from_ ≠ e.to_ → e.weight < INT_MAX) :
    ∃ out, g.mstPrim = some out ∧
      PrimRun g (upd (fun _ => false) 1 true) [] out.edges ∧
      PrimInv g (upd (fun _ => false) 1 true) [] ∧
      out.total = runningTotal out.edges := by
  obtain ⟨hinv, hfuel⟩ := prim_entry hg
  obtain ⟨st1, hrun, hK, htot⟩ := prim_loop_run hg hW g.size.toNat _ hinv hfuel
  refine ⟨⟨st1.out, st1.total_weight⟩, ?_, hK, hinv.tree, htot⟩
  unfold Graph.mstPrim
  simp only [hrun]

theorem abs_le_absWeightSum (L : List Edge) (e : Edge) (he : e ∈ L) :
    |e.weight| ≤ absWeightSum L := by
  induction L with
  | nil => exact absurd he (List.not_mem_nil e)
  | cons a L ih =>
    rw [absWeightSum_cons]
    have hnn : 0 ≤ absWeightSum L := by
      unfold absWeightSum
      apply List.sum_nonneg
      intro x hx
      obtain ⟨b, _, rfl⟩ := List.mem_map.1 hx
      exact abs_nonneg _
    rcases List.mem_cons.1 he with rfl | he'
    · omega
    · have := ih he'
      have := abs_nonneg a.weight
      omega

/-- The bound on the weights of the collected edges covers every stored edge between
distinct vertices. -/
theorem weight_lt_of_kruskal_edges {g : Graph} (hg : g.WF)
    (hW : ∀ e ∈ kruskal_edges g, e.weight < INT_MAX) :
    ∀ e ∈ g.edges, e.from_ ≠ e.to_ → e.weight < INT_MAX := by
  intro e he hne
  rcases lt_trichotomy e.from_ e.to_ with hlt | heq | hgt
  · exact hW e ((mem_kruskal_edges g e).2 ⟨he, hlt⟩)
  · exact absurd heq hne
  · exact hW e.reverse ((mem_kruskal_edges g _).2 ⟨Graph.reverse_mem_edges hg e he, hgt⟩)

theorem absWeightSum_normalize (T : List Edge) :
    absWeightSum (T.map Edge.normalize) = absWeightSum T := by
  unfold absWeightSum
  rw [List.map_map]
  congr 1
  apply List.map_congr_left
  intro e _
  show |e.normalize.weight| = |e.weight|
  rw [Edge.normalize_weight]

/-- Edges of the graph between distinct vertices, no undirected edge taken twice, weigh
in absolute value no more than the collected edges together. -/
theorem absWeightSum_le_kruskal_edges {g : Graph} (hg : g.WF) (K : List Edge)
    (hK : ∀ e ∈ K, e ∈ g.edges ∧ e.from_ ≠ e.to_) (hnd : (K.map Edge.normalize).Nodup) :
    absWeightSum K ≤ absWeightSum (kruskal_edges g) := by
  rw [← absWeightSum_normalize]
  have hsub : K.map Edge.normalize ⊆ kruskal_edges g := by
    intro x hx
    obtain ⟨e, he, rfl⟩ := List.mem_map.1 hx
    obtain ⟨heg, hne⟩ := hK e he
    unfold Edge.normalize
    split
    · rename_i hlt
      exact (mem_kruskal_edges g _).2 ⟨Graph.reverse_mem_edges hg e heg, hlt⟩
    · rename_i hlt
      exact (mem_kruskal_edges g _).2 ⟨heg, by omega⟩
  obtain ⟨l, hl1, hl2⟩ := hnd.subperm hsub
  rw [← absWeightSum_perm hl1]
  exact absWeightSum_sublist hl2

theorem wrap_wrap_add (t w : Int) : wrap (wrap t + w) = wrap (t + w) := by
  unfold wrap
  omega

theorem foldl_wrap_total (K : List Edge) :
    ∀ t : Int, K.foldl (fun t e => wrap (t + e.weight)) (wrap t) = wrap (t + weightSum K) := by
  induction K with
  | nil =>
    intro t
    simp [weightSum]
  | cons e K ih =>
    intro t
    rw [List.foldl_cons, wrap_wrap_add, ih (t + e.weight)]
    congr 1
    simp [weightSum]
    ring

/-- A 32-bit accumulator holds the sum of the weights reduced to 32 bits, whatever the
partial sums were. -/
theorem runningTotal_wrap (K : List Edge) : runningTotal K = wrap (weightSum K) := by
  have h := foldl_wrap_total K 0
  have h0 : wrap 0 = 0 := by decide
  rw [h0, zero_add] at h
  exact h

/-- C3, amended: on a connected undirected graph `mstKruskal` returns for every order in
which the heap can deliver the edges; the edges it prints are a spanning tree without a
cycle and no spanning tree of the graph weighs less than they do; the total it prints
is their weight reduced to the 32 bits of an `int`, so whenever the weight of the
printed tree fits an `int` the printed total is that weight and no spanning tree weighs
less than the printed total. -/
theorem Graph.mstKruskal_minimum (g : Graph) (hg : g.WF) (hc : g.Connected)
    (order : List Edge) (ho : HeapOrder (kruskal_edges g) order) :
    ∃ out, g.mstKruskal order = some out ∧ g.IsSpanningTree out.edges ∧
      Acyclic out.edges ∧ (∀ T, g.IsSpanningTree T → weightSum out.edges ≤ weightSum T) ∧
      out.total = wrap (weightSum out.edges) ∧
      (-2147483648 ≤ weightSum out.edges → weightSum out.edges ≤ INT_MAX →
        out.total = weightSum out.edges ∧ ∀ T, g.IsSpanningTree T → out.total ≤ weightSum T) := by
  obtain ⟨out, hrun, hK, htot⟩ := g.mstKruskal_run hg order ho
  obtain ⟨_, hcert, hmem, _⟩ := kruskal_sub hg ho hK
  have hopt := kruskal_optimal hg ho hK
  have htot' : out.total = wrap (weightSum out.edges) := by
    rw [htot, runningTotal_wrap]
  refine ⟨out, hrun, kruskal_connected hg hc ho hK, ?_, hopt, htot', ?_⟩
  · exact hcert.acyclic (fun e he => Graph.edges_range hg e (hmem e he).1)
  · intro h1 h2
    have hfit : out.total = weightSum out.edges := by
      rw [htot']
      exact wrap_of_range _ h1 (by unfold INT_MAX at h2; exact h2)
    refine ⟨hfit, ?_⟩
    intro T hT
    rw [hfit]
    exact hopt T hT

/-- C4, amended: on a connected undirected graph none of whose collected edges weighs
`INT_MAX`, `mstPrim` and `mstKruskal` both return and print the same total weight, for
every order in which the heap can deliver the edges. -/
theorem Graph.mstPrim_total_eq_mstKruskal (g : Graph) (hg : g.WF) (hc : g.Connected)
    (order : List Edge) (ho : HeapOrder (kruskal_edges g) order)
    (hW : ∀ e ∈ kruskal_edges g, e.weight < INT_MAX) :
    ∃ p k, g.mstPrim = some p ∧ g.mstKruskal order = some k ∧ p.total = k.total := by
  obtain ⟨p, hp, hP, hPinv, hptot⟩ := g.mstPrim_run hg (weight_lt_of_kruskal_edges hg hW)
  obtain ⟨k, hk, hK, hkrun⟩ := g.mstKruskal_run hg order ho
  have hKt := kruskal_connected hg hc ho hK
  obtain ⟨hPt, _, _⟩ := hP.spanning hg hc hPinv
  have h1 : weightSum p.edges ≤ weightSum k.edges := by
    have := hP.best hg hPinv k.edges hKt.sub (by
      intro u v u1 u2 v1 v2
      rw [List.nil_append]
      exact hKt.spans u v u1 u2 v1 v2) (by
      have := hKt.card
      simp only [List.length_nil]
      push_cast
      omega)
    simpa [weightSum] using this
  have h2 := kruskal_optimal hg ho hK p.edges hPt
  have heq : weightSum p.edges = weightSum k.edges := le_antisymm h1 h2
  refine ⟨p, k, hp, hk, ?_⟩
  rw [hptot, hkrun, runningTotal_wrap, runningTotal_wrap, heq]

/-- C5, amended: on a connected undirected graph on `n` vertices, `mstKruskal` accepts
exactly `n - 1` edges for every order in which the heap can deliver them, and `mstPrim`
prints exactly `n - 1` edges provided none of the collected edges weighs `INT_MAX`; in
each case every printed edge is a stored edge of the graph and the printed edges join
every two vertices. -/
theorem Graph.mst_spanning (g : Graph) (hg : g.WF) (hc : g.Connected)
    (order : List Edge) (ho : HeapOrder (kruskal_edges g) order) :
    ((∀ e ∈ kruskal_edges g, e.weight < INT_MAX) →
      ∃ p, g.mstPrim = some p ∧ (p.edges.length : Int) = g.size - 1 ∧
        g.IsSpanningTree p.edges) ∧
    (∃ k, g.mstKruskal order = some k ∧ (k.edges.length : Int) = g.size - 1 ∧
      g.IsSpanningTree k.edges) := by
  constructor
  · intro hW
    obtain ⟨p, hp, hP, hPinv, _⟩ := g.mstPrim_run hg (weight_lt_of_kruskal_edges hg hW)
    have hPt := (hP.spanning hg hc hPinv).1
    exact ⟨p, hp, by have := hPt.card; omega, hPt⟩
  · obtain ⟨k, hk, hK, _⟩ := g.mstKruskal_run hg order ho
    have hKt := kruskal_connected hg hc ho hK
    exact ⟨k, hk, by have := hKt.card; omega, hKt⟩

/-- C6: on an undirected graph that is not connected, `mstKruskal` returns for every
order in which the heap can deliver the edges, having accepted fewer than `n - 1` edges;
every accepted edge is a stored edge of the graph, the accepted edges contain no cycle,
and they join two vertices exactly when the edges of the graph do. -/
theorem Graph.mstKruskal_forest (g : Graph) (hg : g.WF) (hc : ¬ g.Connected)
    (order : List Edge) (ho : HeapOrder (kruskal_edges g) order) :
    ∃ out, g.mstKruskal order = some out ∧ (out.edges.length : Int) < g.size - 1 ∧
      (∀ e ∈ out.edges, e ∈ g.edges) ∧ Acyclic out.edges ∧
      ∀ u v, 1 ≤ u → u ≤ g.size → 1 ≤ v → v ≤ g.size →
        (Connects out.edges u v ↔ Connects g.edges u v) := by
  obtain ⟨out, hrun, hK, _⟩ := g.mstKruskal_run hg order ho
  obtain ⟨_, hcert, hmem, _⟩ := kruskal_sub hg ho hK
  have := kruskal_disconnected hg hc ho hK
  exact ⟨out, hrun, by omega, fun e he => (hmem e he).1,
    hcert.acyclic (fun e he => Graph.edges_range hg e (hmem e he).1),
    kruskal_connects hg ho hK⟩

/-! ## Well-formedness of constructed undirected graphs -/

theorem updateWeight_targets (e : Edge) (l : List Edge) :
    (updateWeight e l).map Edge.to_ = l.map Edge.to_ := by
  induction l with
  | nil => rfl
  | cons a l ih =>
    unfold updateWeight
    split
    · rfl
    · rw [List.map_cons, List.map_cons, ih]

theorem links_iff (e a : Edge) (h : a.from_ = e.from_) :
    e.links_same_nodes a = true ↔ a.to_ = e.to_ := by
  unfold Edge.links_same_nodes
  simp only [Bool.and_eq_true, beq_iff_eq]
  constructor
  · rintro ⟨_, h2⟩
    exact h2.symm
  · intro h2
    exact ⟨h.symm, h2.symm⟩

theorem any_links_iff (e : Edge) (l : List Edge) (hfrom : ∀ x ∈ l, x.from_ = e.from_) :
    l.any (fun ed => e.links_same_nodes ed) = true ↔ ∃ ed ∈ l, ed.to_ = e.to_ := by
  rw [List.any_eq_true]
  constructor
  · rintro ⟨x, hx, hl⟩
    exact ⟨x, hx, (links_iff e x (hfrom x hx)).1 hl⟩
  · rintro ⟨x, hx, hl⟩
    exact ⟨x, hx, (links_iff e x (hfrom x hx)).2 hl⟩

theorem mem_updateWeight_iff (e x : Edge) :
    ∀ l : List Edge, (∀ y ∈ l, y.from_ = e.from_) → (l.map Edge.to_).Nodup →
      (∃ ed ∈ l, ed.to_ = e.to_) →
      (x ∈ updateWeight e l ↔ x = e ∨ (x ∈ l ∧ x.to_ ≠ e.to_)) := by
  intro l
  induction l with
  | nil =>
    rintro _ _ ⟨ed, hed, _⟩
    exact absurd hed (List.not_mem_nil ed)
  | cons a l ih =>
    intro hfrom hnd hany
    rw [List.map_cons, List.nodup_cons] at hnd
    have ha := hfrom a (List.mem_cons_self _ _)
    unfold updateWeight
    by_cases hl : e.links_same_nodes a = true
    · rw [if_pos hl]
      have hto := (links_iff e a ha).1 hl
      have hea : ({ a with weight := e.weight } : Edge) = e := by
        cases a
        cases e
        simp_all
      rw [hea, List.mem_cons]
      constructor
      · rintro (h | h)
        · exact Or.inl h
        · right
          refine ⟨List.mem_cons_of_mem _ h, ?_⟩
          intro hx
          exact hnd.1 (List.mem_map.2 ⟨x, h, by rw [hx, hto]⟩)
      · rintro (h | ⟨h1, h2⟩)
        · exact Or.inl h
        · rcases List.mem_cons.1 h1 with rfl | h1
          · exact absurd hto h2
          · exact Or.inr h1
    · rw [if_neg hl]
      have hto : a.to_ ≠ e.to_ := fun h => hl ((links_iff e a ha).2 h)
      have hany' : ∃ ed ∈ l, ed.to_ = e.to_ := by
        obtain ⟨ed, hed, h⟩ := hany
        rcases List.mem_cons.1 hed with rfl | hed
        · exact absurd h hto
        · exact ⟨ed, hed, h⟩
      rw [List.mem_cons, ih (fun y hy => hfrom y (List.mem_cons_of_mem _ hy)) hnd.2 hany',
        List.mem_cons]
      constructor
      · rintro (h | h | ⟨h1, h2⟩)
        · exact Or.inr ⟨Or.inl h, by rw [h]; exact hto⟩
        · exact Or.inl h
        · exact Or.inr ⟨Or.inr h1, h2⟩
      · rintro (h | ⟨h1 | h1, h2⟩)
        · exact Or.inr (Or.inl h)
        · exact Or.inl h1
        · exact Or.inr (Or.inr ⟨h1, h2⟩)

/-- What the lambda `edge_insertion` does to a table whose slots hold edges leaving them,
at most one per target: the entry for the pair of `e` becomes `e`, the others stay. -/
theorem edge_insertion_spec (T : Int → List Edge) (n : Int) (e : Edge)
    (hfrom : ∀ u x, x ∈ T u → x.from_ = u) (hnd : ∀ u, ((T u).map Edge.to_).Nodup) :
    (∀ u x, x ∈ (edge_insertion T n e).1 u ↔
      (u = e.from_ ∧ x = e) ∨ (x ∈ T u ∧ ¬ (u = e.from_ ∧ x.to_ = e.to_))) ∧
    (∀ u x, x ∈ (edge_insertion T n e).1 u → x.from_ = u) ∧
    (∀ u, (((edge_insertion T n e).1 u).map Edge.to_).Nodup) := by
  have hf0 : ∀ y ∈ T e.from_, y.from_ = e.from_ := fun y hy => hfrom _ y hy
  have hany := any_links_iff e (T e.from_) hf0
  have hmem : ∀ u x, x ∈ (edge_insertion T n e).1 u ↔
      (u = e.from_ ∧ x = e) ∨ (x ∈ T u ∧ ¬ (u = e.from_ ∧ x.to_ = e.to_)) := by
    intro u x
    unfold edge_insertion
    by_cases hc : (T e.from_).any (fun ed => e.links_same_nodes ed) = true
    · rw [if_pos hc]
      show x ∈ upd T e.from_ (updateWeight e (T e.from_)) u ↔ _
      by_cases hu : u = e.from_
      · subst hu
        rw [upd_same, mem_updateWeight_iff e x _ hf0 (hnd _) (hany.1 hc)]
        constructor
        · rintro (h | ⟨h1, h2⟩)
          · exact Or.inl ⟨rfl, h⟩
          · exact Or.inr ⟨h1, fun h => h2 h.2⟩
        · rintro (⟨_, h⟩ | ⟨h1, h2⟩)
          · exact Or.inl h
          · exact Or.inr ⟨h1, fun h => h2 ⟨rfl, h⟩⟩
      · rw [upd_other _ _ _ _ hu]
        constructor
        · intro h
          exact Or.inr ⟨h, fun h' => hu h'.1⟩
        · rintro (⟨h, _⟩ | ⟨h, _⟩)
          · exact absurd h hu
          · exact h
    · rw [if_neg hc]
      show x ∈ upd T e.from_ (T e.from_ ++ [e]) u ↔ _
      by_cases hu : u = e.from_
      · subst hu
        rw [upd_same, List.mem_append, List.mem_singleton]
        constructor
        · rintro (h | h)
          · exact Or.inr ⟨h, fun h' => hc (hany.2 ⟨x, h, h'.2⟩)⟩
          · exact Or.inl ⟨rfl, h⟩
        · rintro (⟨_, h⟩ | ⟨h, _⟩)
          · exact Or.inr h
          · exact Or.inl h
      · rw [upd_other _ _ _ _ hu]
        constructor
        · intro h
          exact Or.inr ⟨h, fun h' => hu h'.1⟩
        · rintro (⟨h, _⟩ | ⟨h, _⟩)
          · exact absurd h hu
          · exact h
  refine ⟨hmem, ?_, ?_⟩
  · intro u x hx
    rcases (hmem u x).1 hx with ⟨h1, h2⟩ | ⟨h1, _⟩
    · rw [h2, h1]
    · exact hfrom u x h1
  · intro u
    unfold edge_insertion
    by_cases hc : (T e.from_).any (fun ed => e.links_same_nodes ed) = true
    · rw [if_pos hc]
      show ((upd T e.from_ (updateWeight e (T e.from_)) u).map Edge.to_).Nodup
      by_cases hu : u = e.from_
      · rw [hu, upd_same, updateWeight_targets]
        exact hnd _
      · rw [upd_other _ _ _ _ hu]
        exact hnd u
    · rw [if_neg hc]
      show ((upd T e.from_ (T e.from_ ++ [e]) u).map Edge.to_).Nodup
      by_cases hu : u = e.from_
      · rw [hu, upd_same, List.map_append, List.map_singleton]
        apply List.Nodup.append (hnd _) (List.nodup_singleton _)
        intro t ht ht2
        rw [List.mem_singleton] at ht2
        obtain ⟨y, hy, hyt⟩ := List.mem_map.1 ht
        exact hc (hany.2 ⟨y, hy, by rw [hyt, ht2]⟩)
      · rw [upd_other _ _ _ _ hu]
        exact hnd u

theorem Graph.wf_create (n : Int) (g : Graph) (hc : Graph.create n = some g)
    (hn : n ≤ INT_MAX) : g.WF := by
  unfold Graph.create at hc
  split at hc
  · simp only [Option.some.injEq] at hc
    subst hc
    exact ⟨by assumption, hn, fun u e he => absurd he (List.not_mem_nil e),
      fun u e he => absurd he (List.not_mem_nil e), fun u => List.nodup_nil⟩
  · simp at hc

theorem Graph.wf_insertEdge (g g1 : Graph) (e : Edge) (hg : g.WF)
    (hi : g.insertEdge e = some g1) : g1.WF := by
  unfold Graph.insertEdge at hi
  split at hi
  · rename_i hr
    obtain ⟨r1, r2, r3, r4⟩ := hr
    simp only [Option.some.injEq] at hi
    subst hi
    have hfrom : ∀ u x, x ∈ g.table u → x.from_ = u := fun u x hx => (hg.edges u x hx).2.2.1
    obtain ⟨m1, f1, n1⟩ := edge_insertion_spec g.table g.n_edges e hfrom hg.simple
    obtain ⟨m2, f2, n2⟩ := edge_insertion_spec (edge_insertion g.table g.n_edges e).1
      (edge_insertion g.table g.n_edges e).2 e.reverse f1 n1
    have hrf : e.reverse.from_ = e.to_ := rfl
    have hrt : e.reverse.to_ = e.from_ := rfl
    have hrr : e.reverse.reverse = e := rfl
    rw [hrf, hrt] at m2
    refine ⟨hg.size_pos, hg.size_int, ?_, ?_, n2⟩
    · intro u x hx
      have hxf := f2 u x hx
      show 1 ≤ u ∧ u ≤ g.size ∧ x.from_ = u ∧ 1 ≤ x.to_ ∧ x.to_ ≤ g.size
      rcases (m2 u x).1 hx with ⟨h1, h2⟩ | ⟨h1, _⟩
      · rw [h1, h2]
        exact ⟨r3, r4, rfl, r1, r2⟩
      · rcases (m1 u x).1 h1 with ⟨k1, k2⟩ | ⟨k1, _⟩
        · rw [k1, k2]
          exact ⟨r1, r2, rfl, r3, r4⟩
        · exact hg.edges u x k1
    · intro u x hx
      have hxf := f2 u x hx
      show x.reverse ∈ (edge_insertion (edge_insertion g.table g.n_edges e).1
        (edge_insertion g.table g.n_edges e).2 e.reverse).1 x.to_
      rw [m2]
      rcases (m2 u x).1 hx with ⟨h1, h2⟩ | ⟨h1, hn2⟩
      · rw [h2, hrt, hrr]
        by_cases hloop : e.from_ = e.to_
        · left
          refine ⟨hloop, ?_⟩
          cases e
          simp only [Edge.reverse, Edge.mk.injEq, and_true] at hloop ⊢
          exact ⟨hloop, hloop.symm⟩
        · right
          refine ⟨(m1 _ _).2 (Or.inl ⟨rfl, rfl⟩), fun h => hloop h.1⟩
      · rcases (m1 u x).1 h1 with ⟨k1, k2⟩ | ⟨k1, kn⟩
        · left
          rw [k2]
          exact ⟨rfl, rfl⟩
        · right
          have hxu : x.from_ = u := hfrom u x k1
          have hrev := hg.symm u x k1
          refine ⟨(m1 _ _).2 (Or.inr ⟨hrev, ?_⟩), ?_⟩
          · rintro ⟨a, b⟩
            have b : x.from_ = e.to_ := b
            exact hn2 ⟨by rw [← hxu]; exact b, a⟩
          · rintro ⟨a, b⟩
            have b : x.from_ = e.from_ := b
            exact kn ⟨by rw [← hxu]; exact b, a⟩
  · simp at hi

theorem Graph.wf_insertAll (V : List Edge) (g g1 : Graph) (hg : g.WF)
    (hi : Graph.insertAll V g = some g1) : g1.WF := by
  induction V generalizing g with
  | nil =>
    simp only [Graph.insertAll, Option.some.injEq] at hi
    exact hi ▸ hg
  | cons e V ih =>
    unfold Graph.insertAll at hi
    split at hi
    · rename_i g2 h2
      exact ih g2 (Graph.wf_insertEdge g g2 e hg h2) hi
    · simp at hi

theorem Graph.wf_ofEdges (V : List Edge) (n : Int) (g : Graph)
    (hc : Graph.ofEdges V n = some g) (hn : n ≤ INT_MAX) : g.WF := by
  unfold Graph.ofEdges at hc
  split at hc
  · rename_i g0 h0
    exact Graph.wf_insertAll V g0 g (Graph.wf_create n g0 h0 hn) hc
  · simp at hc

/-! ## Heap orders and worked examples for the spanning-tree methods -/

theorem insertByWeight_perm (e : Edge) (l : List Edge) : (insertByWeight e l).Perm (e :: l) := by
  induction l with
  | nil => exact List.Perm.refl _
  | cons x l ih =>
    unfold insertByWeight
    split
    · exact List.Perm.refl _
    · exact ((List.Perm.cons x ih).trans (List.Perm.swap e x l))

theorem insertByWeight_sorted (e : Edge) (l : List Edge)
    (h : l.Pairwise (fun a b => a.weight ≤ b.weight)) :
    (insertByWeight e l).Pairwise (fun a b => a.weight ≤ b.weight) := by
  induction l with
  | nil => exact List.pairwise_singleton _ _
  | cons x l ih =>
    unfold insertByWeight
    obtain ⟨h1, h2⟩ := List.pairwise_cons.1 h
    split
    · rename_i hlt
      refine List.pairwise_cons.2 ⟨?_, h⟩
      intro a ha
      rcases List.mem_cons.1 ha with rfl | ha'
      · omega
      · have := h1 a ha'
        omega
    · rename_i hlt
      refine List.pairwise_cons.2 ⟨?_, ih h2⟩
      intro a ha
      rcases List.mem_cons.1 ((insertByWeight_perm e l).subset ha) with rfl | ha'
      · omega
      · exact h1 a ha'

/-- Sorting the collected edges by insertion gives one of the orders in which the heap
can deliver them. -/
theorem sortByWeight_heapOrder (es : List Edge) : HeapOrder es (sortByWeight es) := by
  induction es with
  | nil => exact ⟨List.Perm.refl _, List.Pairwise.nil⟩
  | cons e es ih =>
    unfold sortByWeight
    exact ⟨(insertByWeight_perm e _).trans (List.Perm.cons e ih.1),
      insertByWeight_sorted e _ ih.2⟩

/-- Edges that join each vertex to the next join every two vertices. -/
theorem connected_of_chain (es : List Edge) (n : Int)
    (h : ∀ i, 1 ≤ i → i < n → Connects es i (i + 1)) :
    ∀ u v, 1 ≤ u → u ≤ n → 1 ≤ v → v ≤ n → Connects es u v := by
  have key : ∀ (k : Nat) (u : Int), u = 1 + k → u ≤ n → Connects es 1 u := by
    intro k
    induction k with
    | zero =>
      intro u hu _
      rw [hu]
      exact Connects.refl _ _
    | succ k ih =>
      intro u hu hun
      have h1 := ih (1 + k) rfl (by push_cast at hu; omega)
      have h2 := h (1 + k) (by omega) (by push_cast at hu; omega)
      have : u = 1 + (k : Int) + 1 := by push_cast at hu; omega
      rw [this]
      exact h1.trans h2
  intro u v u1 u2 v1 v2
  exact (key (u - 1).toNat u (by omega) u2).symm.trans (key (v - 1).toNat v (by omega) v2)

theorem weightSum_nonneg (T : List Edge) (h : ∀ e ∈ T, 0 ≤ e.weight) : 0 ≤ weightSum T := by
  unfold weightSum
  apply List.sum_nonneg
  intro x hx
  obtain ⟨e, he, rfl⟩ := List.mem_map.1 hx
  exact h e he

/-- The graph of the scenario with four vertices, as evaluated by the code. -/
theorem scenario_graph_facts :
    ∃ g, Graph.ofEdges [⟨1, 2, 1⟩, ⟨2, 3, 2⟩, ⟨3, 4, 1⟩, ⟨1, 4, 4⟩] 4 = some g ∧
      g.size = 4 ∧
      g.edges = [⟨1, 2, 1⟩, ⟨1, 4, 4⟩, ⟨2, 1, 1⟩, ⟨2, 3, 2⟩, ⟨3, 2, 2⟩, ⟨3, 4, 1⟩,
        ⟨4, 3, 1⟩, ⟨4, 1, 4⟩] ∧
      kruskal_edges g = [⟨1, 2, 1⟩, ⟨1, 4, 4⟩, ⟨2, 3, 2⟩, ⟨3, 4, 1⟩] ∧
      g.mstPrim = some ⟨[⟨1, 2, 1⟩, ⟨2, 3, 2⟩, ⟨3, 4, 1⟩], 4⟩ ∧
      g.mstKruskal (sortByWeight (kruskal_edges g))
        = some ⟨[⟨3, 4, 1⟩, ⟨1, 2, 1⟩, ⟨2, 3, 2⟩], 4⟩ :=
  ⟨_, rfl, rfl, rfl, rfl, rfl, rfl⟩

theorem scenario_graph_connected (g : Graph)
    (he : g.edges = [⟨1, 2, 1⟩, ⟨1, 4, 4⟩, ⟨2, 1, 1⟩, ⟨2, 3, 2⟩, ⟨3, 2, 2⟩, ⟨3, 4, 1⟩,
        ⟨4, 3, 1⟩, ⟨4, 1, 4⟩]) (hs : g.size = 4) : g.Connected := by
  unfold Graph.Connected
  rw [hs, he]
  apply connected_of_chain
  intro i i1 i2
  interval_cases i
  · exact Connects.edge ⟨1, 2, 1⟩ (by decide)
  · exact Connects.edge ⟨2, 3, 2⟩ (by decide)
  · exact Connects.edge ⟨3, 4, 1⟩ (by decide)

/-- The graph with the edges (1,2,INT_MAX) and (2,3,1), as evaluated by the code. -/
theorem overflow_graph_facts :
    ∃ g, Graph.ofEdges [⟨1, 2, 2147483647⟩, ⟨2, 3, 1⟩] 3 = some g ∧ g.size = 3 ∧
      g.edges = [⟨1, 2, 2147483647⟩, ⟨2, 1, 2147483647⟩, ⟨2, 3, 1⟩, ⟨3, 2, 1⟩] ∧
      g.mstKruskal (sortByWeight (kruskal_edges g))
        = some ⟨[⟨2, 3, 1⟩, ⟨1, 2, 2147483647⟩], -2147483648⟩ :=
  ⟨_, rfl, rfl, rfl, rfl⟩

/-- C3 fails as stated: with the edges (1,2,2147483647) and (2,3,1) the graph is
connected and `mstKruskal` prints the spanning tree of weight 2147483648, but the total
it prints is -2147483648, which is below the weight of every spanning tree. -/
theorem Graph.mstKruskal_overflow_counterexample :
    ∃ g out, Graph.ofEdges [⟨1, 2, 2147483647⟩, ⟨2, 3, 1⟩] 3 = some g ∧ g.WF ∧
      g.Connected ∧ HeapOrder (kruskal_edges g) (sortByWeight (kruskal_edges g)) ∧
      g.mstKruskal (sortByWeight (kruskal_edges g)) = some out ∧
      g.IsSpanningTree out.edges ∧ weightSum out.edges = 2147483648 ∧
      out.total = -2147483648 ∧ ∀ T, g.IsSpanningTree T → out.total < weightSum T := by
  obtain ⟨g, hof, hsz, hedges, hrun⟩ := overflow_graph_facts
  have hg : g.WF := Graph.wf_ofEdges _ 3 g hof (by decide)
  have hc : g.Connected := by
    unfold Graph.Connected
    rw [hsz, hedges]
    apply connected_of_chain
    intro i i1 i2
    interval_cases i
    · exact Connects.edge ⟨1, 2, 2147483647⟩ (by decide)
    · exact Connects.edge ⟨2, 3, 1⟩ (by decide)
  have ho := sortByWeight_heapOrder (kruskal_edges g)
  obtain ⟨out, hrun', hK, _⟩ := g.mstKruskal_run hg _ ho
  rw [hrun] at hrun'
  simp only [Option.some.injEq] at hrun'
  subst hrun'
  refine ⟨g, _, hof, hg, hc, ho, hrun, kruskal_connected hg hc ho hK, by decide, rfl, ?_⟩
  intro T hT
  have : 0 ≤ weightSum T := by
    apply weightSum_nonneg
    intro e he
    have := hT.sub e he
    rw [hedges] at this
    simp only [List.mem_cons, List.mem_singleton, List.not_mem_nil, or_false] at this
    rcases this with rfl | rfl | rfl | rfl <;> decide
  show (-2147483648 : Int) < weightSum T
  omega

/-- The graph with the single edge (1,2,INT_MAX), as evaluated by the code. -/
theorem sentinel_graph_facts :
    ∃ g, Graph.ofEdges [⟨1, 2, 2147483647⟩] 2 = some g ∧ g.size = 2 ∧
      g.edges = [⟨1, 2, 2147483647⟩, ⟨2, 1, 2147483647⟩] ∧
      g.mstPrim = some ⟨[], 0⟩ ∧
      g.mstKruskal (sortByWeight (kruskal_edges g))
        = some ⟨[⟨1, 2, 2147483647⟩], 2147483647⟩ :=
  ⟨_, rfl, rfl, rfl, rfl, rfl⟩

theorem sentinel_graph_connected (g : Graph) (hs : g.size = 2)
    (he : g.edges = [⟨1, 2, 2147483647⟩, ⟨2, 1, 2147483647⟩]) : g.Connected := by
  unfold Graph.Connected
  rw [hs, he]
  apply connected_of_chain
  intro i i1 i2
  interval_cases i
  exact Connects.edge ⟨1, 2, 2147483647⟩ (by decide)

/-- C4 fails as stated: on the connected graph with the single edge (1,2,2147483647),
`mstPrim` prints the total 0 and `mstKruskal` prints the total 2147483647. -/
theorem Graph.mstPrim_sentinel_counterexample :
    ∃ g p k, Graph.ofEdges [⟨1, 2, 2147483647⟩] 2 = some g ∧ g.WF ∧ g.Connected ∧
      HeapOrder (kruskal_edges g) (sortByWeight (kruskal_edges g)) ∧
      g.mstPrim = some p ∧ g.mstKruskal (sortByWeight (kruskal_edges g)) = some k ∧
      p.total = 0 ∧ k.total = 2147483647 ∧ p.total ≠ k.total := by
  obtain ⟨g, hof, hsz, hedges, hp, hk⟩ := sentinel_graph_facts
  exact ⟨g, _, _, hof, Graph.wf_ofEdges _ 2 g hof (by decide),
    sentinel_graph_connected g hsz hedges, sortByWeight_heapOrder _, hp, hk, rfl, rfl,
    by decide⟩

/-- C5 fails as stated: on the connected graph with two vertices and the single edge
(1,2,2147483647), `mstPrim` prints no edge at all instead of `n - 1 = 1`. -/
theorem Graph.mstPrim_edges_counterexample :
    ∃ g p, Graph.ofEdges [⟨1, 2, 2147483647⟩] 2 = some g ∧ g.WF ∧ g.Connected ∧
      g.mstPrim = some p ∧ p.edges = [] ∧ g.size - 1 = 1 ∧
      (p.edges.length : Int) ≠ g.size - 1 := by
  obtain ⟨g, hof, hsz, hedges, hp, _⟩ := sentinel_graph_facts
  refine ⟨g, _, hof, Graph.wf_ofEdges _ 2 g hof (by decide),
    sentinel_graph_connected g hsz hedges, hp, rfl, by rw [hsz]; decide, ?_⟩
  rw [hsz]
  decide

theorem Graph.mstKruskal_minimum_witness :
    ∃ g, Graph.ofEdges [⟨1, 2, 1⟩, ⟨2, 3, 2⟩, ⟨3, 4, 1⟩, ⟨1, 4, 4⟩] 4 = some g ∧ g.WF ∧
      g.Connected ∧ HeapOrder (kruskal_edges g) (sortByWeight (kruskal_edges g)) ∧
      g.mstKruskal (sortByWeight (kruskal_edges g))
        = some ⟨[⟨3, 4, 1⟩, ⟨1, 2, 1⟩, ⟨2, 3, 2⟩], 4⟩ ∧
      ∃ out, g.mstKruskal (sortByWeight (kruskal_edges g)) = some out ∧
        g.IsSpanningTree out.edges ∧ Acyclic out.edges ∧
        (∀ T, g.IsSpanningTree T → weightSum out.edges ≤ weightSum T) ∧
        out.total = wrap (weightSum out.edges) ∧
        (-2147483648 ≤ weightSum out.edges → weightSum out.edges ≤ INT_MAX →
          out.total = weightSum out.edges ∧
          ∀ T, g.IsSpanningTree T → out.total ≤ weightSum T) := by
  obtain ⟨g, hof, hsz, hedges, _, _, hkr⟩ := scenario_graph_facts
  have hg : g.WF := Graph.wf_ofEdges _ 4 g hof (by decide)
  have hc := scenario_graph_connected g hedges hsz
  exact ⟨g, hof, hg, hc, sortByWeight_heapOrder _, hkr,
    Graph.mstKruskal_minimum g hg hc _ (sortByWeight_heapOrder _)⟩

theorem Graph.mstPrim_total_eq_mstKruskal_witness :
    ∃ g, Graph.ofEdges [⟨1, 2, 1⟩, ⟨2, 3, 2⟩, ⟨3, 4, 1⟩, ⟨1, 4, 4⟩] 4 = some g ∧ g.WF ∧
      g.Connected ∧ HeapOrder (kruskal_edges g) (sortByWeight (kruskal_edges g)) ∧
      (∀ e ∈ kruskal_edges g, e.weight < INT_MAX) ∧
      g.mstPrim = some ⟨[⟨1, 2, 1⟩, ⟨2, 3, 2⟩, ⟨3, 4, 1⟩], 4⟩ ∧
      g.mstKruskal (sortByWeight (kruskal_edges g))
        = some ⟨[⟨3, 4, 1⟩, ⟨1, 2, 1⟩, ⟨2, 3, 2⟩], 4⟩ ∧
      ∃ p k, g.mstPrim = some p ∧
        g.mstKruskal (sortByWeight (kruskal_edges g)) = some k ∧ p.total = k.total := by
  obtain ⟨g, hof, hsz, hedges, hk, hprim, hkr⟩ := scenario_graph_facts
  have hg : g.WF := Graph.wf_ofEdges _ 4 g hof (by decide)
  have hc := scenario_graph_connected g hedges hsz
  have hW : ∀ e ∈ kruskal_edges g, e.weight < INT_MAX := by
    rw [hk]
    decide
  exact ⟨g, hof, hg, hc, sortByWeight_heapOrder _, hW, hprim, hkr,
    Graph.mstPrim_total_eq_mstKruskal g hg hc _ (sortByWeight_heapOrder _) hW⟩

theorem Graph.mst_spanning_witness :
    ∃ g, Graph.ofEdges [⟨1, 2, 1⟩, ⟨2, 3, 2⟩, ⟨3, 4, 1⟩, ⟨1, 4, 4⟩] 4 = some g ∧ g.WF ∧
      g.Connected ∧ HeapOrder (kruskal_edges g) (sortByWeight (kruskal_edges g)) ∧
      (∀ e ∈ kruskal_edges g, e.weight < INT_MAX) ∧
      (∃ p, g.mstPrim = some p ∧ (p.edges.length : Int) = g.size - 1 ∧
        g.IsSpanningTree p.edges) ∧
      (∃ k, g.mstKruskal (sortByWeight (kruskal_edges g)) = some k ∧
        (k.edges.length : Int) = g.size - 1 ∧ g.IsSpanningTree k.edges) := by
  obtain ⟨g, hof, hsz, hedges, hk, _, _⟩ := scenario_graph_facts
  have hg : g.WF := Graph.wf_ofEdges _ 4 g hof (by decide)
  have hc := scenario_graph_connected g hedges hsz
  have hW : ∀ e ∈ kruskal_edges g, e.weight < INT_MAX := by
    rw [hk]
    decide
  exact ⟨g, hof, hg, hc, sortByWeight_heapOrder _, hW,
    (Graph.mst_spanning g hg hc _ (sortByWeight_heapOrder _)).1 hW,
    (Graph.mst_spanning g hg hc _ (sortByWeight_heapOrder _)).2⟩

/-- The graph with three vertices and the single edge (1,2,5), as evaluated by the
code. -/
theorem split_graph_facts :
    ∃ g, Graph.ofEdges [⟨1, 2, 5⟩] 3 = some g ∧ g.size = 3 ∧
      g.edges = [⟨1, 2, 5⟩, ⟨2, 1, 5⟩] ∧
      g.mstKruskal (sortByWeight (kruskal_edges g)) = some ⟨[⟨1, 2, 5⟩], 5⟩ :=
  ⟨_, rfl, rfl, rfl, rfl⟩

theorem Graph.mstKruskal_forest_witness :
    ∃ g, Graph.ofEdges [⟨1, 2, 5⟩] 3 = some g ∧ g.WF ∧ ¬ g.Connected ∧
      HeapOrder (kruskal_edges g) (sortByWeight (kruskal_edges g)) ∧
      ∃ out, g.mstKruskal (sortByWeight (kruskal_edges g)) = some out ∧
        (out.edges.length : Int) < g.size - 1 ∧
        (∀ e ∈ out.edges, e ∈ g.edges) ∧ Acyclic out.edges ∧
        ∀ u v, 1 ≤ u → u ≤ g.size → 1 ≤ v → v ≤ g.size →
          (Connects out.edges u v ↔ Connects g.edges u v) := by
  obtain ⟨g, hof, hsz, hedges, _⟩ := split_graph_facts
  have hg : g.WF := Graph.wf_ofEdges _ 3 g hof (by decide)
  have hc : ¬ g.Connected := by
    intro h
    have h13 := h 1 3 (by decide) (by rw [hsz]; decide) (by decide) (le_of_eq hsz.symm)
    rw [hedges] at h13
    have := connects_same_side (fun v => decide (v = 3)) _ (by decide) h13
    exact absurd this (by decide)
  exact ⟨g, hof, hg, hc, sortByWeight_heapOrder _,
    Graph.mstKruskal_forest g hg hc _ (sortByWeight_heapOrder _)⟩

/-! ## Disjoint sets: what `find` writes -/

/-- The recursion of `find` returns the representative and writes it into exactly the
elements it visits before the root. -/
theorem DSets.findAux_path {D : DSets} {h : Int → Nat} (hv : D.Ranked h) :
    ∀ (fuel : Nat) (x : Int), 1 ≤ x → x ≤ D.size →
      D.size + 1 ≤ (fuel : Int) + h x + D.roots →
      ∃ V1, DSets.findAux D.size fuel D.V x = some (V1, D.rep x) ∧
        (∀ y, V1 y = if y ∈ DSets.pathNodes D.V fuel x then D.rep x else D.V y) ∧
        DSets.root D.V (DSets.pathNodes D.V fuel x).length x = D.rep x ∧
        ∀ y ∈ DSets.pathNodes D.V fuel x, 1 ≤ y ∧ y ≤ D.size ∧ ¬ D.V y < 0 := by
  intro fuel
  induction fuel with
  | zero =>
    intro x h1 h2 hb
    have := hv.bound x h1 h2
    omega
  | succ k ih =>
    intro x h1 h2 hb
    by_cases hneg : D.V x < 0
    · have hp : DSets.pathNodes D.V (k + 1) x = [] := by simp [DSets.pathNodes, hneg]
      refine ⟨D.V, ?_, ?_, ?_, ?_⟩
      · simp [DSets.findAux, h1, h2, hneg, DSets.rep_of_neg D x hneg]
      · intro y
        rw [hp]
        simp
      · rw [hp, DSets.rep_of_neg D x hneg]
        rfl
      · intro y hy
        rw [hp] at hy
        exact absurd hy (List.not_mem_nil y)
    · rcases hv.parent x h1 h2 with hneg1 | ⟨p1, p2, p3⟩
      · exact absurd hneg1 hneg
      · obtain ⟨V1, hV1, hfr, hroot, hpath⟩ :=
          ih (D.V x) p1 p2 (by push_cast at hb ⊢; omega)
        have hrep := DSets.rep_step hv x h1 h2 hneg
        have hp : DSets.pathNodes D.V (k + 1) x = x :: DSets.pathNodes D.V k (D.V x) := by
          simp [DSets.pathNodes, hneg]
        refine ⟨upd V1 x (D.rep x), ?_, ?_, ?_, ?_⟩
        · simp [DSets.findAux, h1, h2, hneg, hV1, hrep]
        · intro y
          rw [hp]
          by_cases hy : y = x
          · subst hy
            rw [upd_same, if_pos (List.mem_cons_self _ _)]
          · rw [upd_other _ _ _ _ hy, hfr y, hrep]
            by_cases hm : y ∈ DSets.pathNodes D.V k (D.V x)
            · rw [if_pos hm, if_pos (List.mem_cons_of_mem _ hm)]
            · have : y ∉ x :: DSets.pathNodes D.V k (D.V x) := by
                intro hc
                rcases List.mem_cons.1 hc with e | e
                · exact hy e
                · exact hm e
              rw [if_neg hm, if_neg this]
        · rw [hp, List.length_cons, hrep, ← hroot]
          simp [DSets.root, hneg]
        · intro y hy
          rw [hp] at hy
          rcases List.mem_cons.1 hy with rfl | hy
          · exact ⟨h1, h2, hneg⟩
          · exact hpath y hy

/-- C11: in a state reachable from `create(n)` by `join` and `find` calls, `find(x)`
succeeds for `x` in `1..n` and returns a root `r`, met after as many parent steps as the
chain from `x` has elements that are not roots; after the call every element of that
chain holds `r`, and every entry that is not on the chain, the entry of `r` among them,
is what it was before the call. -/
theorem DSets.find_compresses_path (n : Int) (k : Nat) (D : DSets)
    (hD : DSets.Reach n k D) (x : Int) (hx1 : 1 ≤ x) (hx2 : x ≤ n) :
    ∃ D1 r, D.find x = some (D1, r) ∧ D1.size = D.size ∧ D.V r < 0 ∧
      DSets.root D.V (DSets.pathNodes D.V D.size.toNat x).length x = r ∧
      (∀ y ∈ DSets.pathNodes D.V D.size.toNat x, ¬ D.V y < 0 ∧ D1.V y = r) ∧
      (∀ y, y ∉ DSets.pathNodes D.V D.size.toNat x → D1.V y = D.V y) ∧
      r ∉ DSets.pathNodes D.V D.size.toNat x ∧ D1.V r = D.V r := by
  obtain ⟨h, hv, hsz, _⟩ := DSets.reach_valid n k D hD
  subst hsz
  have hs := hv.ranked.size_pos
  have hr := DSets.roots_pos hv.ranked
  obtain ⟨V1, hV1, hfr, hroot, hpath⟩ :=
    DSets.findAux_path hv.ranked D.size.toNat x hx1 hx2 (by omega)
  obtain ⟨_, _, a3, _⟩ := DSets.rep_spec hv.ranked x hx1 hx2
  have hnot : D.rep x ∉ DSets.pathNodes D.V D.size.toNat x :=
    fun hm => (hpath _ hm).2.2 a3
  refine ⟨{ D with V := V1 }, D.rep x, by simp [DSets.find, hV1], rfl, a3, hroot,
    ?_, ?_, hnot, ?_⟩
  · intro y hy
    refine ⟨(hpath y hy).2.2, ?_⟩
    show V1 y = D.rep x
    rw [hfr y, if_pos hy]
  · intro y hy
    show V1 y = D.V y
    rw [hfr y, if_neg hy]
  · show V1 (D.rep x) = D.V (D.rep x)
    rw [hfr _, if_neg hnot]

/-- C19: in a state reachable from `create(n)` by `join` and `find` calls, a call
`find(x)` with `x` in `1..n` succeeds and changes no representative: for every `y` of
`1..n`, `find(y)` returns after the call what it returned before it; an entry is
negative after the call exactly when it was before, the negative entries keep their
value, and the number of roots is the same. -/
theorem DSets.find_preserves_partition (n : Int) (k : Nat) (D : DSets)
    (hD : DSets.Reach n k D) (x : Int) (hx1 : 1 ≤ x) (hx2 : x ≤ n) :
    ∃ D1 r, D.find x = some (D1, r) ∧
      (∀ y, 1 ≤ y → y ≤ n → D1.rep y = D.rep y ∧
        ∃ D2 D3 ry, D.find y = some (D2, ry) ∧ D1.find y = some (D3, ry)) ∧
      (∀ i, D1.V i < 0 ↔ D.V i < 0) ∧ (∀ i, D.V i < 0 → D1.V i = D.V i) ∧
      D1.roots = D.roots := by
  obtain ⟨h, hv, hsz, _⟩ := DSets.reach_valid n k D hD
  subst hsz
  obtain ⟨D1, f1, hv1, hsz1, hroots, hrep1, hneg1, hneg2⟩ := DSets.find_full hv x hx1 hx2
  refine ⟨D1, _, f1, ?_, ?_, hneg1, hroots⟩
  · intro y y1 y2
    refine ⟨hrep1 y y1 y2, ?_⟩
    obtain ⟨D2, f2, _⟩ := DSets.find_full hv y y1 y2
    obtain ⟨D3, f3, _⟩ := DSets.find_full hv1 y y1 (by rw [hsz1]; exact y2)
    rw [hrep1 y y1 y2] at f3
    exact ⟨D2, D3, _, f2, f3⟩
  · intro i
    constructor
    · intro hi
      rw [← hneg2 i hi]
      exact hi
    · intro hi
      rw [hneg1 i hi]
      exact hi

theorem DSets.find_compresses_path_witness :
    ∃ D0 Da Db D, DSets.create 4 = some D0 ∧ D0.join 1 2 = some Da ∧
      Da.join 3 4 = some Db ∧ Db.join 1 3 = some D ∧ DSets.Reach 4 3 D ∧
      DSets.pathNodes D.V D.size.toNat 4 = [4, 3] ∧
      (∃ D1, D.find 4 = some (D1, 1) ∧ (vertices 4).map D.V = [-4, 1, 1, 3] ∧
        (vertices 4).map D1.V = [-4, 1, 1, 1]) ∧
      ∃ D1 r, D.find 4 = some (D1, r) ∧ D1.size = D.size ∧ D.V r < 0 ∧
        DSets.root D.V (DSets.pathNodes D.V D.size.toNat 4).length 4 = r ∧
        (∀ y ∈ DSets.pathNodes D.V D.size.toNat 4, ¬ D.V y < 0 ∧ D1.V y = r) ∧
        (∀ y, y ∉ DSets.pathNodes D.V D.size.toNat 4 → D1.V y = D.V y) ∧
        r ∉ DSets.pathNodes D.V D.size.toNat 4 ∧ D1.V r = D.V r :=
  ⟨_, _, _, _, rfl, rfl, rfl, rfl,
    DSets.Reach.join 1 3 (DSets.Reach.join 3 4 (DSets.Reach.join 1 2
      (DSets.Reach.create rfl) rfl) rfl) rfl,
    by decide, ⟨_, rfl, by decide, by decide⟩,
    DSets.find_compresses_path 4 3 _
      (DSets.Reach.join 1 3 (DSets.Reach.join 3 4 (DSets.Reach.join 1 2
        (DSets.Reach.create rfl) rfl) rfl) rfl) 4 (by decide) (by decide)⟩

theorem DSets.find_preserves_partition_witness :
    ∃ D0 Da Db D, DSets.create 4 = some D0 ∧ D0.join 1 2 = some Da ∧
      Da.join 3 4 = some Db ∧ Db.join 1 3 = some D ∧ DSets.Reach 4 3 D ∧
      ∃ D1 r, D.find 4 = some (D1, r) ∧
        (∀ y, 1 ≤ y → y ≤ 4 → D1.rep y = D.rep y ∧
          ∃ D2 D3 ry, D.find y = some (D2, ry) ∧ D1.find y = some (D3, ry)) ∧
        (∀ i, D1.V i < 0 ↔ D.V i < 0) ∧ (∀ i, D.V i < 0 → D1.V i = D.V i) ∧
        D1.roots = D.roots :=
  ⟨_, _, _, _, rfl, rfl, rfl, rfl,
    DSets.Reach.join 1 3 (DSets.Reach.join 3 4 (DSets.Reach.join 1 2
      (DSets.Reach.create rfl) rfl) rfl) rfl,
    DSets.find_preserves_partition 4 3 _
      (DSets.Reach.join 1 3 (DSets.Reach.join 3 4 (DSets.Reach.join 1 2
        (DSets.Reach.create rfl) rfl) rfl) rfl) 4 (by decide) (by decide)⟩

/-! ## Disjoint sets: the height of the trees -/

/-- A chain of `j` parent pointers ends on an in-range element whose rank is at least
`j` above the rank of its start. -/
theorem DSets.ancestor_rank {D : DSets} {h : Int → Nat} (hv : D.Ranked h) :
    ∀ (j : Nat) (x y : Int), 1 ≤ x → x ≤ D.size → DSets.ancestor D.V j x = some y →
      1 ≤ y ∧ y ≤ D.size ∧ h x + j ≤ h y := by
  intro j
  induction j with
  | zero =>
    intro x y h1 h2 ha
    simp only [DSets.ancestor, Option.some.injEq] at ha
    subst ha
    exact ⟨h1, h2, le_refl _⟩
  | succ j ih =>
    intro x y h1 h2 ha
    by_cases hneg : D.V x < 0
    · simp [DSets.ancestor, hneg] at ha
    · rcases hv.parent x h1 h2 with hneg1 | ⟨p1, p2, p3⟩
      · exact absurd hneg1 hneg
      · simp only [DSets.ancestor, hneg, if_false] at ha
        obtain ⟨a1, a2, a3⟩ := ih (D.V x) y p1 p2 ha
        exact ⟨a1, a2, by omega⟩

/-- An element whose root has rank at most `j` above its own reaches the root within
`j` parent steps. -/
theorem DSets.ancestor_of_rank {D : DSets} {h : Int → Nat} (hv : D.Ranked h) :
    ∀ (j : Nat) (x : Int), 1 ≤ x → x ≤ D.size → h (D.rep x) ≤ h x + j →
      ∃ i, i ≤ j ∧ DSets.ancestor D.V i x = some (D.rep x) := by
  intro j
  induction j with
  | zero =>
    intro x h1 h2 hb
    by_cases hneg : D.V x < 0
    · exact ⟨0, le_refl _, by rw [DSets.rep_of_neg D x hneg]; rfl⟩
    · have := DSets.rep_rank_lt hv x h1 h2 hneg
      omega
  | succ j ih =>
    intro x h1 h2 hb
    by_cases hneg : D.V x < 0
    · exact ⟨0, Nat.zero_le _, by rw [DSets.rep_of_neg D x hneg]; rfl⟩
    · rcases hv.parent x h1 h2 with hneg1 | ⟨p1, p2, p3⟩
      · exact absurd hneg1 hneg
      · have hrep := DSets.rep_step hv x h1 h2 hneg
        obtain ⟨i, hi, ha⟩ := ih (D.V x) p1 p2 (by rw [← hrep]; omega)
        refine ⟨i + 1, by omega, ?_⟩
        rw [hrep, ← ha]
        simp [DSets.ancestor, hneg]

/-- The recursion of `find` needs one call more than the rank of the root exceeds the
rank of the element. -/
theorem DSets.findAux_of_rank {D : DSets} {h : Int → Nat} (hv : D.Ranked h) :
    ∀ (j : Nat) (x : Int), 1 ≤ x → x ≤ D.size → h (D.rep x) ≤ h x + j →
      ∃ V1, DSets.findAux D.size (j + 1) D.V x = some (V1, D.rep x) := by
  intro j
  induction j with
  | zero =>
    intro x h1 h2 hb
    by_cases hneg : D.V x < 0
    · exact ⟨D.V, by simp [DSets.findAux, h1, h2, hneg, DSets.rep_of_neg D x hneg]⟩
    · have := DSets.rep_rank_lt hv x h1 h2 hneg
      omega
  | succ j ih =>
    intro x h1 h2 hb
    by_cases hneg : D.V x < 0
    · exact ⟨D.V, by simp [DSets.findAux, h1, h2, hneg, DSets.rep_of_neg D x hneg]⟩
    · rcases hv.parent x h1 h2 with hneg1 | ⟨p1, p2, p3⟩
      · exact absurd hneg1 hneg
      · have hrep := DSets.rep_step hv x h1 h2 hneg
        obtain ⟨V1, hV1⟩ := ih (D.V x) p1 p2 (by rw [← hrep]; omega)
        refine ⟨upd V1 x (D.rep x), ?_⟩
        rw [DSets.findAux]
        simp [h1, h2, hneg, hV1, hrep]

/-- Union by size keeps two to the power of the rank of a root below its stored size. -/
theorem DSets.link_balanced {D : DSets} {h : Int → Nat} (w l : Int) (hne : w ≠ l)
    (hw : D.V w < 0) (hl : D.V l < 0) (hsize : - D.V l ≤ - D.V w) (hw1 : 1 ≤ w)
    (hb : ∀ r, 1 ≤ r → r ≤ D.size → D.V r < 0 → 2 ^ h r ≤ (- D.V r).toNat)
    (hw2 : w ≤ D.size) (hl1 : 1 ≤ l) (hl2 : l ≤ D.size) :
    ∀ r, 1 ≤ r → r ≤ D.size → (D.link w l).V r < 0 →
      2 ^ linkRank h w l r ≤ (- (D.link w l).V r).toNat := by
  intro r r1 r2 hr
  rw [DSets.link_V] at hr ⊢
  unfold linkRank
  by_cases hrw : r = w
  · subst hrw
    simp only [if_true]
    have bw := hb r r1 r2 hw
    have bl := hb l hl1 hl2 hl
    rcases max_cases (h r) (h l + 1) with ⟨e, _⟩ | ⟨e, _⟩
    · rw [e]
      omega
    · rw [e, pow_succ]
      generalize 2 ^ h l = a at bl ⊢
      omega
  · by_cases hrl : r = l
    · subst hrl
      simp only [hrw, if_false, if_true] at hr
      omega
    · simp only [hrw, hrl, if_false] at hr ⊢
      exact hb r r1 r2 hr

/-- Every reachable state has ranks that grow along the parent pointers and are
logarithmic in the size stored at a root. -/
theorem DSets.reach_balanced (n : Int) (k : Nat) (D : DSets) (hr : DSets.Reach n k D) :
    ∃ h, D.Valid h ∧ D.size = n ∧
      ∀ r, 1 ≤ r → r ≤ D.size → D.V r < 0 → 2 ^ h r ≤ (- D.V r).toNat := by
  induction hr with
  | create hc =>
    obtain ⟨a, b, _⟩ := DSets.create_valid n _ hc
    obtain ⟨_, _, hV⟩ := DSets.create_eq n _ hc
    refine ⟨_, a, b, ?_⟩
    intro r r1 r2 _
    rw [hV, if_pos ⟨r1, b ▸ r2⟩]
    decide
  | join r s _ hj ih =>
    obtain ⟨h, hv, hsz, hb⟩ := ih
    obtain ⟨⟨hne, ⟨r1, r2⟩, ⟨s1, s2⟩, hVr, hVs⟩, hcase⟩ := DSets.join_cases _ _ r s hj
    rcases hcase with ⟨hc, e⟩ | ⟨hc, e⟩
    · subst e
      exact ⟨_, DSets.link_valid hv r s hne r1 r2 s1 s2 hVr hVs, hsz,
        DSets.link_balanced r s hne hVr hVs hc r1 hb r2 s1 s2⟩
    · subst e
      exact ⟨_, DSets.link_valid hv s r (Ne.symm hne) s1 s2 r1 r2 hVs hVr, hsz,
        DSets.link_balanced s r (Ne.symm hne) hVs hVr (by omega) s1 hb s2 r1 r2⟩
  | find x r _ hf ih =>
    obtain ⟨h, hv, hsz, hb⟩ := ih
    rename_i k0 D0 D1 _
    by_cases hx : 1 ≤ x ∧ x ≤ D0.size
    · obtain ⟨V1, hV1, hc⟩ := DSets.find_spec hv.ranked x hx.1 hx.2
      rw [hV1] at hf
      simp only [Option.some.injEq, Prod.mk.injEq] at hf
      obtain ⟨e, _⟩ := hf
      subst e
      refine ⟨h, DSets.compress_valid hv V1 hc, hsz, ?_⟩
      intro t t1 t2 ht
      have ht : V1 t < 0 := ht
      have e := (DSets.compress_ranked hv.ranked V1 hc).1 t ht
      show 2 ^ h t ≤ (- V1 t).toNat
      rw [e]
      exact hb t t1 t2 (e ▸ ht)
    · rw [DSets.find_none_of_range _ x hx] at hf
      simp at hf

/-- C18: in a state reachable from `create(n)` by successful `join` calls and `find`
calls, no element of `1..n` is an ancestor of itself; for a root `r` that stores the
size `k = -V[r]`, every element for which `find` returns `r` has `r` as its ancestor at
most `floor(log2 k)` parent steps up; and `find(x)` returns for every `x` of `1..n`,
after at most `floor(log2 k) + 1` nested calls. -/
theorem DSets.height_logarithmic (n : Int) (k : Nat) (D : DSets)
    (hD : DSets.Reach n k D) :
    (∀ x, 1 ≤ x → x ≤ n → ∀ j, 0 < j → DSets.ancestor D.V j x ≠ some x) ∧
    (∀ r, 1 ≤ r → r ≤ n → D.V r < 0 → ∀ x D1, 1 ≤ x → x ≤ n → D.find x = some (D1, r) →
      ∃ j, j ≤ Nat.log 2 (- D.V r).toNat ∧ DSets.ancestor D.V j x = some r) ∧
    (∀ x, 1 ≤ x → x ≤ n → ∃ D1 r, D.find x = some (D1, r) ∧ D.V r < 0 ∧
      ∃ V1, DSets.findAux D.size (Nat.log 2 (- D.V r).toNat + 1) D.V x = some (V1, r)) := by
  obtain ⟨h, hv, hsz, hb⟩ := DSets.reach_balanced n k D hD
  subst hsz
  have hlog : ∀ x, 1 ≤ x → x ≤ D.size →
      h (D.rep x) ≤ h x + Nat.log 2 (- D.V (D.rep x)).toNat := by
    intro x x1 x2
    obtain ⟨a1, a2, a3, _⟩ := DSets.rep_spec hv.ranked x x1 x2
    have := Nat.le_log_of_pow_le (by decide : 1 < 2) (hb _ a1 a2 a3)
    omega
  refine ⟨?_, ?_, ?_⟩
  · intro x x1 x2 j hj ha
    obtain ⟨_, _, a3⟩ := DSets.ancestor_rank hv.ranked j x x x1 x2 ha
    omega
  · intro r _ _ _ x D1 x1 x2 hf
    have hr := (DSets.find_roots_eq hv x r D1 hf).2.1
    subst hr
    obtain ⟨i, hi, ha⟩ := DSets.ancestor_of_rank hv.ranked _ x x1 x2 (hlog x x1 x2)
    exact ⟨i, hi, ha⟩
  · intro x x1 x2
    obtain ⟨D1, f1, _⟩ := DSets.find_full hv x x1 x2
    obtain ⟨_, _, a3, _⟩ := DSets.rep_spec hv.ranked x x1 x2
    exact ⟨D1, _, f1, a3, DSets.findAux_of_rank hv.ranked _ x x1 x2 (hlog x x1 x2)⟩

theorem DSets.height_logarithmic_witness :
    ∃ D0 Da Db D, DSets.create 4 = some D0 ∧ D0.join 1 2 = some Da ∧
      Da.join 3 4 = some Db ∧ Db.join 1 3 = some D ∧ DSets.Reach 4 3 D ∧
      D.V 1 = -4 ∧ DSets.ancestor D.V 2 4 = some 1 ∧
      (∀ x, 1 ≤ x → x ≤ 4 → ∀ j, 0 < j → DSets.ancestor D.V j x ≠ some x) ∧
      (∀ r, 1 ≤ r → r ≤ 4 → D.V r < 0 → ∀ x D1, 1 ≤ x → x ≤ 4 →
        D.find x = some (D1, r) →
        ∃ j, j ≤ Nat.log 2 (- D.V r).toNat ∧ DSets.ancestor D.V j x = some r) ∧
      (∀ x, 1 ≤ x → x ≤ 4 → ∃ D1 r, D.find x = some (D1, r) ∧ D.V r < 0 ∧
        ∃ V1, DSets.findAux D.size (Nat.log 2 (- D.V r).toNat + 1) D.V x
          = some (V1, r)) :=
  ⟨_, _, _, _, rfl, rfl, rfl, rfl,
    DSets.Reach.join 1 3 (DSets.Reach.join 3 4 (DSets.Reach.join 1 2
      (DSets.Reach.create rfl) rfl) rfl) rfl,
    by decide, by decide,
    DSets.height_logarithmic 4 3 _
      (DSets.Reach.join 1 3 (DSets.Reach.join 3 4 (DSets.Reach.join 1 2
        (DSets.Reach.create rfl) rfl) rfl) rfl)⟩

/-! ## Adjacency lists under insertion and removal -/

theorem links_self (e : Edge) : e.links_same_nodes e = true := by
  simp [Edge.links_same_nodes]

theorem links_eq_true_iff (e ed : Edge) :
    e.links_same_nodes ed = true ↔ ed.from_ = e.from_ ∧ ed.to_ = e.to_ := by
  unfold Edge.links_same_nodes
  simp only [Bool.and_eq_true, beq_iff_eq]
  constructor
  · rintro ⟨a, b⟩
    exact ⟨a.symm, b.symm⟩
  · rintro ⟨a, b⟩
    exact ⟨a.symm, b.symm⟩

theorem any_links_eq_true_iff (e : Edge) (l : List Edge) :
    l.any (fun ed => e.links_same_nodes ed) = true ↔
      ∃ ed ∈ l, ed.from_ = e.from_ ∧ ed.to_ = e.to_ := by
  rw [List.any_eq_true]
  constructor
  · rintro ⟨x, hx, hl⟩
    exact ⟨x, hx, (links_eq_true_iff e x).1 hl⟩
  · rintro ⟨x, hx, hl⟩
    exact ⟨x, hx, (links_eq_true_iff e x).2 hl⟩

/-- Where the list holds an entry for the pair of `e`, it splits around the first such
entry; the update rewrites the weight of that entry and the removal drops it. -/
theorem updateWeight_split (e : Edge) :
    ∀ l : List Edge, l.any (fun ed => e.links_same_nodes ed) = true →
      ∃ l1 ed l2, l = l1 ++ ed :: l2 ∧ (∀ x ∈ l1, e.links_same_nodes x = false) ∧
        e.links_same_nodes ed = true ∧
        updateWeight e l = l1 ++ ⟨ed.from_, ed.to_, e.weight⟩ :: l2 ∧
        eraseFirst e l = l1 ++ l2 := by
  intro l
  induction l with
  | nil =>
    intro h
    simp at h
  | cons a l ih =>
    intro h
    by_cases ha : e.links_same_nodes a = true
    · refine ⟨[], a, l, rfl, fun x hx => absurd hx (List.not_mem_nil x), ha, ?_, ?_⟩
      · simp [updateWeight, ha]
      · simp [eraseFirst, ha]
    · have hrest : l.any (fun ed => e.links_same_nodes ed) = true := by
        rw [List.any_cons, Bool.or_eq_true] at h
        rcases h with h | h
        · exact absurd h ha
        · exact h
      obtain ⟨l1, ed, l2, e1, e2, e3, e4, e5⟩ := ih hrest
      refine ⟨a :: l1, ed, l2, by rw [e1]; rfl, ?_, e3, ?_, ?_⟩
      · intro x hx
        rcases List.mem_cons.1 hx with rfl | hx
        · simpa using ha
        · exact e2 x hx
      · simp only [updateWeight, ha, if_false, e4, Bool.false_eq_true]
        rfl
      · simp only [eraseFirst, ha, if_false, e5, Bool.false_eq_true]
        rfl

theorem eraseFirst_append_self (e : Edge) :
    ∀ l : List Edge, (∀ x ∈ l, e.links_same_nodes x = false) → eraseFirst e (l ++ [e]) = l := by
  intro l
  induction l with
  | nil =>
    intro _
    simp [eraseFirst, links_self]
  | cons a l ih =>
    intro h
    have ha := h a (List.mem_cons_self _ _)
    rw [List.cons_append]
    simp only [eraseFirst, ha, Bool.false_eq_true, if_false]
    rw [ih (fun x hx => h x (List.mem_cons_of_mem _ hx))]

theorem eraseFirst_sublist (e : Edge) (l : List Edge) : (eraseFirst e l).Sublist l := by
  induction l with
  | nil => exact List.Sublist.refl _
  | cons a l ih =>
    unfold eraseFirst
    split
    · exact List.sublist_cons_self _ _
    · exact List.Sublist.cons₂ _ ih

theorem upd_upd_same {α : Type} (f : Int → α) (i : Int) (x : α) :
    upd (upd f i x) i (f i) = f := by
  funext j
  by_cases hj : j = i
  · rw [hj, upd_same]
  · rw [upd_other _ _ _ _ hj, upd_other _ _ _ _ hj]

/-! ## The shape of the directed graphs the operations build -/

/-- What `insertEdge` does, in terms of the table entry it changes. -/
theorem Digraph.insertEdge_cases (g : Digraph) (e : Edge)
    (hr : 1 ≤ e.from_ ∧ e.from_ ≤ g.size ∧ 1 ≤ e.to_ ∧ e.to_ ≤ g.size) :
    ∃ g1, g.insertEdge e = some g1 ∧ g1.size = g.size ∧
      (∀ u, u ≠ e.from_ → g1.table u = g.table u) ∧
      (((g.table e.from_).any (fun ed => e.links_same_nodes ed) = true ∧
          g1.table e.from_ = updateWeight e (g.table e.from_) ∧ g1.n_edges = g.n_edges) ∨
        ((g.table e.from_).any (fun ed => e.links_same_nodes ed) = false ∧
          g1.table e.from_ = g.table e.from_ ++ [e] ∧ g1.n_edges = g.n_edges + 1)) := by
  unfold Digraph.insertEdge
  rw [if_pos hr]
  by_cases hc : (g.table e.from_).any (fun ed => e.links_same_nodes ed) = true
  · rw [if_pos hc]
    exact ⟨_, rfl, rfl, fun u hu => upd_other _ _ _ _ hu,
      Or.inl ⟨hc, upd_same _ _ _, rfl⟩⟩
  · rw [if_neg hc]
    exact ⟨_, rfl, rfl, fun u hu => upd_other _ _ _ _ hu,
      Or.inr ⟨by simpa using hc, upd_same _ _ _, rfl⟩⟩

theorem Digraph.insertEdge_simple (g g1 : Digraph) (e : Edge)
    (hfrom : ∀ u x, x ∈ g.table u → x.from_ = u)
    (hs : ∀ u, ((g.table u).map Edge.to_).Nodup) (hi : g.insertEdge e = some g1) :
    ∀ u, ((g1.table u).map Edge.to_).Nodup := by
  by_cases hr : 1 ≤ e.from_ ∧ e.from_ ≤ g.size ∧ 1 ≤ e.to_ ∧ e.to_ ≤ g.size
  · obtain ⟨g2, h2, _, hoth, hcase⟩ := Digraph.insertEdge_cases g e hr
    rw [h2] at hi
    simp only [Option.some.injEq] at hi
    subst hi
    intro u
    by_cases hu : u = e.from_
    · subst hu
      rcases hcase with ⟨_, ht, _⟩ | ⟨hc, ht, _⟩
      · rw [ht, updateWeight_targets]
        exact hs _
      · rw [ht, List.map_append, List.map_singleton]
        apply List.Nodup.append (hs _) (List.nodup_singleton _)
        intro t ht1 ht2
        rw [List.mem_singleton] at ht2
        obtain ⟨y, hy, hyt⟩ := List.mem_map.1 ht1
        have : (g.table e.from_).any (fun ed => e.links_same_nodes ed) = true :=
          (any_links_eq_true_iff e _).2 ⟨y, hy, hfrom _ y hy, by rw [hyt, ht2]⟩
        rw [hc] at this
        exact absurd this (by decide)
    · rw [hoth u hu]
      exact hs u
  · unfold Digraph.insertEdge at hi
    rw [if_neg hr] at hi
    simp at hi

theorem Digraph.removeEdge_simple (g g1 : Digraph) (e : Edge)
    (hs : ∀ u, ((g.table u).map Edge.to_).Nodup) (hi : g.removeEdge e = some g1) :
    ∀ u, ((g1.table u).map Edge.to_).Nodup := by
  unfold Digraph.removeEdge at hi
  split at hi
  · split at hi
    · simp only [Option.some.injEq] at hi
      subst hi
      intro u
      show ((upd g.table e.from_ (eraseFirst e (g.table e.from_)) u).map Edge.to_).Nodup
      by_cases hu : u = e.from_
      · rw [hu, upd_same]
        exact List.Nodup.sublist ((eraseFirst_sublist e _).map _) (hs _)
      · rw [upd_other _ _ _ _ hu]
        exact hs u
    · simp at hi
  · simp at hi

theorem Digraph.insertAll_simple (V : List Edge) (g g1 : Digraph) (hg : g.WF)
    (hs : ∀ u, ((g.table u).map Edge.to_).Nodup) (hi : Digraph.insertAll V g = some g1) :
    ∀ u, ((g1.table u).map Edge.to_).Nodup := by
  induction V generalizing g with
  | nil =>
    simp only [Digraph.insertAll, Option.some.injEq] at hi
    exact hi ▸ hs
  | cons e V ih =>
    unfold Digraph.insertAll at hi
    split at hi
    · rename_i g2 h2
      exact ih g2 (Digraph.insertEdge_wf g g2 e hg h2)
        (Digraph.insertEdge_simple g g2 e (fun u x hx => (hg.edges u x hx).2.2.1) hs h2) hi
    · simp at hi

/-- A built directed graph is well formed and its lists hold one edge per target. -/
theorem Digraph.Built.shape {g : Digraph} (hb : g.Built) :
    g.WF ∧ ∀ u, ((g.table u).map Edge.to_).Nodup := by
  induction hb with
  | create n g hn hc =>
    refine ⟨Digraph.create_wf n g hc hn, ?_⟩
    unfold Digraph.create at hc
    split at hc
    · simp only [Option.some.injEq] at hc
      subst hc
      intro u
      exact List.nodup_nil
    · simp at hc
  | ofEdges V n g hn hc =>
    refine ⟨Digraph.ofEdges_wf V n g hc hn, ?_⟩
    unfold Digraph.ofEdges at hc
    split at hc
    · rename_i g0 h0
      have hw0 := Digraph.create_wf n g0 h0 hn
      refine Digraph.insertAll_simple V g0 g hw0 ?_ hc
      unfold Digraph.create at h0
      split at h0
      · simp only [Option.some.injEq] at h0
        subst h0
        intro u
        exact List.nodup_nil
      · simp at h0
    · simp at hc
  | insertEdge g g1 e _ hi ih =>
    exact ⟨Digraph.insertEdge_wf g g1 e ih.1 hi,
      Digraph.insertEdge_simple g g1 e (fun u x hx => (ih.1.edges u x hx).2.2.1) ih.2 hi⟩
  | removeEdge g g1 e _ hi ih =>
    exact ⟨Digraph.removeEdge_wf g g1 e ih.1 hi, Digraph.removeEdge_simple g g1 e ih.2 hi⟩

/-- C12: in a directed graph obtained from the constructors by successful `insertEdge`
and `removeEdge` calls, every entry of `table[u]` leaves `u` and no two entries of a list
have the same target, hence none the same `(from, to)` pair.  For an edge `e` with endpoints in `1..n`, `insertEdge(e)`
succeeds; when `table[e.from]` holds an entry for the pair of `e`, that entry keeps its
place and gets the weight of `e`, every other entry, every other list and `n_edges` stay
as they were; otherwise `e` is appended to `table[e.from]` and `n_edges` grows by one. -/
theorem Digraph.insertEdge_keeps_pairs_unique (g : Digraph) (hb : g.Built) :
    (∀ u ed, ed ∈ g.table u → ed.from_ = u) ∧
    (∀ u, (g.table u).Pairwise (fun a b => a.to_ ≠ b.to_)) ∧
    ∀ e : Edge, 1 ≤ e.from_ → e.from_ ≤ g.size → 1 ≤ e.to_ → e.to_ ≤ g.size →
      ((∃ ed ∈ g.table e.from_, ed.from_ = e.from_ ∧ ed.to_ = e.to_) →
        ∃ g1 l1 ed l2, g.insertEdge e = some g1 ∧ g.table e.from_ = l1 ++ ed :: l2 ∧
          ed.from_ = e.from_ ∧ ed.to_ = e.to_ ∧
          g1.table e.from_ = l1 ++ ⟨ed.from_, ed.to_, e.weight⟩ :: l2 ∧
          (∀ u, u ≠ e.from_ → g1.table u = g.table u) ∧
          g1.n_edges = g.n_edges ∧ g1.size = g.size) ∧
      ((¬ ∃ ed ∈ g.table e.from_, ed.from_ = e.from_ ∧ ed.to_ = e.to_) →
        ∃ g1, g.insertEdge e = some g1 ∧ g1.table e.from_ = g.table e.from_ ++ [e] ∧
          (∀ u, u ≠ e.from_ → g1.table u = g.table u) ∧
          g1.n_edges = g.n_edges + 1 ∧ g1.size = g.size) := by
  obtain ⟨hw, hs⟩ := hb.shape
  refine ⟨fun u ed hed => (hw.edges u ed hed).2.2.1, ?_, ?_⟩
  · intro u
    have h := hs u
    unfold List.Nodup at h
    rw [List.pairwise_map] at h
    exact h
  · intro e r1 r2 r3 r4
    obtain ⟨g1, hi, hsz, hoth, hcase⟩ := Digraph.insertEdge_cases g e ⟨r1, r2, r3, r4⟩
    constructor
    · intro hex
      have hany := (any_links_eq_true_iff e _).2 hex
      rcases hcase with ⟨_, ht, hn⟩ | ⟨hc, _, _⟩
      · obtain ⟨l1, ed, l2, e1, _, e3, e4, _⟩ := updateWeight_split e _ hany
        obtain ⟨f1, f2⟩ := (links_eq_true_iff e ed).1 e3
        exact ⟨g1, l1, ed, l2, hi, e1, f1, f2, by rw [ht, e4], hoth, hn, hsz⟩
      · rw [hc] at hany
        exact absurd hany (by decide)
    · intro hex
      rcases hcase with ⟨hc, _, _⟩ | ⟨_, ht, hn⟩
      · exact absurd ((any_links_eq_true_iff e _).1 hc) hex
      · exact ⟨g1, hi, ht, hoth, hn, hsz⟩

/-- The two-vertex graph with the edge (1,2,5), and what the code makes of inserting
(1,2,5) again and removing it. -/
theorem round_trip_digraph_facts :
    ∃ g g1 g2, Digraph.ofEdges [⟨1, 2, 5⟩] 2 = some g ∧
      g.insertEdge ⟨1, 2, 5⟩ = some g1 ∧ g1.removeEdge ⟨1, 2, 5⟩ = some g2 ∧
      g.n_edges = 1 ∧ g.table 1 = [⟨1, 2, 5⟩] ∧ g2.n_edges = 0 ∧ g2.table 1 = [] :=
  ⟨_, _, _, rfl, rfl, rfl, rfl, rfl, rfl, rfl⟩

/-- C13 fails as stated: in the graph built from the single edge (1,2,5), inserting the
edge (1,2,5) and removing it at once leaves no edge in `table[1]` and `n_edges = 0`,
where the graph had the edge and `n_edges = 1` before the insertion. -/
theorem Digraph.insert_remove_counterexample :
    ∃ g g1 g2, Digraph.ofEdges [⟨1, 2, 5⟩] 2 = some g ∧ g.Built ∧
      g.insertEdge ⟨1, 2, 5⟩ = some g1 ∧ g1.removeEdge ⟨1, 2, 5⟩ = some g2 ∧
      g2.n_edges ≠ g.n_edges ∧ g2.table 1 ≠ g.table 1 := by
  obtain ⟨g, g1, g2, hof, hi, hr, n0, t0, n2, t2⟩ := round_trip_digraph_facts
  refine ⟨g, g1, g2, hof, Digraph.Built.ofEdges _ 2 g (by decide) hof, hi, hr, ?_, ?_⟩
  · rw [n0, n2]
    decide
  · rw [t0, t2]
    decide

/-- C13, amended: for a directed graph and an edge `e` with endpoints in `1..n` such
that `table[e.from]` holds no entry with the `(from, to)` pair of `e`, `insertEdge(e)`
followed at once by `removeEdge(e)` succeeds and leaves `n_edges` and every adjacency
list as they were before the insertion. -/
theorem Digraph.insert_remove_round_trip (g : Digraph) (e : Edge)
    (r1 : 1 ≤ e.from_) (r2 : e.from_ ≤ g.size) (r3 : 1 ≤ e.to_) (r4 : e.to_ ≤ g.size)
    (hnew : ¬ ∃ ed ∈ g.table e.from_, ed.from_ = e.from_ ∧ ed.to_ = e.to_) :
    ∃ g1 g2, g.insertEdge e = some g1 ∧ g1.n_edges = g.n_edges + 1 ∧
      g1.removeEdge e = some g2 ∧ g2.n_edges = g.n_edges ∧
      (∀ u, g2.table u = g.table u) ∧ g2.size = g.size := by
  have hnone : (g.table e.from_).any (fun ed => e.links_same_nodes ed) = false := by
    by_contra hc
    exact hnew ((any_links_eq_true_iff e _).1 (by simpa using hc))
  have hall : ∀ x ∈ g.table e.from_, e.links_same_nodes x = false := by
    intro x hx
    by_contra hc
    exact hnew ⟨x, hx, (links_eq_true_iff e x).1 (by simpa using hc)⟩
  have hi : g.insertEdge e
      = some { g with table := upd g.table e.from_ (g.table e.from_ ++ [e]),
                      n_edges := g.n_edges + 1 } := by
    unfold Digraph.insertEdge
    rw [if_pos ⟨r1, r2, r3, r4⟩, hnone]
    simp
  have hany : (g.table e.from_ ++ [e]).any (fun ed => e.links_same_nodes ed) = true := by
    rw [List.any_append, List.any_cons, links_self]
    simp
  have ht : upd g.table e.from_ (g.table e.from_ ++ [e]) e.from_
      = g.table e.from_ ++ [e] := upd_same _ _ _
  have hr : Digraph.removeEdge
      { g with table := upd g.table e.from_ (g.table e.from_ ++ [e]),
               n_edges := g.n_edges + 1 } e
      = some { g with
          table := upd (upd g.table e.from_ (g.table e.from_ ++ [e])) e.from_
            (eraseFirst e (g.table e.from_ ++ [e])),
          n_edges := g.n_edges + 1 - 1 } := by
    unfold Digraph.removeEdge
    simp only [ht]
    rw [if_pos ⟨r1, r2, r3, r4⟩, if_pos hany]
  refine ⟨_, _, hi, rfl, hr, ?_, ?_, rfl⟩
  · show g.n_edges + 1 - 1 = g.n_edges
    omega
  · intro u
    show upd (upd g.table e.from_ (g.table e.from_ ++ [e])) e.from_
      (eraseFirst e (g.table e.from_ ++ [e])) u = g.table u
    rw [eraseFirst_append_self e _ hall, upd_upd_same]

theorem Digraph.insertEdge_keeps_pairs_unique_witness :
    ∃ g, Digraph.ofEdges [⟨1, 2, 4⟩, ⟨1, 3, 7⟩, ⟨1, 2, 9⟩] 3 = some g ∧ g.Built ∧
      g.table 1 = [⟨1, 2, 9⟩, ⟨1, 3, 7⟩] ∧ g.n_edges = 2 ∧
      (∀ u ed, ed ∈ g.table u → ed.from_ = u) ∧
      (∀ u, (g.table u).Pairwise (fun a b => a.to_ ≠ b.to_)) ∧
      ∀ e : Edge, 1 ≤ e.from_ → e.from_ ≤ g.size → 1 ≤ e.to_ → e.to_ ≤ g.size →
        ((∃ ed ∈ g.table e.from_, ed.from_ = e.from_ ∧ ed.to_ = e.to_) →
          ∃ g1 l1 ed l2, g.insertEdge e = some g1 ∧ g.table e.from_ = l1 ++ ed :: l2 ∧
            ed.from_ = e.from_ ∧ ed.to_ = e.to_ ∧
            g1.table e.from_ = l1 ++ ⟨ed.from_, ed.to_, e.weight⟩ :: l2 ∧
            (∀ u, u ≠ e.from_ → g1.table u = g.table u) ∧
            g1.n_edges = g.n_edges ∧ g1.size = g.size) ∧
        ((¬ ∃ ed ∈ g.table e.from_, ed.from_ = e.from_ ∧ ed.to_ = e.to_) →
          ∃ g1, g.insertEdge e = some g1 ∧ g1.table e.from_ = g.table e.from_ ++ [e] ∧
            (∀ u, u ≠ e.from_ → g1.table u = g.table u) ∧
            g1.n_edges = g.n_edges + 1 ∧ g1.size = g.size) :=
  ⟨_, rfl, Digraph.Built.ofEdges [⟨1, 2, 4⟩, ⟨1, 3, 7⟩, ⟨1, 2, 9⟩] 3 _ (by decide) rfl,
    rfl, rfl,
    Digraph.insertEdge_keeps_pairs_unique _
      (Digraph.Built.ofEdges [⟨1, 2, 4⟩, ⟨1, 3, 7⟩, ⟨1, 2, 9⟩] 3 _ (by decide) rfl)⟩

theorem Digraph.insert_remove_round_trip_witness :
    ∃ g, Digraph.ofEdges [⟨1, 2, 4⟩, ⟨1, 3, 7⟩] 3 = some g ∧
      (¬ ∃ ed ∈ g.table 2, ed.from_ = 2 ∧ ed.to_ = 3) ∧
      ∃ g1 g2, g.insertEdge ⟨2, 3, 1⟩ = some g1 ∧ g1.n_edges = g.n_edges + 1 ∧
        g1.removeEdge ⟨2, 3, 1⟩ = some g2 ∧ g2.n_edges = g.n_edges ∧
        (∀ u, g2.table u = g.table u) ∧ g2.size = g.size :=
  ⟨_, rfl, by decide,
    Digraph.insert_remove_round_trip _ ⟨2, 3, 1⟩ (by decide) (by decide) (by decide)
      (by decide) (by decide)⟩

/-! ## Removal from an undirected graph -/

theorem mem_eraseFirst_iff (e x : Edge) :
    ∀ l : List Edge, (∀ y ∈ l, y.from_ = e.from_) → (l.map Edge.to_).Nodup →
      (x ∈ eraseFirst e l ↔ x ∈ l ∧ x.to_ ≠ e.to_) := by
  intro l
  induction l with
  | nil =>
    intro _ _
    simp [eraseFirst]
  | cons a l ih =>
    intro hfrom hnd
    rw [List.map_cons, List.nodup_cons] at hnd
    have ha := hfrom a (List.mem_cons_self _ _)
    unfold eraseFirst
    by_cases hl : e.links_same_nodes a = true
    · rw [if_pos hl]
      have hto := (links_iff e a ha).1 hl
      constructor
      · intro h
        refine ⟨List.mem_cons_of_mem _ h, ?_⟩
        intro hx
        exact hnd.1 (List.mem_map.2 ⟨x, h, by rw [hx, hto]⟩)
      · rintro ⟨h1, h2⟩
        rcases List.mem_cons.1 h1 with rfl | h1
        · exact absurd hto h2
        · exact h1
    · rw [if_neg hl]
      have hto : a.to_ ≠ e.to_ := fun h => hl ((links_iff e a ha).2 h)
      rw [List.mem_cons, ih (fun y hy => hfrom y (List.mem_cons_of_mem _ hy)) hnd.2,
        List.mem_cons]
      constructor
      · rintro (h | ⟨h1, h2⟩)
        · exact ⟨Or.inl h, by rw [h]; exact hto⟩
        · exact ⟨Or.inr h1, h2⟩
      · rintro ⟨h1 | h1, h2⟩
        · exact Or.inl h1
        · exact Or.inr ⟨h1, h2⟩

/-- What the lambda `edgeRemoval` does to a table whose slots hold edges leaving them,
at most one per target: it needs an entry for the pair of `e`, drops it, keeps the
others and lowers the counter by one. -/
theorem edgeRemoval_spec (T T1 : Int → List Edge) (n n1 : Int) (e : Edge)
    (hfrom : ∀ u x, x ∈ T u → x.from_ = u) (hnd : ∀ u, ((T u).map Edge.to_).Nodup)
    (hr : edgeRemoval T n e = some (T1, n1)) :
    (∃ ed ∈ T e.from_, ed.to_ = e.to_) ∧ n1 = n - 1 ∧
    (∀ u x, x ∈ T1 u ↔ x ∈ T u ∧ ¬ (u = e.from_ ∧ x.to_ = e.to_)) ∧
    (∀ u x, x ∈ T1 u → x.from_ = u) ∧ (∀ u, ((T1 u).map Edge.to_).Nodup) := by
  have hf0 : ∀ y ∈ T e.from_, y.from_ = e.from_ := fun y hy => hfrom _ y hy
  unfold edgeRemoval at hr
  split at hr
  · rename_i hc
    simp only [Option.some.injEq, Prod.mk.injEq] at hr
    obtain ⟨hT, hn⟩ := hr
    subst hT
    have hmem : ∀ u x, x ∈ upd T e.from_ (eraseFirst e (T e.from_)) u ↔
        x ∈ T u ∧ ¬ (u = e.from_ ∧ x.to_ = e.to_) := by
      intro u x
      by_cases hu : u = e.from_
      · subst hu
        rw [upd_same, mem_eraseFirst_iff e x _ hf0 (hnd _)]
        constructor
        · rintro ⟨h1, h2⟩
          exact ⟨h1, fun h => h2 h.2⟩
        · rintro ⟨h1, h2⟩
          exact ⟨h1, fun h => h2 ⟨rfl, h⟩⟩
      · rw [upd_other _ _ _ _ hu]
        constructor
        · intro h
          exact ⟨h, fun h' => hu h'.1⟩
        · rintro ⟨h, _⟩
          exact h
    refine ⟨(any_links_iff e _ hf0).1 hc, hn.symm, hmem, ?_, ?_⟩
    · intro u x hx
      exact hfrom u x ((hmem u x).1 hx).1
    · intro u
      by_cases hu : u = e.from_
      · rw [hu, upd_same]
        exact List.Nodup.sublist ((eraseFirst_sublist e _).map _) (hnd _)
      · rw [upd_other _ _ _ _ hu]
        exact hnd u
  · simp at hr

theorem edgeRemoval_some (T : Int → List Edge) (n : Int) (e : Edge)
    (h : (T e.from_).any (fun ed => e.links_same_nodes ed) = true) :
    edgeRemoval T n e = some (upd T e.from_ (eraseFirst e (T e.from_)), n - 1) := by
  unfold edgeRemoval
  rw [if_pos h]

theorem edgeRemoval_none (T : Int → List Edge) (n : Int) (e : Edge)
    (h : (T e.from_).any (fun ed => e.links_same_nodes ed) = false) :
    edgeRemoval T n e = none := by
  unfold edgeRemoval
  rw [h]
  simp

/-- A successful `removeEdge` splits into its two directional removals. -/
theorem Graph.removeEdge_cases (g g1 : Graph) (e : Edge) (hi : g.removeEdge e = some g1) :
    (1 ≤ e.from_ ∧ e.from_ ≤ g.size ∧ 1 ≤ e.to_ ∧ e.to_ ≤ g.size) ∧
    ∃ Ta na, edgeRemoval g.table g.n_edges e = some (Ta, na) ∧
      edgeRemoval Ta na e.reverse = some (g1.table, g1.n_edges) ∧ g1.size = g.size := by
  unfold Graph.removeEdge at hi
  split at hi
  · rename_i hr
    refine ⟨hr, ?_⟩
    split at hi
    · rename_i a ha
      split at hi
      · rename_i b hb
        simp only [Option.some.injEq] at hi
        subst hi
        exact ⟨a.1, a.2, ha, hb, rfl⟩
      · simp at hi
    · simp at hi
  · simp at hi

/-- After a successful `removeEdge(e)` on a well-formed graph the lists hold what they
held, less the entries for the pair of `e` in either direction, and the counter is two
lower. -/
theorem Graph.removeEdge_spec (g g1 : Graph) (e : Edge) (hg : g.WF)
    (hi : g.removeEdge e = some g1) :
    g1.WF ∧ g1.n_edges = g.n_edges - 2 ∧
    ∀ u x, x ∈ g1.table u ↔
      x ∈ g.table u ∧ ¬ (u = e.from_ ∧ x.to_ = e.to_) ∧ ¬ (u = e.to_ ∧ x.to_ = e.from_) := by
  obtain ⟨_, Ta, na, ha, hb, hsz⟩ := Graph.removeEdge_cases g g1 e hi
  have hfrom : ∀ u x, x ∈ g.table u → x.from_ = u := fun u x hx => (hg.edges u x hx).2.2.1
  obtain ⟨_, n1, m1, f1, d1⟩ := edgeRemoval_spec _ _ _ _ e hfrom hg.simple ha
  obtain ⟨_, n2, m2, f2, d2⟩ := edgeRemoval_spec _ _ _ _ e.reverse f1 d1 hb
  have hrf : e.reverse.from_ = e.to_ := rfl
  have hrt : e.reverse.to_ = e.from_ := rfl
  rw [hrf, hrt] at m2
  have hmem : ∀ u x, x ∈ g1.table u ↔
      x ∈ g.table u ∧ ¬ (u = e.from_ ∧ x.to_ = e.to_) ∧ ¬ (u = e.to_ ∧ x.to_ = e.from_) := by
    intro u x
    rw [m2, m1, and_assoc]
  refine ⟨⟨hsz ▸ hg.size_pos, hsz ▸ hg.size_int, ?_, ?_, d2⟩, by omega, hmem⟩
  · intro u x hx
    rw [hsz]
    exact hg.edges u x ((hmem u x).1 hx).1
  · intro u x hx
    obtain ⟨k1, k2, k3⟩ := (hmem u x).1 hx
    have hxu : x.from_ = u := hfrom u x k1
    rw [hmem]
    refine ⟨hg.symm u x k1, ?_, ?_⟩
    · rintro ⟨a, b⟩
      have b : x.from_ = e.to_ := b
      exact k3 ⟨by rw [← hxu]; exact b, a⟩
    · rintro ⟨a, b⟩
      have b : x.from_ = e.from_ := b
      exact k2 ⟨by rw [← hxu]; exact b, a⟩

/-- A built undirected graph is well formed. -/
theorem Graph.Built.wf {g : Graph} (hb : g.Built) : g.WF := by
  induction hb with
  | create n g hn hc => exact Graph.wf_create n g hc hn
  | ofEdges V n g hn hc => exact Graph.wf_ofEdges V n g hc hn
  | insertEdge g g1 e _ hi ih => exact Graph.wf_insertEdge g g1 e ih hi
  | removeEdge g g1 e _ hi ih => exact (Graph.removeEdge_spec g g1 e ih hi).1

/-! ## Insertion into an undirected graph and the edge counter -/

theorem upd_upd {α : Type} (f : Int → α) (i : Int) (x y : α) :
    upd (upd f i x) i y = upd f i y := by
  funext j
  by_cases hj : j = i
  · rw [hj, upd_same, upd_same]
  · rw [upd_other _ _ _ _ hj, upd_other _ _ _ _ hj, upd_other _ _ _ _ hj]

theorem edge_insertion_new (T : Int → List Edge) (n : Int) (e : Edge)
    (h : (T e.from_).any (fun ed => e.links_same_nodes ed) = false) :
    edge_insertion T n e = (upd T e.from_ (T e.from_ ++ [e]), n + 1) := by
  unfold edge_insertion
  rw [h]
  simp

theorem edge_insertion_old (T : Int → List Edge) (n : Int) (e : Edge)
    (h : (T e.from_).any (fun ed => e.links_same_nodes ed) = true) :
    edge_insertion T n e = (upd T e.from_ (updateWeight e (T e.from_)), n) := by
  unfold edge_insertion
  rw [if_pos h]

theorem updateWeight_append_self (e : Edge) :
    ∀ l : List Edge, (∀ x ∈ l, e.links_same_nodes x = false) →
      updateWeight e (l ++ [e]) = l ++ [e] := by
  intro l
  induction l with
  | nil =>
    intro _
    simp [updateWeight, links_self]
  | cons a l ih =>
    intro h
    have ha := h a (List.mem_cons_self _ _)
    rw [List.cons_append]
    simp only [updateWeight, ha, Bool.false_eq_true, if_false]
    rw [ih (fun x hx => h x (List.mem_cons_of_mem _ hx))]

theorem Graph.insertEdge_eq (g : Graph) (e : Edge)
    (hr : 1 ≤ e.from_ ∧ e.from_ ≤ g.size ∧ 1 ≤ e.to_ ∧ e.to_ ≤ g.size) :
    g.insertEdge e = some { g with
      table := (edge_insertion (edge_insertion g.table g.n_edges e).1
        (edge_insertion g.table g.n_edges e).2 e.reverse).1,
      n_edges := (edge_insertion (edge_insertion g.table g.n_edges e).1
        (edge_insertion g.table g.n_edges e).2 e.reverse).2 } := by
  unfold Graph.insertEdge
  rw [if_pos hr]

theorem Graph.removeEdge_eq (g : Graph) (e : Edge) (Ta Tb : Int → List Edge) (na nb : Int)
    (hr : 1 ≤ e.from_ ∧ e.from_ ≤ g.size ∧ 1 ≤ e.to_ ∧ e.to_ ≤ g.size)
    (ha : edgeRemoval g.table g.n_edges e = some (Ta, na))
    (hb : edgeRemoval Ta na e.reverse = some (Tb, nb)) :
    g.removeEdge e = some { g with table := Tb, n_edges := nb } := by
  unfold Graph.removeEdge
  rw [if_pos hr, ha]
  simp only [hb]

/-- Inserting a self-loop where there is none stores one entry and counts one edge. -/
theorem Graph.insertEdge_loop (g : Graph) (u w : Int) (h1 : 1 ≤ u) (h2 : u ≤ g.size)
    (hno : ¬ ∃ ed ∈ g.table u, ed.from_ = u ∧ ed.to_ = u) :
    g.insertEdge ⟨u, u, w⟩ = some { g with
      table := upd g.table u (g.table u ++ [⟨u, u, w⟩]), n_edges := g.n_edges + 1 } := by
  have hall : ∀ x ∈ g.table u, Edge.links_same_nodes ⟨u, u, w⟩ x = false := by
    intro x hx
    by_contra hc
    exact hno ⟨x, hx, (links_eq_true_iff ⟨u, u, w⟩ x).1 (by simpa using hc)⟩
  have hnone : (g.table u).any (fun ed => Edge.links_same_nodes ⟨u, u, w⟩ ed) = false := by
    by_contra hc
    exact hno ((any_links_eq_true_iff ⟨u, u, w⟩ _).1 (by simpa using hc))
  have ha : edge_insertion g.table g.n_edges ⟨u, u, w⟩
      = (upd g.table u (g.table u ++ [⟨u, u, w⟩]), g.n_edges + 1) :=
    edge_insertion_new g.table g.n_edges ⟨u, u, w⟩ hnone
  have hrev : Edge.reverse ⟨u, u, w⟩ = ⟨u, u, w⟩ := rfl
  have hany : (upd g.table u (g.table u ++ [⟨u, u, w⟩]) u).any
      (fun ed => Edge.links_same_nodes ⟨u, u, w⟩ ed) = true := by
    rw [upd_same, List.any_append, List.any_cons, links_self]
    simp
  have hb : edge_insertion (upd g.table u (g.table u ++ [⟨u, u, w⟩])) (g.n_edges + 1)
      ⟨u, u, w⟩ = (upd g.table u (g.table u ++ [⟨u, u, w⟩]), g.n_edges + 1) := by
    rw [edge_insertion_old _ _ _ hany]
    show (upd (upd g.table u (g.table u ++ [⟨u, u, w⟩])) u
      (updateWeight ⟨u, u, w⟩ (upd g.table u (g.table u ++ [⟨u, u, w⟩]) u)), _) = _
    rw [upd_same, updateWeight_append_self _ _ hall, upd_upd]
  rw [Graph.insertEdge_eq g ⟨u, u, w⟩ ⟨h1, h2, h1, h2⟩, ha, hrev, hb]

/-- Inserting an edge between distinct vertices that are not linked stores one entry
at each end and counts two edges. -/
theorem Graph.insertEdge_fresh (g : Graph) (hg : g.WF) (e : Edge)
    (hr : 1 ≤ e.from_ ∧ e.from_ ≤ g.size ∧ 1 ≤ e.to_ ∧ e.to_ ≤ g.size)
    (hne : e.from_ ≠ e.to_) (hnew : ¬ ∃ ed ∈ g.table e.from_, ed.to_ = e.to_) :
    g.insertEdge e = some { g with
      table := upd (upd g.table e.from_ (g.table e.from_ ++ [e])) e.to_
        (g.table e.to_ ++ [e.reverse]),
      n_edges := g.n_edges + 1 + 1 } := by
  have hnone : (g.table e.from_).any (fun ed => e.links_same_nodes ed) = false := by
    by_contra hc
    obtain ⟨ed, hed, _, ht⟩ := (any_links_eq_true_iff e _).1 (by simpa using hc)
    exact hnew ⟨ed, hed, ht⟩
  have ha := edge_insertion_new g.table g.n_edges e hnone
  have hrf : e.reverse.from_ = e.to_ := rfl
  have hto : upd g.table e.from_ (g.table e.from_ ++ [e]) e.to_ = g.table e.to_ :=
    upd_other _ _ _ _ (Ne.symm hne)
  have hnone2 : (upd g.table e.from_ (g.table e.from_ ++ [e]) e.reverse.from_).any
      (fun ed => e.reverse.links_same_nodes ed) = false := by
    rw [hrf, hto]
    by_contra hc
    obtain ⟨ed, hed, hf, ht⟩ := (any_links_eq_true_iff e.reverse _).1 (by simpa using hc)
    have ht : ed.to_ = e.from_ := ht
    have hrev := hg.symm _ ed hed
    rw [ht] at hrev
    exact hnew ⟨ed.reverse, hrev, hf⟩
  have hb := edge_insertion_new _ (g.n_edges + 1) e.reverse hnone2
  rw [hrf, hto] at hb
  rw [Graph.insertEdge_eq g e hr, ha, hb]

/-- Removing a stored edge between distinct vertices drops the entry at each end and
counts two edges fewer. -/
theorem Graph.removeEdge_present (g : Graph) (hg : g.WF) (e : Edge)
    (hr : 1 ≤ e.from_ ∧ e.from_ ≤ g.size ∧ 1 ≤ e.to_ ∧ e.to_ ≤ g.size)
    (hne : e.from_ ≠ e.to_) (hold : ∃ ed ∈ g.table e.from_, ed.to_ = e.to_) :
    g.removeEdge e = some { g with
      table := upd (upd g.table e.from_ (eraseFirst e (g.table e.from_))) e.to_
        (eraseFirst e.reverse (g.table e.to_)),
      n_edges := g.n_edges - 1 - 1 } := by
  obtain ⟨ed, hed, ht⟩ := hold
  have hf : ed.from_ = e.from_ := (hg.edges _ ed hed).2.2.1
  have hany : (g.table e.from_).any (fun x => e.links_same_nodes x) = true :=
    (any_links_eq_true_iff e _).2 ⟨ed, hed, hf, ht⟩
  have ha := edgeRemoval_some g.table g.n_edges e hany
  have hrf : e.reverse.from_ = e.to_ := rfl
  have hto : upd g.table e.from_ (eraseFirst e (g.table e.from_)) e.to_ = g.table e.to_ :=
    upd_other _ _ _ _ (Ne.symm hne)
  have hany2 : (upd g.table e.from_ (eraseFirst e (g.table e.from_)) e.reverse.from_).any
      (fun x => e.reverse.links_same_nodes x) = true := by
    rw [hrf, hto]
    have hrev := hg.symm _ ed hed
    rw [ht] at hrev
    exact (any_links_eq_true_iff e.reverse _).2 ⟨ed.reverse, hrev, ht, hf⟩
  have hb := edgeRemoval_some _ (g.n_edges - 1) e.reverse hany2
  rw [hrf, hto] at hb
  exact Graph.removeEdge_eq g e _ _ _ _ hr ha hb

/-! ## The edge counter of an undirected graph counts the stored entries -/

theorem flatMap_upd_of_not_mem (l0 : List Int) (T : Int → List Edge) (u : Int)
    (l : List Edge) (hu : u ∉ l0) : l0.flatMap (upd T u l) = l0.flatMap T := by
  induction l0 with
  | nil => rfl
  | cons a l0 ih =>
    have hau : a ≠ u := fun h => hu (h ▸ List.mem_cons_self _ _)
    rw [List.flatMap_cons, List.flatMap_cons, upd_other _ _ _ _ hau,
      ih (fun h => hu (List.mem_cons_of_mem _ h))]

theorem flatMap_upd_length (l0 : List Int) (hl : l0.Nodup) (T : Int → List Edge) (u : Int)
    (l : List Edge) (hu : u ∈ l0) :
    ((l0.flatMap (upd T u l)).length : Int)
      = (l0.flatMap T).length - (T u).length + l.length := by
  induction l0 with
  | nil => simp at hu
  | cons a l0 ih =>
    rw [List.nodup_cons] at hl
    rw [List.flatMap_cons, List.flatMap_cons, List.length_append, List.length_append]
    rcases List.mem_cons.1 hu with rfl | hu'
    · rw [upd_same, flatMap_upd_of_not_mem l0 T u l hl.1]
      push_cast
      omega
    · have hau : a ≠ u := fun h => hl.1 (h ▸ hu')
      have := ih hl.2 hu'
      rw [upd_other _ _ _ _ hau]
      push_cast
      omega

theorem updateWeight_length (e : Edge) (l : List Edge) :
    (updateWeight e l).length = l.length := by
  have := congrArg List.length (updateWeight_targets e l)
  simpa using this

theorem eraseFirst_length (e : Edge) (l : List Edge)
    (h : l.any (fun ed => e.links_same_nodes ed) = true) :
    (eraseFirst e l).length + 1 = l.length := by
  obtain ⟨l1, ed, l2, e1, _, _, _, e5⟩ := updateWeight_split e l h
  rw [e5, e1]
  simp
  omega

/-- The lambda `edge_insertion` keeps the counter equal to the number of entries. -/
theorem edge_insertion_count (T : Int → List Edge) (n size : Int) (e : Edge)
    (h1 : 1 ≤ e.from_) (h2 : e.from_ ≤ size)
    (h : n = (((vertices size).flatMap T).length : Int)) :
    (edge_insertion T n e).2
      = (((vertices size).flatMap (edge_insertion T n e).1).length : Int) := by
  have hm := (mem_vertices size e.from_).2 ⟨h1, h2⟩
  by_cases hc : (T e.from_).any (fun ed => e.links_same_nodes ed) = true
  · rw [edge_insertion_old T n e hc]
    show n = _
    rw [flatMap_upd_length _ (vertices_nodup _) T _ _ hm, updateWeight_length, h]
    omega
  · rw [edge_insertion_new T n e (by simpa using hc)]
    show n + 1 = _
    rw [flatMap_upd_length _ (vertices_nodup _) T _ _ hm, List.length_append, h]
    push_cast
    simp
    omega

/-- The lambda `edgeRemoval` keeps the counter equal to the number of entries. -/
theorem edgeRemoval_count (T T1 : Int → List Edge) (n n1 size : Int) (e : Edge)
    (h1 : 1 ≤ e.from_) (h2 : e.from_ ≤ size)
    (h : n = (((vertices size).flatMap T).length : Int))
    (hr : edgeRemoval T n e = some (T1, n1)) :
    n1 = (((vertices size).flatMap T1).length : Int) := by
  have hm := (mem_vertices size e.from_).2 ⟨h1, h2⟩
  by_cases hc : (T e.from_).any (fun ed => e.links_same_nodes ed) = true
  · rw [edgeRemoval_some T n e hc] at hr
    simp only [Option.some.injEq, Prod.mk.injEq] at hr
    obtain ⟨hT, hn⟩ := hr
    subst hT
    rw [flatMap_upd_length _ (vertices_nodup _) T _ _ hm, ← hn, h]
    have := eraseFirst_length e _ hc
    omega
  · rw [edgeRemoval_none T n e (by simpa using hc)] at hr
    simp at hr

theorem Graph.insertEdge_count (g g1 : Graph) (e : Edge)
    (h : g.n_edges = (g.edges.length : Int)) (hi : g.insertEdge e = some g1) :
    g1.n_edges = (g1.edges.length : Int) := by
  by_cases hr : 1 ≤ e.from_ ∧ e.from_ ≤ g.size ∧ 1 ≤ e.to_ ∧ e.to_ ≤ g.size
  · rw [Graph.insertEdge_eq g e hr] at hi
    simp only [Option.some.injEq] at hi
    subst hi
    have ha := edge_insertion_count g.table g.n_edges g.size e hr.1 hr.2.1 h
    exact edge_insertion_count _ _ g.size e.reverse hr.2.2.1 hr.2.2.2 ha
  · unfold Graph.insertEdge at hi
    rw [if_neg hr] at hi
    simp at hi

theorem Graph.insertAll_count (V : List Edge) (g g1 : Graph)
    (h : g.n_edges = (g.edges.length : Int)) (hi : Graph.insertAll V g = some g1) :
    g1.n_edges = (g1.edges.length : Int) := by
  induction V generalizing g with
  | nil =>
    simp only [Graph.insertAll, Option.some.injEq] at hi
    exact hi ▸ h
  | cons e V ih =>
    unfold Graph.insertAll at hi
    split at hi
    · rename_i g2 h2
      exact ih g2 (Graph.insertEdge_count g g2 e h h2) hi
    · simp at hi

theorem Graph.create_count (n : Int) (g : Graph) (hc : Graph.create n = some g) :
    g.n_edges = (g.edges.length : Int) := by
  unfold Graph.create at hc
  split at hc
  · simp only [Option.some.injEq] at hc
    subst hc
    have key : ∀ l : List Int, l.flatMap (fun _ => ([] : List Edge)) = [] := by
      intro l
      induction l with
      | nil => rfl
      | cons a l ih => rw [List.flatMap_cons, ih, List.append_nil]
    show (0 : Int) = (((vertices n).flatMap (fun _ => ([] : List Edge))).length : Int)
    rw [key]
    rfl
  · simp at hc

/-- In a built undirected graph `n_edges` is the number of entries of the adjacency
lists, one per stored direction. -/
theorem Graph.Built.count {g : Graph} (hb : g.Built) : g.n_edges = (g.edges.length : Int) := by
  induction hb with
  | create n g _ hc => exact Graph.create_count n g hc
  | ofEdges V n g _ hc =>
    unfold Graph.ofEdges at hc
    split at hc
    · rename_i g0 h0
      exact Graph.insertAll_count V g0 g (Graph.create_count n g0 h0) hc
    · simp at hc
  | insertEdge g g1 e _ hi ih => exact Graph.insertEdge_count g g1 e ih hi
  | removeEdge g g1 e _ hi ih =>
    obtain ⟨hr, Ta, na, ha, hb2, hsz⟩ := Graph.removeEdge_cases g g1 e hi
    have h1 := edgeRemoval_count _ _ _ _ g.size e hr.1 hr.2.1 ih ha
    have h2 := edgeRemoval_count _ _ _ _ g.size e.reverse hr.2.2.1 hr.2.2.2 h1 hb2
    unfold Graph.edges
    rw [hsz]
    exact h2

/-- The empty undirected graph on two vertices, and what the code makes of inserting
the edge (1,2,5) and removing it again. -/
theorem counter_graph_facts :
    ∃ g g1 g2, Graph.create 2 = some g ∧ g.table 1 = [] ∧ g.table 2 = [] ∧
      g.n_edges = 0 ∧ g.insertEdge ⟨1, 2, 5⟩ = some g1 ∧ g1.n_edges = 2 ∧
      g1.table 1 = [⟨1, 2, 5⟩] ∧ g1.table 2 = [⟨2, 1, 5⟩] ∧
      g1.removeEdge ⟨1, 2, 5⟩ = some g2 ∧ g2.n_edges = 0 :=
  ⟨_, _, _, rfl, rfl, rfl, rfl, rfl, rfl, rfl, rfl, rfl, rfl⟩

/-- C14 fails as stated: on the empty undirected graph with two vertices, inserting the
edge (1,2,5), whose endpoints are not linked, takes `n_edges` from 0 to 2, and removing
it again takes `n_edges` from 2 to 0. -/
theorem Graph.n_edges_counterexample :
    ∃ g g1 g2, Graph.create 2 = some g ∧ g.Built ∧
      (¬ ∃ ed ∈ g.table 1, ed.to_ = 2) ∧ (¬ ∃ ed ∈ g.table 2, ed.to_ = 1) ∧
      g.insertEdge ⟨1, 2, 5⟩ = some g1 ∧ g1.n_edges ≠ g.n_edges + 1 ∧
      (⟨1, 2, 5⟩ : Edge) ∈ g1.table 1 ∧ g1.removeEdge ⟨1, 2, 5⟩ = some g2 ∧
      g2.n_edges ≠ g1.n_edges - 1 := by
  obtain ⟨g, g1, g2, hc, t1, t2, n0, hi, n1, u1, _, hr, n2⟩ := counter_graph_facts
  refine ⟨g, g1, g2, hc, Graph.Built.create 2 g (by decide) hc, ?_, ?_, hi, ?_, ?_, hr, ?_⟩
  · rw [t1]
    simp
  · rw [t2]
    simp
  · rw [n0, n1]
    decide
  · rw [u1]
    exact List.mem_singleton.2 rfl
  · rw [n1, n2]
    decide

/-- C14, amended: in an undirected graph obtained from the constructors by successful
`insertEdge` and `removeEdge` calls, `n_edges` is the number of entries of the adjacency
lists, so it moves once per stored direction: for an edge with endpoints in `1..n`,
`insertEdge` of an edge between distinct vertices that are not linked raises `n_edges`
by exactly 2, `insertEdge` of a self-loop where there is none raises it by exactly 1,
and `removeEdge` of a present edge between distinct vertices lowers it by exactly 2. -/
theorem Graph.n_edges_per_direction (g : Graph) (hb : g.Built) (e : Edge)
    (r1 : 1 ≤ e.from_) (r2 : e.from_ ≤ g.size) (r3 : 1 ≤ e.to_) (r4 : e.to_ ≤ g.size) :
    g.n_edges = (g.edges.length : Int) ∧
    (e.from_ ≠ e.to_ → (¬ ∃ ed ∈ g.table e.from_, ed.to_ = e.to_) →
      ∃ g1, g.insertEdge e = some g1 ∧ g1.n_edges = g.n_edges + 2) ∧
    (e.from_ = e.to_ → (¬ ∃ ed ∈ g.table e.from_, ed.to_ = e.to_) →
      ∃ g1, g.insertEdge e = some g1 ∧ g1.n_edges = g.n_edges + 1) ∧
    (e.from_ ≠ e.to_ → (∃ ed ∈ g.table e.from_, ed.to_ = e.to_) →
      ∃ g1, g.removeEdge e = some g1 ∧ g1.n_edges = g.n_edges - 2) := by
  have hg := hb.wf
  refine ⟨hb.count, ?_, ?_, ?_⟩
  · intro hne hnew
    refine ⟨_, Graph.insertEdge_fresh g hg e ⟨r1, r2, r3, r4⟩ hne hnew, ?_⟩
    show g.n_edges + 1 + 1 = g.n_edges + 2
    omega
  · intro heq hnew
    have he : e = ⟨e.from_, e.from_, e.weight⟩ := by
      cases e
      simp only [Edge.mk.injEq, true_and, and_true]
      exact heq.symm
    have hno : ¬ ∃ ed ∈ g.table e.from_, ed.from_ = e.from_ ∧ ed.to_ = e.from_ := by
      rintro ⟨ed, hed, _, ht⟩
      exact hnew ⟨ed, hed, by rw [ht, heq]⟩
    have := Graph.insertEdge_loop g e.from_ e.weight r1 r2 hno
    rw [← he] at this
    exact ⟨_, this, rfl⟩
  · intro hne hold
    refine ⟨_, Graph.removeEdge_present g hg e ⟨r1, r2, r3, r4⟩ hne hold, ?_⟩
    show g.n_edges - 1 - 1 = g.n_edges - 2
    omega

/-- C15: in an undirected graph obtained from the constructors by successful
`insertEdge` and `removeEdge` calls, `table[u]` holds the entry `(u, v, w)` exactly when
`table[v]` holds the entry `(v, u, w)`; after a successful `insertEdge(e)`, be it a new
edge or a weight update, `table[e.from]` holds `e` and `table[e.to]` holds its reverse,
each as the only entry for its pair; after a successful `removeEdge(e)` neither list
holds an entry for the pair. -/
theorem Graph.storage_symmetric (g : Graph) (hb : g.Built) :
    (∀ u v w, (⟨u, v, w⟩ : Edge) ∈ g.table u ↔ (⟨v, u, w⟩ : Edge) ∈ g.table v) ∧
    (∀ e g1, g.insertEdge e = some g1 →
      (∀ x, x ∈ g1.table e.from_ ∧ x.to_ = e.to_ ↔ x = e) ∧
      (∀ x, x ∈ g1.table e.to_ ∧ x.to_ = e.from_ ↔ x = e.reverse)) ∧
    (∀ e g1, g.removeEdge e = some g1 →
      (∀ x ∈ g1.table e.from_, x.to_ ≠ e.to_) ∧ (∀ x ∈ g1.table e.to_, x.to_ ≠ e.from_)) := by
  have hg := hb.wf
  refine ⟨?_, ?_, ?_⟩
  · intro u v w
    constructor
    · intro h
      exact hg.symm u _ h
    · intro h
      exact hg.symm v _ h
  · intro e g1 hi
    have hg1 := Graph.wf_insertEdge g g1 e hg hi
    have hin : e ∈ g1.table e.from_ := by
      by_cases hr : 1 ≤ e.from_ ∧ e.from_ ≤ g.size ∧ 1 ≤ e.to_ ∧ e.to_ ≤ g.size
      · have hfrom : ∀ u x, x ∈ g.table u → x.from_ = u :=
          fun u x hx => (hg.edges u x hx).2.2.1
        obtain ⟨m1, f1, n1⟩ := edge_insertion_spec g.table g.n_edges e hfrom hg.simple
        obtain ⟨m2, _, _⟩ := edge_insertion_spec (edge_insertion g.table g.n_edges e).1
          (edge_insertion g.table g.n_edges e).2 e.reverse f1 n1
        rw [Graph.insertEdge_eq g e hr] at hi
        simp only [Option.some.injEq] at hi
        subst hi
        show e ∈ (edge_insertion (edge_insertion g.table g.n_edges e).1
          (edge_insertion g.table g.n_edges e).2 e.reverse).1 e.from_
        rw [m2]
        by_cases hloop : e.from_ = e.to_
        · left
          refine ⟨hloop, ?_⟩
          cases e
          simp only [Edge.reverse, Edge.mk.injEq, and_true] at hloop ⊢
          exact ⟨hloop, hloop.symm⟩
        · right
          exact ⟨(m1 _ _).2 (Or.inl ⟨rfl, rfl⟩), fun h => hloop h.1⟩
      · unfold Graph.insertEdge at hi
        rw [if_neg hr] at hi
        simp at hi
    have hrev := hg1.symm _ e hin
    have huniq : ∀ (u : Int) (a b : Edge), a ∈ g1.table u → b ∈ g1.table u →
        a.to_ = b.to_ → a = b := by
      intro u a b ha hb2 hab
      exact List.inj_on_of_nodup_map (hg1.simple u) ha hb2 hab
    constructor
    · intro x
      constructor
      · rintro ⟨hx, ht⟩
        exact huniq _ x e hx hin ht
      · intro hx
        rw [hx]
        exact ⟨hin, rfl⟩
    · intro x
      constructor
      · rintro ⟨hx, ht⟩
        exact huniq _ x e.reverse hx hrev ht
      · intro hx
        rw [hx]
        exact ⟨hrev, rfl⟩
  · intro e g1 hr
    obtain ⟨_, _, hmem⟩ := Graph.removeEdge_spec g g1 e hg hr
    constructor
    · intro x hx ht
      exact ((hmem _ x).1 hx).2.1 ⟨rfl, ht⟩
    · intro x hx ht
      exact ((hmem _ x).1 hx).2.2 ⟨rfl, ht⟩

/-- C20: in an undirected graph, for a vertex `u` of `1..n` whose list holds no entry
`(u, u, _)`, `insertEdge((u, u, w))` succeeds, appends the single entry `(u, u, w)` to
`table[u]`, leaves the other lists alone and raises `n_edges` by 1; `removeEdge` of
`(u, u, w')` on the result fails for every `w'`: its first directional removal finds the
entry and its second finds none. -/
theorem Graph.self_loop_cannot_be_removed (g : Graph) (u w : Int)
    (h1 : 1 ≤ u) (h2 : u ≤ g.size)
    (hno : ¬ ∃ ed ∈ g.table u, ed.from_ = u ∧ ed.to_ = u) :
    ∃ g1, g.insertEdge ⟨u, u, w⟩ = some g1 ∧ g1.table u = g.table u ++ [⟨u, u, w⟩] ∧
      (∀ v, v ≠ u → g1.table v = g.table v) ∧ g1.n_edges = g.n_edges + 1 ∧
      ((g1.table u).filter (fun ed => decide (ed.from_ = u ∧ ed.to_ = u))).length = 1 ∧
      ∀ w1, (∃ Ta na, edgeRemoval g1.table g1.n_edges ⟨u, u, w1⟩ = some (Ta, na) ∧
          edgeRemoval Ta na (Edge.reverse ⟨u, u, w1⟩) = none) ∧
        g1.removeEdge ⟨u, u, w1⟩ = none := by
  have hall : ∀ w1, ∀ x ∈ g.table u, Edge.links_same_nodes ⟨u, u, w1⟩ x = false := by
    intro w1 x hx
    by_contra hc
    exact hno ⟨x, hx, (links_eq_true_iff ⟨u, u, w1⟩ x).1 (by simpa using hc)⟩
  have hnone : ∀ w1, (g.table u).any
      (fun ed => Edge.links_same_nodes ⟨u, u, w1⟩ ed) = false := by
    intro w1
    by_contra hc
    exact hno ((any_links_eq_true_iff ⟨u, u, w1⟩ _).1 (by simpa using hc))
  refine ⟨_, Graph.insertEdge_loop g u w h1 h2 hno, upd_same _ _ _,
    fun v hv => upd_other _ _ _ _ hv, rfl, ?_, ?_⟩
  · show ((upd g.table u (g.table u ++ [⟨u, u, w⟩]) u).filter
      (fun ed => decide (ed.from_ = u ∧ ed.to_ = u))).length = 1
    rw [upd_same, List.filter_append]
    have : (g.table u).filter (fun ed => decide (ed.from_ = u ∧ ed.to_ = u)) = [] := by
      rw [List.filter_eq_nil_iff]
      intro x hx hc
      simp only [decide_eq_true_eq] at hc
      exact hno ⟨x, hx, hc⟩
    rw [this]
    simp
  · intro w1
    have hl : Edge.links_same_nodes ⟨u, u, w1⟩ ⟨u, u, w⟩ = true := by
      simp [Edge.links_same_nodes]
    have hany : (upd g.table u (g.table u ++ [⟨u, u, w⟩]) u).any
        (fun ed => Edge.links_same_nodes ⟨u, u, w1⟩ ed) = true := by
      rw [upd_same, List.any_append, List.any_cons, hl]
      simp
    have herase : eraseFirst ⟨u, u, w1⟩ (g.table u ++ [⟨u, u, w⟩]) = g.table u := by
      have key : ∀ l : List Edge,
          (∀ x ∈ l, Edge.links_same_nodes ⟨u, u, w1⟩ x = false) →
          eraseFirst ⟨u, u, w1⟩ (l ++ [⟨u, u, w⟩]) = l := by
        intro l
        induction l with
        | nil =>
          intro _
          simp [eraseFirst, hl]
        | cons a l ih =>
          intro h
          have ha := h a (List.mem_cons_self _ _)
          rw [List.cons_append]
          simp only [eraseFirst, ha, Bool.false_eq_true, if_false]
          rw [ih (fun x hx => h x (List.mem_cons_of_mem _ hx))]
      exact key _ (hall w1)
    have ha : edgeRemoval (upd g.table u (g.table u ++ [⟨u, u, w⟩])) (g.n_edges + 1)
        ⟨u, u, w1⟩ = some (upd g.table u (g.table u), g.n_edges + 1 - 1) := by
      have := edgeRemoval_some (upd g.table u (g.table u ++ [⟨u, u, w⟩]))
        (g.n_edges + 1) ⟨u, u, w1⟩ hany
      rw [this]
      show some (upd (upd g.table u (g.table u ++ [⟨u, u, w⟩])) u
        (eraseFirst ⟨u, u, w1⟩ (upd g.table u (g.table u ++ [⟨u, u, w⟩]) u)), _) = _
      rw [upd_same, herase, upd_upd]
    have hb : edgeRemoval (upd g.table u (g.table u)) (g.n_edges + 1 - 1)
        (Edge.reverse ⟨u, u, w1⟩) = none := by
      apply edgeRemoval_none
      show ((upd g.table u (g.table u)) u).any
        (fun ed => Edge.links_same_nodes ⟨u, u, w1⟩ ed) = false
      rw [upd_same]
      exact hnone w1
    refine ⟨⟨_, _, ha, hb⟩, ?_⟩
    unfold Graph.removeEdge
    rw [if_pos ⟨h1, h2, h1, h2⟩]
    show (match edgeRemoval (upd g.table u (g.table u ++ [⟨u, u, w⟩])) (g.n_edges + 1)
      ⟨u, u, w1⟩ with
      | some a =>
        match edgeRemoval a.1 a.2 (Edge.reverse ⟨u, u, w1⟩) with
        | some b => some _
        | none => none
      | none => none) = none
    rw [ha]
    simp only [hb]

theorem Graph.n_edges_per_direction_witness :
    ∃ g, Graph.ofEdges [⟨2, 3, 1⟩] 3 = some g ∧ g.Built ∧ g.n_edges = 2 ∧
      g.edges = [⟨2, 3, 1⟩, ⟨3, 2, 1⟩] ∧ g.n_edges = (g.edges.length : Int) ∧
      (∃ g1, g.insertEdge ⟨1, 2, 5⟩ = some g1 ∧ g1.n_edges = g.n_edges + 2) ∧
      (∃ g1, g.insertEdge ⟨1, 1, 5⟩ = some g1 ∧ g1.n_edges = g.n_edges + 1) ∧
      (∃ g1, g.removeEdge ⟨2, 3, 1⟩ = some g1 ∧ g1.n_edges = g.n_edges - 2) :=
  ⟨_, rfl, Graph.Built.ofEdges [⟨2, 3, 1⟩] 3 _ (by decide) rfl, rfl, rfl,
    (Graph.n_edges_per_direction _ (Graph.Built.ofEdges [⟨2, 3, 1⟩] 3 _ (by decide) rfl)
      ⟨1, 2, 5⟩ (by decide) (by decide) (by decide) (by decide)).1,
    (Graph.n_edges_per_direction _ (Graph.Built.ofEdges [⟨2, 3, 1⟩] 3 _ (by decide) rfl)
      ⟨1, 2, 5⟩ (by decide) (by decide) (by decide) (by decide)).2.1 (by decide)
      (by decide),
    (Graph.n_edges_per_direction _ (Graph.Built.ofEdges [⟨2, 3, 1⟩] 3 _ (by decide) rfl)
      ⟨1, 1, 5⟩ (by decide) (by decide) (by decide) (by decide)).2.2.1 (by decide)
      (by decide),
    (Graph.n_edges_per_direction _ (Graph.Built.ofEdges [⟨2, 3, 1⟩] 3 _ (by decide) rfl)
      ⟨2, 3, 1⟩ (by decide) (by decide) (by decide) (by decide)).2.2.2 (by decide)
      (by decide)⟩

theorem Graph.storage_symmetric_witness :
    ∃ g, Graph.ofEdges [⟨1, 2, 4⟩, ⟨2, 3, 1⟩, ⟨2, 1, 6⟩] 3 = some g ∧ g.Built ∧
      g.table 1 = [⟨1, 2, 6⟩] ∧ g.table 2 = [⟨2, 1, 6⟩, ⟨2, 3, 1⟩] ∧
      g.table 3 = [⟨3, 2, 1⟩] ∧
      (∀ u v w, (⟨u, v, w⟩ : Edge) ∈ g.table u ↔ (⟨v, u, w⟩ : Edge) ∈ g.table v) ∧
      (∀ e g1, g.insertEdge e = some g1 →
        (∀ x, x ∈ g1.table e.from_ ∧ x.to_ = e.to_ ↔ x = e) ∧
        (∀ x, x ∈ g1.table e.to_ ∧ x.to_ = e.from_ ↔ x = e.reverse)) ∧
      (∀ e g1, g.removeEdge e = some g1 →
        (∀ x ∈ g1.table e.from_, x.to_ ≠ e.to_) ∧
        (∀ x ∈ g1.table e.to_, x.to_ ≠ e.from_)) :=
  ⟨_, rfl, Graph.Built.ofEdges [⟨1, 2, 4⟩, ⟨2, 3, 1⟩, ⟨2, 1, 6⟩] 3 _ (by decide) rfl,
    rfl, rfl, rfl,
    Graph.storage_symmetric _
      (Graph.Built.ofEdges [⟨1, 2, 4⟩, ⟨2, 3, 1⟩, ⟨2, 1, 6⟩] 3 _ (by decide) rfl)⟩

theorem Graph.self_loop_cannot_be_removed_witness :
    ∃ g, Graph.ofEdges [⟨1, 2, 4⟩] 2 = some g ∧
      (¬ ∃ ed ∈ g.table 1, ed.from_ = 1 ∧ ed.to_ = 1) ∧
      ∃ g1, g.insertEdge ⟨1, 1, 5⟩ = some g1 ∧ g1.table 1 = g.table 1 ++ [⟨1, 1, 5⟩] ∧
        (∀ v, v ≠ 1 → g1.table v = g.table v) ∧ g1.n_edges = g.n_edges + 1 ∧
        ((g1.table 1).filter (fun ed => decide (ed.from_ = 1 ∧ ed.to_ = 1))).length = 1 ∧
        ∀ w1, (∃ Ta na, edgeRemoval g1.table g1.n_edges ⟨1, 1, w1⟩ = some (Ta, na) ∧
            edgeRemoval Ta na (Edge.reverse ⟨1, 1, w1⟩) = none) ∧
          g1.removeEdge ⟨1, 1, w1⟩ = none :=
  ⟨_, rfl, by decide,
    Graph.self_loop_cannot_be_removed _ 1 5 (by decide) (by decide) (by decide)⟩

/-! ## The tree built by `uwsssp` -/

/-- In a state that satisfies the invariant, a reached vertex at distance zero is the
source. -/
theorem BfsInv.dist_zero {g : Digraph} {s : Int} {st : BfsState} (hinv : BfsInv g s st)
    (v : Int) (v1 : 1 ≤ v) (v2 : v ≤ g.size) (hv : st.dist v ≠ INT_MAX)
    (h0 : st.dist v = 0) : v = s := by
  by_contra hvs
  obtain ⟨p1, p2, p3, _, p5⟩ := hinv.tree v v1 v2 hv hvs
  have := (hinv.sound _ p1 p2 p3).1
  omega

/-- Following the parent pointers from a reached vertex arrives at the source after as
many steps as its distance, and not before. -/
theorem BfsInv.follow_path {g : Digraph} {s : Int} {st : BfsState} (hinv : BfsInv g s st) :
    ∀ (d : Nat) (v : Int), 1 ≤ v → v ≤ g.size → st.dist v ≠ INT_MAX → st.dist v = d →
      follow st.path d v = s ∧ ∀ j, j < d → follow st.path j v ≠ s := by
  intro d
  induction d with
  | zero =>
    intro v v1 v2 hv hd
    refine ⟨?_, fun j hj => absurd hj (Nat.not_lt_zero j)⟩
    exact BfsInv.dist_zero hinv v v1 v2 hv (by simpa using hd)
  | succ d ih =>
    intro v v1 v2 hv hd
    have hvs : v ≠ s := by
      intro e
      rw [e, hinv.src] at hd
      push_cast at hd
      omega
    obtain ⟨p1, p2, p3, _, p5⟩ := hinv.tree v v1 v2 hv hvs
    obtain ⟨a, b⟩ := ih (st.path v) p1 p2 p3 (by push_cast at hd; omega)
    refine ⟨a, ?_⟩
    intro j hj
    cases j with
    | zero => exact hvs
    | succ j => exact b j (by omega)

/-- The recursion of `printPathRecursion` from a reached vertex writes the tree path
from the source to it. -/
theorem BfsInv.print_path {g : Digraph} {s : Int} {st : BfsState} (hinv : BfsInv g s st) :
    ∀ (d : Nat) (v : Int) (fuel : Nat), 1 ≤ v → v ≤ g.size → st.dist v ≠ INT_MAX →
      st.dist v = d → d < fuel →
      ∃ l, printPathRecursion st.path fuel v = some l ∧ l.length = d + 1 ∧
        l.head? = some s ∧ l.getLast? = some v := by
  intro d
  induction d with
  | zero =>
    intro v fuel v1 v2 hv hd hf
    have hvs := BfsInv.dist_zero hinv v v1 v2 hv (by simpa using hd)
    subst hvs
    obtain ⟨f, rfl⟩ : ∃ f, fuel = f + 1 := ⟨fuel - 1, by omega⟩
    exact ⟨[v], by simp [printPathRecursion, hinv.root], rfl, rfl, rfl⟩
  | succ d ih =>
    intro v fuel v1 v2 hv hd hf
    have hvs : v ≠ s := by
      intro e
      rw [e, hinv.src] at hd
      push_cast at hd
      omega
    obtain ⟨p1, p2, p3, _, p5⟩ := hinv.tree v v1 v2 hv hvs
    obtain ⟨f, rfl⟩ : ∃ f, fuel = f + 1 := ⟨fuel - 1, by omega⟩
    obtain ⟨l, hl, hlen, hhead, _⟩ :=
      ih (st.path v) f p1 p2 p3 (by push_cast at hd; omega) (by omega)
    have hp0 : st.path v ≠ 0 := by omega
    refine ⟨l ++ [v], ?_, ?_, ?_, ?_⟩
    · simp [printPathRecursion, hp0, hl]
    · rw [List.length_append, hlen]
      rfl
    · cases l with
      | nil => simp at hlen
      | cons a t => simpa using hhead
    · simp

/-- C16: on a directed graph and a source `s` of `1..n`, `uwsssp(s)` returns with
`path[s] = 0`; for every vertex `v` other than `s` with `dist[v]` not `INT_MAX`, the
parent `p = path[v]` is a vertex of `1..n` with `dist[p]` not `INT_MAX`, the graph has an
edge from `p` to `v`, and `dist[v] = dist[p] + 1`; following the parent pointers from a
vertex `v` with `dist[v]` not `INT_MAX` arrives at `s` after exactly `dist[v]` steps, and
`printPath(v)` writes a path of `dist[v] + 1` vertices that starts at `s` and ends at
`v`. -/
theorem Digraph.uwsssp_tree (g : Digraph) (hg : g.WF) (s : Int)
    (hs1 : 1 ≤ s) (hs2 : s ≤ g.size) :
    ∃ g1, g.uwsssp s = some g1 ∧ g1.path s = 0 ∧ g1.dist s = 0 ∧
      (∀ v, 1 ≤ v → v ≤ g.size → g1.dist v ≠ INT_MAX → v ≠ s →
        1 ≤ g1.path v ∧ g1.path v ≤ g.size ∧ g1.dist (g1.path v) ≠ INT_MAX ∧
        (∃ e ∈ g.table (g1.path v), e.from_ = g1.path v ∧ e.to_ = v) ∧
        g1.dist v = g1.dist (g1.path v) + 1) ∧
      (∀ v, 1 ≤ v → v ≤ g.size → g1.dist v ≠ INT_MAX →
        0 ≤ g1.dist v ∧ follow g1.path (g1.dist v).toNat v = s ∧
        (∀ j, j < (g1.dist v).toNat → follow g1.path j v ≠ s) ∧
        ∃ l, g1.printPath v = some (l, g1.dist v) ∧
          l.length = (g1.dist v).toNat + 1 ∧ l.head? = some s ∧ l.getLast? = some v) := by
  obtain ⟨hinit, hfuel⟩ := BfsInv.init hg hs1 hs2
  obtain ⟨st, hloop, hinv, hQ⟩ := BfsInv.loop hg (g.size.toNat + 1) _ hinit (by
    show unvisited g.size (upd (uwsssp_init g.size g.dist g.path).1 s 0) + [s].length
      < g.size.toNat + 1
    rw [List.length_singleton]
    omega)
  refine ⟨{ g with dist := st.dist, path := st.path }, ?_, hinv.root, hinv.src, ?_, ?_⟩
  · unfold Digraph.uwsssp
    rw [if_pos ⟨hs1, hs2⟩]
    simp only [hloop]
  · intro v v1 v2 hv hvs
    obtain ⟨p1, p2, p3, ⟨e, he, het⟩, p5⟩ := hinv.tree v v1 v2 hv hvs
    exact ⟨p1, p2, p3, ⟨e, he, (hg.edges _ e he).2.2.1, het⟩, p5⟩
  · intro v v1 v2 hv
    have hv : st.dist v ≠ INT_MAX := hv
    have h0 := (hinv.sound v v1 v2 hv).1
    have hd : st.dist v = ((st.dist v).toNat : Int) := by omega
    obtain ⟨a, b⟩ := BfsInv.follow_path hinv _ v v1 v2 hv hd
    have hcount := hinv.count v v1 v2 hv
    obtain ⟨l, hl, c1, c2, c3⟩ := BfsInv.print_path hinv _ v g.size.toNat v1 v2 hv hd
      (by omega)
    refine ⟨h0, a, b, l, ?_, c1, c2, c3⟩
    show Digraph.printPath { g with dist := st.dist, path := st.path } v = _
    unfold Digraph.printPath
    rw [if_pos ⟨v1, v2⟩]
    simp only [hl]

theorem Digraph.uwsssp_tree_witness :
    ∃ g, Digraph.ofEdges [⟨1, 2, 1⟩, ⟨1, 3, 1⟩, ⟨2, 4, 1⟩, ⟨3, 4, 1⟩, ⟨4, 5, 1⟩] 5 = some g ∧
      g.WF ∧
      (∃ g1, g.uwsssp 1 = some g1 ∧ (vertices 5).map g1.path = [0, 1, 1, 2, 4] ∧
        g1.printPath 5 = some ([1, 2, 4, 5], 3)) ∧
      ∃ g1, g.uwsssp 1 = some g1 ∧ g1.path 1 = 0 ∧ g1.dist 1 = 0 ∧
        (∀ v, 1 ≤ v → v ≤ g.size → g1.dist v ≠ INT_MAX → v ≠ 1 →
          1 ≤ g1.path v ∧ g1.path v ≤ g.size ∧ g1.dist (g1.path v) ≠ INT_MAX ∧
          (∃ e ∈ g.table (g1.path v), e.from_ = g1.path v ∧ e.to_ = v) ∧
          g1.dist v = g1.dist (g1.path v) + 1) ∧
        (∀ v, 1 ≤ v → v ≤ g.size → g1.dist v ≠ INT_MAX →
          0 ≤ g1.dist v ∧ follow g1.path (g1.dist v).toNat v = 1 ∧
          (∀ j, j < (g1.dist v).toNat → follow g1.path j v ≠ 1) ∧
          ∃ l, g1.printPath v = some (l, g1.dist v) ∧
            l.length = (g1.dist v).toNat + 1 ∧ l.head? = some 1 ∧
            l.getLast? = some v) :=
  ⟨_, rfl,
    Digraph.ofEdges_wf [⟨1, 2, 1⟩, ⟨1, 3, 1⟩, ⟨2, 4, 1⟩, ⟨3, 4, 1⟩, ⟨4, 5, 1⟩] 5 _ rfl
      (by decide),
    ⟨_, rfl, by decide, by decide⟩,
    Digraph.uwsssp_tree _
      (Digraph.ofEdges_wf [⟨1, 2, 1⟩, ⟨1, 3, 1⟩, ⟨2, 4, 1⟩, ⟨3, 4, 1⟩, ⟨4, 5, 1⟩] 5 _ rfl
        (by decide)) 1 (by decide) (by decide)⟩

/-! ## The tree built by `pwsssp` -/

theorem wrap_range (x : Int) : -2147483648 ≤ wrap x ∧ wrap x ≤ 2147483647 := by
  unfold wrap
  omega

/-- One iteration of the loop over the edges of `cur` that lowers a distance keeps the
tree invariant. -/
theorem DijkstraTree.relax_one {g : Digraph} {s cur : Int} {st : DijkstraState} (e : Edge)
    (he : e ∈ g.table cur) (hinv : DijkstraTree g s cur st) (hdt : st.done e.to_ = false) :
    DijkstraTree g s cur ⟨upd st.dist e.to_ (wrap (st.dist cur + e.weight)),
      upd st.path e.to_ cur, st.done⟩ := by
  have hd : ∀ x, st.done x = true →
      upd st.dist e.to_ (wrap (st.dist cur + e.weight)) x = st.dist x := by
    intro x hx
    exact upd_other _ _ _ _ (fun h => by rw [h, hdt] at hx; exact absurd hx (by decide))
  have hst : s ≠ e.to_ := fun h => by
    have := hinv.src_done
    rw [h, hdt] at this
    exact absurd this (by decide)
  obtain ⟨c1, c2⟩ := hinv.cur_range
  constructor
  · show upd st.dist e.to_ (wrap (st.dist cur + e.weight)) s = 0
    rw [hd s hinv.src_done]
    exact hinv.src
  · exact hinv.src_done
  · show upd st.path e.to_ cur s = 0
    rw [upd_other _ _ _ _ hst]
    exact hinv.root
  · exact hinv.cur_range
  · exact hinv.cur_done
  · intro v v1 v2
    show -2147483648 ≤ upd st.dist e.to_ (wrap (st.dist cur + e.weight)) v ∧
      upd st.dist e.to_ (wrap (st.dist cur + e.weight)) v ≤ INT_MAX
    by_cases hv : v = e.to_
    · rw [hv, upd_same]
      exact wrap_range _
    · rw [upd_other _ _ _ _ hv]
      exact hinv.int_range v v1 v2
  · intro x x1 x2 hx
    show upd st.dist e.to_ (wrap (st.dist cur + e.weight)) x ≠ INT_MAX
    rw [hd x hx]
    exact hinv.settled x x1 x2 hx
  · intro v v1 v2 hv hvs
    show 1 ≤ upd st.path e.to_ cur v ∧ upd st.path e.to_ cur v ≤ g.size ∧
      st.done (upd st.path e.to_ cur v) = true ∧
      ∃ a ∈ g.table (upd st.path e.to_ cur v), a.to_ = v ∧
        upd st.dist e.to_ (wrap (st.dist cur + e.weight)) v
          = wrap (upd st.dist e.to_ (wrap (st.dist cur + e.weight))
              (upd st.path e.to_ cur v) + a.weight)
    by_cases hve : v = e.to_
    · subst hve
      rw [upd_same, upd_same, hd cur hinv.cur_done]
      exact ⟨c1, c2, hinv.cur_done, e, he, rfl, rfl⟩
    · have hv : upd st.dist e.to_ (wrap (st.dist cur + e.weight)) v ≠ INT_MAX := hv
      rw [upd_other _ _ _ _ hve] at hv ⊢
      rw [upd_other _ _ _ _ hve]
      obtain ⟨p1, p2, p3, a, ha, hat, hda⟩ := hinv.tree v v1 v2 hv hvs
      rw [hd _ p3]
      exact ⟨p1, p2, p3, a, ha, hat, hda⟩

/-- The loop over the edges of `cur` keeps the tree invariant and the settled flags. -/
theorem DijkstraTree.relax_edges {g : Digraph} {s cur : Int} :
    ∀ (es : List Edge) (st : DijkstraState), (∀ e ∈ es, e ∈ g.table cur) →
      DijkstraTree g s cur st →
      DijkstraTree g s cur (pwsssp_edges cur es st) ∧
      (pwsssp_edges cur es st).done = st.done := by
  intro es
  induction es with
  | nil =>
    intro st _ hinv
    exact ⟨hinv, rfl⟩
  | cons e es ih =>
    intro st hes hinv
    have he : e ∈ g.table cur := hes e (List.mem_cons_self _ _)
    have hes' : ∀ a ∈ es, a ∈ g.table cur := fun a ha => hes a (List.mem_cons_of_mem _ ha)
    by_cases hc : st.done e.to_ = false ∧ st.dist e.to_ > wrap (st.dist cur + e.weight)
    · have hstep : pwsssp_edges cur (e :: es) st = pwsssp_edges cur es
          ⟨upd st.dist e.to_ (wrap (st.dist cur + e.weight)), upd st.path e.to_ cur,
            st.done⟩ := by
        rw [pwsssp_edges, if_pos hc]
      rw [hstep]
      exact ih _ hes' (DijkstraTree.relax_one e he hinv hc.1)
    · have hstep : pwsssp_edges cur (e :: es) st = pwsssp_edges cur es st := by
        rw [pwsssp_edges, if_neg hc]
      rw [hstep]
      exact ih st hes' hinv

/-- Settling an unsettled vertex whose distance is not `INT_MAX` keeps the tree
invariant, with that vertex as the one settled last. -/
theorem DijkstraTree.settle_next {g : Digraph} {s cur : Int} {st : DijkstraState}
    (hinv : DijkstraTree g s cur st) (u : Int) (u1 : 1 ≤ u) (u2 : u ≤ g.size)
    (hlt : st.dist u < INT_MAX) :
    DijkstraTree g s u { st with done := upd st.done u true } := by
  have hmono : ∀ x, st.done x = true → upd st.done u true x = true := by
    intro x hx
    by_cases hxu : x = u
    · rw [hxu, upd_same]
    · rw [upd_other _ _ _ _ hxu]
      exact hx
  constructor
  · exact hinv.src
  · exact hmono s hinv.src_done
  · exact hinv.root
  · exact ⟨u1, u2⟩
  · exact upd_same _ _ _
  · exact hinv.int_range
  · intro x x1 x2 hx
    have hx : upd st.done u true x = true := hx
    show st.dist x ≠ INT_MAX
    by_cases hxu : x = u
    · rw [hxu]
      omega
    · rw [upd_other _ _ _ _ hxu] at hx
      exact hinv.settled x x1 x2 hx
  · intro v v1 v2 hv hvs
    obtain ⟨p1, p2, p3, h4⟩ := hinv.tree v v1 v2 hv hvs
    exact ⟨p1, p2, hmono _ p3, h4⟩

/-- The `while (true)` loop ends within `undone` further iterations, on a state that
satisfies the tree invariant. -/
theorem DijkstraTree.to_exit {g : Digraph} {s : Int} :
    ∀ (fuel : Nat) (cur : Int) (st : DijkstraState), DijkstraTree g s cur st →
      undone g.size st.done < fuel →
      ∃ st1 cur1, pwsssp_loop g.table g.size fuel cur st = some st1 ∧
        DijkstraTree g s cur1 st1 := by
  intro fuel
  induction fuel with
  | zero =>
    intro cur st _ h
    omega
  | succ k ih =>
    intro cur st hinv hfuel
    obtain ⟨i1, i2⟩ := DijkstraTree.relax_edges (g.table cur) st (fun e he => he) hinv
    rcases find_smallest_spec g.size (pwsssp_edges cur (g.table cur) st).dist
      (pwsssp_edges cur (g.table cur) st).done with ⟨h0, _⟩ | ⟨u1, u2, hu, hlt, _⟩
    · refine ⟨_, cur, ?_, i1⟩
      simp only [pwsssp_loop, h0, if_true]
    · have hne : find_smallest_undone_distance_vertex g.size
          (pwsssp_edges cur (g.table cur) st).dist
          (pwsssp_edges cur (g.table cur) st).done ≠ 0 := by omega
      have hstep : pwsssp_loop g.table g.size (k + 1) cur st
          = pwsssp_loop g.table g.size k
              (find_smallest_undone_distance_vertex g.size
                (pwsssp_edges cur (g.table cur) st).dist
                (pwsssp_edges cur (g.table cur) st).done)
              { pwsssp_edges cur (g.table cur) st with
                done := upd (pwsssp_edges cur (g.table cur) st).done
                  (find_smallest_undone_distance_vertex g.size
                    (pwsssp_edges cur (g.table cur) st).dist
                    (pwsssp_edges cur (g.table cur) st).done) true } := by
        simp only [pwsssp_loop, hne, if_false]
      rw [hstep]
      apply ih
      · exact DijkstraTree.settle_next i1 _ u1 u2 hlt
      · have := undone_upd g.size (pwsssp_edges cur (g.table cur) st).done _ u1 u2 hu
        rw [i2] at this
        show undone g.size (upd (pwsssp_edges cur (g.table cur) st).done _ true) < k
        rw [i2]
        omega

/-- The state in which `pwsssp` enters its loop satisfies the tree invariant. -/
theorem DijkstraTree.at_start {g : Digraph} {s : Int} (hs1 : 1 ≤ s) (hs2 : s ≤ g.size)
    (i : DijkstraState)
    (hi : ∀ v, 1 ≤ v → v ≤ g.size → i.dist v = INT_MAX ∧ i.path v = 0 ∧ i.done v = false) :
    DijkstraTree g s s ⟨upd i.dist s 0, i.path, upd i.done s true⟩ ∧
    undone g.size (upd i.done s true) < g.size.toNat := by
  have hunv := undone_upd g.size i.done s hs1 hs2 (hi s hs1 hs2).2.2
  have hle : undone g.size i.done ≤ g.size.toNat := by
    unfold undone
    rw [← vertices_length g.size]
    exact List.length_filter_le _ _
  have hss : upd i.dist s 0 s = 0 := upd_same _ _ _
  have hdist : ∀ x, 1 ≤ x → x ≤ g.size → upd i.dist s 0 x ≠ INT_MAX → x = s := by
    intro x x1 x2 hx
    by_contra hxs
    rw [upd_other _ _ _ _ hxs] at hx
    exact hx (hi x x1 x2).1
  refine ⟨?_, by omega⟩
  constructor
  · exact hss
  · exact upd_same _ _ _
  · exact (hi s hs1 hs2).2.1
  · exact ⟨hs1, hs2⟩
  · exact upd_same _ _ _
  · intro v v1 v2
    show -2147483648 ≤ upd i.dist s 0 v ∧ upd i.dist s 0 v ≤ INT_MAX
    by_cases hvs : v = s
    · rw [hvs, hss]
      decide
    · rw [upd_other _ _ _ _ hvs, (hi v v1 v2).1]
      decide
  · intro x x1 x2 hx
    have hx : upd i.done s true x = true := hx
    show upd i.dist s 0 x ≠ INT_MAX
    by_cases hxs : x = s
    · rw [hxs, hss]
      decide
    · rw [upd_other _ _ _ _ hxs, (hi x x1 x2).2.2] at hx
      exact absurd hx (by decide)
  · intro v v1 v2 hv hvs
    exact absurd (hdist v v1 v2 hv) hvs

/-- The graph with the edges (1,2,2147483646) and (2,3,5), as evaluated by the code. -/
theorem overflow_digraph_facts :
    ∃ g g1, Digraph.ofEdges [⟨1, 2, 2147483646⟩, ⟨2, 3, 5⟩] 3 = some g ∧ g.size = 3 ∧
      g.table 1 = [⟨1, 2, 2147483646⟩] ∧ g.table 2 = [⟨2, 3, 5⟩] ∧ g.table 3 = [] ∧
      g.pwsssp 1 = some g1 ∧ g1.dist 2 = 2147483646 ∧ g1.dist 3 = -2147483645 ∧
      g1.path 3 = 2 :=
  ⟨_, _, rfl, rfl, rfl, rfl, rfl, rfl, by decide, by decide, by decide⟩

/-- C17 fails as stated: with the edges (1,2,2147483646) and (2,3,5), all weights are
non-negative, and after `pwsssp(1)` vertex 3 has the parent 2 and a distance other than
`INT_MAX`, namely -2147483645, which is not `dist[2] + w` for the edge from 2 to 3: that
sum is 2147483651 and does not fit an `int`. -/
theorem Digraph.pwsssp_tree_counterexample :
    ∃ g g1, Digraph.ofEdges [⟨1, 2, 2147483646⟩, ⟨2, 3, 5⟩] 3 = some g ∧ g.WF ∧
      (∀ u e, e ∈ g.table u → 0 ≤ e.weight) ∧ g.pwsssp 1 = some g1 ∧
      g1.dist 3 ≠ INT_MAX ∧ g1.path 3 = 2 ∧
      ∀ e ∈ g.table (g1.path 3), e.to_ = 3 → g1.dist 3 ≠ g1.dist (g1.path 3) + e.weight := by
  obtain ⟨g, g1, hof, hsz, t1, t2, t3, hrun, d2, d3, p3⟩ := overflow_digraph_facts
  have hg : g.WF := Digraph.ofEdges_wf _ 3 g hof (by decide)
  refine ⟨g, g1, hof, hg, ?_, hrun, ?_, p3, ?_⟩
  · intro u e he
    obtain ⟨u1, u2, _⟩ := hg.edges u e he
    rw [hsz] at u2
    interval_cases u
    · rw [t1, List.mem_singleton] at he
      rw [he]
      decide
    · rw [t2, List.mem_singleton] at he
      rw [he]
      decide
    · rw [t3] at he
      exact absurd he (List.not_mem_nil e)
  · rw [d3]
    decide
  · intro e he _
    rw [p3, t2, List.mem_singleton] at he
    rw [p3, d3, d2, he]
    decide

/-- C17, amended: on a directed graph with non-negative weights and a source `s` of
`1..n`, `pwsssp(s)` returns with `path[s] = 0`; for every vertex `v` other than `s` with
`dist[v]` not `INT_MAX`, the parent `p = path[v]` is a vertex of `1..n` with `dist[p]`
not `INT_MAX`, and the graph has an edge from `p` to `v` with a weight `w` such that
`dist[v]` is `dist[p] + w` reduced to the 32 bits of an `int`; so `dist[v] = dist[p] + w`
whenever `dist[p] + w` does not exceed `INT_MAX`. -/
theorem Digraph.pwsssp_tree (g : Digraph) (hg : g.WF)
    (hw : ∀ u e, e ∈ g.table u → 0 ≤ e.weight) (s : Int) (hs1 : 1 ≤ s) (hs2 : s ≤ g.size) :
    ∃ g1, g.pwsssp s = some g1 ∧ g1.path s = 0 ∧ g1.dist s = 0 ∧
      ∀ v, 1 ≤ v → v ≤ g.size → g1.dist v ≠ INT_MAX → v ≠ s →
        1 ≤ g1.path v ∧ g1.path v ≤ g.size ∧ g1.dist (g1.path v) ≠ INT_MAX ∧
        ∃ e ∈ g.table (g1.path v), e.from_ = g1.path v ∧ e.to_ = v ∧
          g1.dist v = wrap (g1.dist (g1.path v) + e.weight) ∧
          (g1.dist (g1.path v) + e.weight ≤ INT_MAX →
            g1.dist v = g1.dist (g1.path v) + e.weight) := by
  obtain ⟨hinit, hfuel⟩ := DijkstraTree.at_start (g := g) hs1 hs2
    (pwsssp_init g.size ⟨g.dist, g.path, g.done⟩)
    (fun v v1 v2 => pwsssp_init_apply g.size _ v v1 v2)
  obtain ⟨st, cur, hloop, hinv⟩ := DijkstraTree.to_exit g.size.toNat s _ hinit hfuel
  refine ⟨{ g with dist := st.dist, path := st.path, done := st.done }, ?_,
    hinv.root, hinv.src, ?_⟩
  · unfold Digraph.pwsssp
    rw [if_pos ⟨hs1, hs2⟩]
    simp only [hloop]
  · intro v v1 v2 hv hvs
    obtain ⟨p1, p2, p3, e, he, het, hd⟩ := hinv.tree v v1 v2 hv hvs
    refine ⟨p1, p2, hinv.settled _ p1 p2 p3, e, he, (hg.edges _ e he).2.2.1, het, hd, ?_⟩
    intro hle
    show st.dist v = st.dist (st.path v) + e.weight
    rw [hd]
    apply wrap_of_range
    · have := (hinv.int_range _ p1 p2).1
      have := hw _ e he
      omega
    · unfold INT_MAX at hle
      exact hle

theorem Digraph.pwsssp_tree_witness :
    ∃ g, Digraph.ofEdges [⟨1, 2, 4⟩, ⟨2, 3, 1⟩, ⟨1, 3, 7⟩] 3 = some g ∧ g.WF ∧
      (∀ u e, e ∈ g.table u → 0 ≤ e.weight) ∧
      (∃ g1, g.pwsssp 1 = some g1 ∧ (vertices 3).map g1.dist = [0, 4, 5] ∧
        (vertices 3).map g1.path = [0, 1, 2]) ∧
      ∃ g1, g.pwsssp 1 = some g1 ∧ g1.path 1 = 0 ∧ g1.dist 1 = 0 ∧
        ∀ v, 1 ≤ v → v ≤ g.size → g1.dist v ≠ INT_MAX → v ≠ 1 →
          1 ≤ g1.path v ∧ g1.path v ≤ g.size ∧ g1.dist (g1.path v) ≠ INT_MAX ∧
          ∃ e ∈ g.table (g1.path v), e.from_ = g1.path v ∧ e.to_ = v ∧
            g1.dist v = wrap (g1.dist (g1.path v) + e.weight) ∧
            (g1.dist (g1.path v) + e.weight ≤ INT_MAX →
              g1.dist v = g1.dist (g1.path v) + e.weight) := by
  obtain ⟨g, hof, hsz, t1, t2, t3⟩ := small_digraph_facts
  have hg : g.WF := Digraph.ofEdges_wf _ 3 g hof (by decide)
  have hw : ∀ u e, e ∈ g.table u → 0 ≤ e.weight := by
    intro u e he
    obtain ⟨u1, u2, _⟩ := hg.edges u e he
    rw [hsz] at u2
    interval_cases u
    · rw [t1] at he
      simp only [List.mem_cons, List.mem_singleton, List.not_mem_nil, or_false] at he
      rcases he with rfl | rfl <;> decide
    · rw [t2, List.mem_singleton] at he
      rw [he]
      decide
    · rw [t3] at he
      exact absurd he (List.not_mem_nil e)
  have hrun : ∃ g1, g.pwsssp 1 = some g1 ∧ (vertices 3).map g1.dist = [0, 4, 5] ∧
      (vertices 3).map g1.path = [0, 1, 2] := by
    have hof2 : Digraph.ofEdges [⟨1, 2, 4⟩, ⟨2, 3, 1⟩, ⟨1, 3, 7⟩] 3 = some g := hof
    have key : ∃ g0 g1, Digraph.ofEdges [⟨1, 2, 4⟩, ⟨2, 3, 1⟩, ⟨1, 3, 7⟩] 3 = some g0 ∧
        g0.pwsssp 1 = some g1 ∧ (vertices 3).map g1.dist = [0, 4, 5] ∧
        (vertices 3).map g1.path = [0, 1, 2] := ⟨_, _, rfl, rfl, by decide, by decide⟩
    obtain ⟨g0, g1, h0, h1, h2, h3⟩ := key
    rw [hof2] at h0
    simp only [Option.some.injEq] at h0
    subst h0
    exact ⟨g1, h1, h2, h3⟩
  exact ⟨g, hof, hg, hw, hrun, Digraph.pwsssp_tree g hg hw 1 (by decide) (by rw [hsz]; decide)⟩

end TND004
